import Mathlib

/-!
# go-randdata: generators and Reader

A shallow embedding of `gen.go`, `gen_zero.go`, `gen_binary.go`, `gen_text.go`,
`type.go`, `error.go` and `reader.go`.

Conventions.
* A Go `[]byte` and a Go `string` are both `List Nat` (one entry per byte).
* `*rand.Rand` (package `math/rand`) is outside the repository.  It is taken as a
  parameter `R : Rand σ`: a state type `σ` with the two methods the code calls,
  `Read` and `Intn`, and the facts the standard library documents about them.
  A method that mutates the `*rand.Rand` returns the new state.
* A run-time panic (index or slice out of range) and a loop that has used up its
  fuel are results of type `Fault`; a function that can reach one returns
  `Except Fault _`.
* `infounit.ByteCount` (package go-infounit) is outside the repository; the spec
  describes byte counts as non-negative integers with subtraction, so a byte
  count is a `Nat`.  Go `int` values are lengths of slices and are `Nat` as
  well; the `int64` count of `WriteTo` is an `Int`.  None of them wraps around.
* The mutex of `Reader` is not modelled: every method holds it from entry to
  return, so a method is one atomic state transition.
-/

namespace Randdata

/-- Abnormal ends of a run: a Go run-time panic, or a loop of the model that was
not given enough fuel to finish. -/
inductive Fault where
  | indexOutOfRange
  | outOfFuel
  deriving DecidableEq

/-- Go `error` values seen by the package: `io.EOF`, the three error records of
`error.go`, and any other error value (the ones a custom `Generator` may
return). -/
inductive Error where
  | EOF
  | TrailingExtraBytesError (ExpectedLen WrittenLen : Nat) (AcceptedBytes ExtraBytes : List Nat)
  | NotEnoughBytesError (ExpectedLen WrittenLen : Nat)
  | UnexpectedBytesError (Pos : Nat) (ExpectedBytes WrittenBytes : List Nat)
  | other (msg : String)
  deriving DecidableEq

/-- The part of `*rand.Rand` the package uses.  `NewSource seed` is
`rand.New(rand.NewSource(seed))`; `Read s n` fills a buffer of `n` bytes
("always returns len(p)"); `Intn s n` returns a value in `[0, n)` for `0 < n`. -/
structure Rand (σ : Type) where
  NewSource : Int → σ
  Read : σ → Nat → List Nat × σ
  Intn : σ → Nat → Nat × σ
  Read_length : ∀ s n, (Read s n).1.length = n
  Read_byte : ∀ s n b, b ∈ (Read s n).1 → b < 256
  Intn_lt : ∀ s n, 0 < n → (Intn s n).1 < n

/-! ## gen.go -/

/-- The `Generator` interface: `Gen(r, pos, rem)` returns a chunk or an error and
may advance the draw stream `r`. -/
structure Generator (σ : Type) where
  Gen : σ → Nat → Nat → Except Fault (Except Error (List Nat) × σ)

/-! ## type.go -/

/-- `Type` is a `uint8` tag. -/
abbrev DataType := Nat

def Zero : DataType := 0
def Binary : DataType := 1
def Text : DataType := 2
def UTF8Text : DataType := 3
def Custom : DataType := 255

/-! ## gen_zero.go -/

structure zeroGenerator where
  blockSize : Nat

def newZeroGenerator : zeroGenerator := { blockSize := 4096 }

def zeroGenerator.Gen {σ : Type} (g : zeroGenerator) (r : σ) (_pos rem : Nat) :
    Except Fault (Except Error (List Nat) × σ) :=
  let s := if rem < g.blockSize then rem else g.blockSize
  .ok (.ok (List.replicate s 0), r)

def zeroGenerator.toGenerator {σ : Type} (g : zeroGenerator) : Generator σ :=
  { Gen := g.Gen }

/-! ## gen_binary.go -/

structure binaryGenerator where
  blockSize : Nat

def newBinaryGenerator : binaryGenerator := { blockSize := 256 }

def binaryGenerator.Gen {σ : Type} (R : Rand σ) (g : binaryGenerator) (r : σ)
    (_pos rem : Nat) : Except Fault (Except Error (List Nat) × σ) :=
  let s := if rem < g.blockSize then rem else g.blockSize
  let res := R.Read r s
  .ok (.ok res.1, res.2)

def binaryGenerator.toGenerator {σ : Type} (R : Rand σ) (g : binaryGenerator) :
    Generator σ :=
  { Gen := g.Gen R }

/-! ## gen_text.go -/

structure textGenerator where
  width : Nat

def newTextGenerator : textGenerator := { width := 80 }

def enWordLenTbl : List Nat :=
  [0x07AF, 0x34E0, 0x6963, 0x8F3E, 0xAAA4, 0xC01E, 0xD472, 0xE3AA,
   0xEF06, 0xF6E7, 0xFB6A, 0xFDDF, 0xFF34, 0xFFC6, 0xFFF9]

/-- `binary.BigEndian.Uint16` on a two-byte buffer. -/
def BigEndianUint16 (b : List Nat) : Nat :=
  (b.getD 0 0 * 256 + b.getD 1 0) % 65536

/-- The `for i, t := range enWordLenTbl` loop of `genWordLen`, from index `i`. -/
def genWordLenLoop (seed : Nat) : List Nat → Nat → Nat
  | [], _ => 16
  | t :: ts, i => if seed < t then i + 1 else genWordLenLoop seed ts (i + 1)

def textGenerator.genWordLen {σ : Type} (R : Rand σ) (_g : textGenerator) (r : σ) :
    Nat × σ :=
  let res := R.Read r 2
  let seed := BigEndianUint16 res.1
  (genWordLenLoop seed enWordLenTbl 0, res.2)

/-- The constant `chars` of `genLetter`: the bytes of "abcdefghijklmnopqrstuvwxyz". -/
def chars : List Nat :=
  [97, 98, 99, 100, 101, 102, 103, 104, 105, 106, 107, 108, 109,
   110, 111, 112, 113, 114, 115, 116, 117, 118, 119, 120, 121, 122]

def textGenerator.genLetter {σ : Type} (R : Rand σ) (_g : textGenerator) (r : σ) :
    Except Fault (Nat × σ) :=
  let res := R.Intn r chars.length
  match chars.get? res.1 with
  | some c => .ok (c, res.2)
  | none => .error .indexOutOfRange

/-- The table filled by `init()`. -/
def enSentLenTbl : List Nat :=
  (List.range 64).map fun i =>
    if i < 27 then i + 4
    else if i < 45 then i - 17
    else if i < 57 then i - 30
    else i - 38

def textGenerator.genSentLen {σ : Type} (R : Rand σ) (_g : textGenerator) (r : σ) :
    Except Fault (Nat × σ) :=
  let res := R.Read r 1
  let seed := res.1.getD 0 0 / 4
  match enSentLenTbl.get? seed with
  | some n => .ok (n, res.2)
  | none => .error .indexOutOfRange

/-- The letter loop of `genWord`: `wLen` calls of `genLetter`, in order. -/
def textGenerator.genLetters {σ : Type} (R : Rand σ) (g : textGenerator) :
    Nat → σ → Except Fault (List Nat × σ)
  | 0, r => .ok ([], r)
  | k + 1, r =>
    match g.genLetter R r with
    | .error f => .error f
    | .ok (c, r1) =>
      match textGenerator.genLetters R g k r1 with
      | .error f => .error f
      | .ok (cs, r2) => .ok (c :: cs, r2)

def textGenerator.genWord {σ : Type} (R : Rand σ) (g : textGenerator) (r : σ) :
    Except Fault (List Nat × σ) :=
  let wl := g.genWordLen R r
  g.genLetters R wl.1 wl.2

/-- `isSeparator` of package `strings`, on ASCII: letters, digits and the
underscore are not separators. -/
def isSeparator (c : Nat) : Bool :=
  !((48 ≤ c && c ≤ 57) || (65 ≤ c && c ≤ 90) || (97 ≤ c && c ≤ 122) || c == 95)

/-- `unicode.ToTitle` on ASCII. -/
def toTitle (c : Nat) : Nat :=
  if 97 ≤ c ∧ c ≤ 122 then c - 32 else c

/-- The mapping of `strings.Title`, with `prev` the previous byte. -/
def TitleFrom (prev : Nat) : List Nat → List Nat
  | [] => []
  | c :: cs => (if isSeparator prev then toTitle c else c) :: TitleFrom c cs

/-- `strings.Title` on an ASCII string. -/
def Title (s : List Nat) : List Nat := TitleFrom 32 s

/-- The word loop of `genSentence`: `sentLen` calls of `genWord`, in order. -/
def textGenerator.genSentenceWords {σ : Type} (R : Rand σ) (g : textGenerator) :
    Nat → σ → Except Fault (List (List Nat) × σ)
  | 0, r => .ok ([], r)
  | k + 1, r =>
    match g.genWord R r with
    | .error f => .error f
    | .ok (w, r1) =>
      match textGenerator.genSentenceWords R g k r1 with
      | .error f => .error f
      | .ok (ws, r2) => .ok (w :: ws, r2)

/-- The assignment `words[len(words)-1] += s` on a non-empty slice. -/
def appendToLast (s : List Nat) : List (List Nat) → List (List Nat)
  | [] => []
  | [w] => [w ++ s]
  | w :: w2 :: ws => w :: appendToLast s (w2 :: ws)

def textGenerator.genSentence {σ : Type} (R : Rand σ) (g : textGenerator) (r : σ) :
    Except Fault (List (List Nat) × σ) :=
  match g.genSentLen R r with
  | .error f => .error f
  | .ok (sentLen, r1) =>
    match g.genSentenceWords R sentLen r1 with
    | .error f => .error f
    | .ok (words, r2) =>
      match words with
      | [] => .error .indexOutOfRange
      | w0 :: rest => .ok (appendToLast [46] (Title w0 :: rest), r2)

/-- The sentence loop of `genParagraph`: `numSent` calls of `genSentence`, the
words appended in order. -/
def textGenerator.genSentences {σ : Type} (R : Rand σ) (g : textGenerator) :
    Nat → σ → Except Fault (List (List Nat) × σ)
  | 0, r => .ok ([], r)
  | k + 1, r =>
    match g.genSentence R r with
    | .error f => .error f
    | .ok (sw, r1) =>
      match textGenerator.genSentences R g k r1 with
      | .error f => .error f
      | .ok (ws, r2) => .ok (sw ++ ws, r2)

/-- Lines 92-100 of `genParagraph`: the words of the paragraph. -/
def textGenerator.genParagraphWords {σ : Type} (R : Rand σ) (g : textGenerator) (r : σ) :
    Except Fault (List (List Nat) × σ) :=
  let res := R.Read r 1
  let numSent := res.1.getD 0 0 / 32 + 5
  g.genSentences R numSent res.2

/-- The `for _, w := range words` loop of `genParagraph`, with the loop
variables `lines` and `curLine`. -/
def textGenerator.wrapLoop (g : textGenerator) :
    List (List Nat) → List (List Nat) → List Nat → List (List Nat) × List Nat
  | [], lines, curLine => (lines, curLine)
  | w :: ws, lines, curLine =>
    let curW := curLine.length
    let sp : List Nat := if 0 < curW then [32] else []
    let curW := if 0 < curW then curW + 1 else curW
    if curW + w.length ≤ g.width then
      textGenerator.wrapLoop g ws lines (curLine ++ (sp ++ w))
    else
      textGenerator.wrapLoop g ws (lines ++ [curLine ++ [10]]) []

/-- Lines 102-123 of `genParagraph`: the lines made from the words. -/
def textGenerator.wrap (g : textGenerator) (words : List (List Nat)) : List (List Nat) :=
  let res := g.wrapLoop words [] []
  if res.2 ≠ [] then res.1 ++ [res.2 ++ [10]] else res.1

def textGenerator.genParagraph {σ : Type} (R : Rand σ) (g : textGenerator) (r : σ) :
    Except Fault (List (List Nat) × σ) :=
  match g.genParagraphWords R r with
  | .error f => .error f
  | .ok (words, r1) => .ok (g.wrap words, r1)

def textGenerator.Gen {σ : Type} (R : Rand σ) (g : textGenerator) (r : σ)
    (pos _rem : Nat) : Except Fault (Except Error (List Nat) × σ) :=
  match g.genParagraph R r with
  | .error f => .error f
  | .ok (lines, r1) =>
    let s := lines.flatten
    let s := if 0 < pos then 10 :: s else s
    .ok (.ok s, r1)

def textGenerator.toGenerator {σ : Type} (R : Rand σ) (g : textGenerator) : Generator σ :=
  { Gen := g.Gen R }

/-! ## reader.go -/

structure Reader (σ : Type) where
  dType : DataType
  seed : Int
  size : Nat
  read : Nat
  lenMin : Nat
  lenMax : Nat
  lenRnd : σ
  datRnd : σ
  gen : Generator σ
  buf : List Nat

/-- The constant `math.MaxInt32`. -/
def MaxInt32 : Nat := 2147483647

def New {σ : Type} (R : Rand σ) (dType : DataType) (seed : Int) (size : Nat) :
    Reader σ :=
  { dType := dType
    seed := seed
    size := size
    read := 0
    lenMin := 1
    lenMax := MaxInt32
    lenRnd := R.NewSource seed
    datRnd := R.NewSource seed
    gen :=
      if dType = Zero then newZeroGenerator.toGenerator
      else if dType = Binary then (newBinaryGenerator.toGenerator R)
      else if dType = Text then (newTextGenerator.toGenerator R)
      else (newBinaryGenerator.toGenerator R)
    buf := [] }

def NewWithGenerator {σ : Type} (R : Rand σ) (gen : Generator σ) (seed : Int)
    (size : Nat) : Reader σ :=
  { dType := Custom
    seed := seed
    size := size
    read := 0
    lenMin := 1
    lenMax := MaxInt32
    lenRnd := R.NewSource seed
    datRnd := R.NewSource seed
    gen := gen
    buf := [] }

def Reader.TotalRead {σ : Type} (r : Reader σ) : Nat := r.read

def Reader.IsEOF {σ : Type} (r : Reader σ) : Bool := decide (r.size ≤ r.read)

/-- `prepareNext`: the error it returns, and the Reader afterwards. -/
def Reader.prepareNext {σ : Type} (r : Reader σ) : Except Fault (Option Error × Reader σ) :=
  match r.gen.Gen r.datRnd r.read (r.size - r.read) with
  | .error f => .error f
  | .ok (.error e, s) => .ok (some e, { r with datRnd := s })
  | .ok (.ok buf, s) => .ok (none, { r with datRnd := s, buf := buf })

/-- The builtin `copy(dst, src)`: the contents of `dst` afterwards. -/
def copy (dst src : List Nat) : List Nat :=
  src.take dst.length ++ dst.drop src.length

/-- What a call of `Read(p)` leaves behind: the two results, the contents of `p`
and the Reader. -/
structure ReadRet (σ : Type) where
  n : Nat
  err : Option Error
  p : List Nat
  r : Reader σ

/-- The `for` loop of `Read`.  `done` is the part of `p` in front of `curDst`. -/
def Reader.readLoop {σ : Type} (readLen : Nat) :
    Nat → Reader σ → Nat → List Nat → List Nat → Except Fault (ReadRet σ)
  | 0, _, _, _, _ => .error .outOfFuel
  | fuel + 1, r, remLen, done, curDst =>
    match (if r.buf.length = 0 then r.prepareNext else .ok (none, r)) with
    | .error f => .error f
    | .ok (some err, r1) =>
      .ok { n := readLen - remLen, err := some err, p := done ++ curDst, r := r1 }
    | .ok (none, r1) =>
      let n := r1.buf.length
      if remLen ≤ n then
        .ok { n := readLen
              err := none
              p := done ++ copy curDst (r1.buf.take remLen)
              r := { r1 with read := r1.read + remLen, buf := r1.buf.drop remLen } }
      else
        let dst := copy curDst r1.buf
        if dst.length < n then .error .indexOutOfRange
        else
          Reader.readLoop readLen fuel { r1 with read := r1.read + n, buf := [] }
            (remLen - n) (done ++ dst.take n) (dst.drop n)

def Reader.Read {σ : Type} (R : Rand σ) (fuel : Nat) (r : Reader σ) (p : List Nat) :
    Except Fault (ReadRet σ) :=
  if r.size ≤ r.read then
    .ok { n := 0, err := some .EOF, p := p, r := r }
  else
    let jitter : Bool := decide (r.lenMin < p.length) && decide (r.lenMin < r.lenMax)
    let max := if p.length < r.lenMax then p.length else r.lenMax
    let draw := R.Intn r.lenRnd (max - r.lenMin + 1)
    let readLen := if jitter then r.lenMin + draw.1 else p.length
    let r1 : Reader σ := if jitter then { r with lenRnd := draw.2 } else r
    let readLen := if r.size < r.read + readLen then r.size - r.read else readLen
    Reader.readLoop readLen fuel r1 readLen [] p

/-- An `io.Writer`: `Write(b)` returns `(n, err)` and leaves a new sink state. -/
structure Writer (ω : Type) where
  Write : ω → List Nat → (Nat × Option Error) × ω

/-- What `WriteTo` leaves behind: the two results, the Reader and the sink. -/
structure WriteToRet (σ ω : Type) where
  n : Int
  err : Option Error
  r : Reader σ
  w : ω

/-- The `for` loop of `WriteTo`, with the loop variables `wLen` and `buf`. -/
def Reader.writeToLoop {σ ω : Type} (R : Rand σ) (W : Writer ω) (fuelRead : Nat) :
    Nat → Reader σ → ω → Int → List Nat → Except Fault (WriteToRet σ ω)
  | 0, _, _, _, _ => .error .outOfFuel
  | fuel + 1, r, w, wLen, buf =>
    match r.Read R fuelRead buf with
    | .error f => .error f
    | .ok ret =>
      match ret.err with
      | some e =>
        if e ≠ .EOF then .ok { n := wLen, err := some e, r := ret.r, w := w }
        else .ok { n := wLen, err := none, r := ret.r, w := w }
      | none =>
        if ret.p.length < ret.n then .error .indexOutOfRange
        else
          let wr := W.Write w (ret.p.take ret.n)
          let wLen := wLen + (wr.1.1 : Int)
          match wr.1.2 with
          | some e => .ok { n := wLen, err := some e, r := ret.r, w := wr.2 }
          | none => Reader.writeToLoop R W fuelRead fuel ret.r wr.2 wLen ret.p

def Reader.WriteTo {σ ω : Type} (R : Rand σ) (W : Writer ω) (fuel : Nat) (r : Reader σ)
    (w : ω) : Except Fault (WriteToRet σ ω) :=
  Reader.writeToLoop R W fuel fuel r w 0 (List.replicate 8192 0)

/-- `ReadByte`: the byte, the error and the Reader afterwards. -/
def Reader.ReadByte {σ : Type} (R : Rand σ) (fuel : Nat) (r : Reader σ) :
    Except Fault ((Nat × Option Error) × Reader σ) :=
  match r.Read R fuel [0] with
  | .error f => .error f
  | .ok ret =>
    match ret.err with
    | some e => .ok ((0, some e), ret.r)
    | none => .ok ((ret.p.getD 0 0, none), ret.r)

/-! ## A concrete draw stream

A linear congruential generator, used where a statement is evaluated on a
concrete input. -/

def lcgNext (s : Nat) : Nat := (s * 1103515245 + 12345) % 2147483648

def lcgRead : Nat → Nat → List Nat × Nat
  | s, 0 => ([], s)
  | s, n + 1 =>
    let rest := lcgRead (lcgNext s) n
    (lcgNext s / 65536 % 256 :: rest.1, rest.2)

def lcgIntn (s n : Nat) : Nat × Nat := (lcgNext s / 65536 % n, lcgNext s)

def lcg : Rand Nat where
  NewSource := fun seed => seed.toNat % 2147483648
  Read := lcgRead
  Intn := lcgIntn
  Read_length := by
    intro s n
    induction n generalizing s with
    | zero => rfl
    | succ k ih => simp [lcgRead, ih]
  Read_byte := by
    intro s n
    induction n generalizing s with
    | zero =>
      intro b h
      simp [lcgRead] at h
    | succ k ih =>
      intro b h
      simp only [lcgRead, List.mem_cons] at h
      rcases h with h | h
      · subst h
        exact Nat.mod_lt _ (by norm_num)
      · exact ih _ b h
  Intn_lt := fun _ _ h => Nat.mod_lt _ h

/-! ## Specification-level definitions -/

/-- A Generator is productive when, asked for a chunk with at least one byte
remaining, it returns a non-empty chunk, without error and without panic. -/
def Generator.Productive {σ : Type} (G : Generator σ) : Prop :=
  ∀ (s : σ) (pos rem : Nat), 0 < rem → ∃ c s1, G.Gen s pos rem = .ok (.ok c, s1) ∧ c ≠ []

/-- The chunks a Generator returns when it is called at position `pos`, then at
`pos` plus the length of that chunk, and so on until the position reaches
`size`, concatenated.  `fuel` bounds the number of calls. -/
def Generator.chunks {σ : Type} (G : Generator σ) : Nat → σ → Nat → Nat → List Nat
  | 0, _, _, _ => []
  | fuel + 1, s, pos, size =>
    if size ≤ pos then []
    else
      match G.Gen s pos (size - pos) with
      | .ok (.ok c, s1) => c ++ Generator.chunks G fuel s1 (pos + c.length) size
      | _ => []

/-- The canonical stream of (generator, draw stream, size): the first `size`
bytes of the concatenated chunks. -/
def canonicalStream {σ : Type} (G : Generator σ) (s : σ) (size : Nat) : List Nat :=
  (G.chunks size s 0 size).take size

/-- Everything the Reader has generated or will generate and has not delivered:
the pending buffer followed by the chunks still to come. -/
def Reader.pending {σ : Type} (r : Reader σ) : List Nat :=
  r.buf ++ r.gen.chunks (r.size - (r.read + r.buf.length)) r.datRnd
    (r.read + r.buf.length) r.size

/-- The bytes the declared size still allows. -/
def Reader.rest {σ : Type} (r : Reader σ) : List Nat :=
  r.pending.take (r.size - r.read)

/-- The caller loop of the tests: `Read` into each buffer of `bufs` in turn,
collecting `p[:n]`, until a `Read` returns an error (`io.EOF` included). -/
def readAll {σ : Type} (R : Rand σ) (fuel : Nat) :
    List (List Nat) → Reader σ → Except Fault (List Nat × Reader σ)
  | [], r => .ok ([], r)
  | p :: ps, r =>
    match r.Read R fuel p with
    | .error f => .error f
    | .ok ret =>
      match ret.err with
      | some _ => .ok ([], ret.r)
      | none =>
        match readAll R fuel ps ret.r with
        | .error f => .error f
        | .ok (out, r1) => .ok (ret.p.take ret.n ++ out, r1)

/-- The fields of a Reader that `New` fixes and no method changes. -/
def Reader.Built {σ : Type} (r : Reader σ) : Prop :=
  r.lenMin = 1 ∧ r.lenMax = MaxInt32 ∧ r.gen.Productive

/-- A sink that accepts every buffer in full and keeps what it was given. -/
def collector : Writer (List Nat) where
  Write := fun w b => ((b.length, none), w ++ b)

/-- Readers reachable from `New dType seed size` by calls of `Read`. -/
inductive FromNew {σ : Type} (R : Rand σ) (dType : DataType) (seed : Int) (size : Nat) :
    Reader σ → Prop where
  | new : FromNew R dType seed size (New R dType seed size)
  | read (fuel : Nat) (r : Reader σ) (p : List Nat) (ret : ReadRet σ) :
      FromNew R dType seed size r → r.Read R fuel p = .ok ret →
      FromNew R dType seed size ret.r

/-- A list of words that ends with a non-empty word. -/
def EndsFull (ws : List (List Nat)) : Prop :=
  ∃ init w, ws = init ++ [w] ∧ w ≠ []

/-- The parameters of a Reader, which no method changes. -/
def Reader.SameParams {σ : Type} (r r1 : Reader σ) : Prop :=
  r1.dType = r.dType ∧ r1.seed = r.seed ∧ r1.size = r.size ∧ r1.lenMin = r.lenMin ∧
    r1.lenMax = r.lenMax ∧ r1.gen = r.gen

/-- Lines 203-210 of `Read`: the length exposed before it is clamped to the
declared size, and the jitter draw stream afterwards. -/
def Reader.jitterLen {σ : Type} (R : Rand σ) (r : Reader σ) (c : Nat) : Nat × σ :=
  if r.lenMin < c ∧ r.lenMin < r.lenMax then
    (r.lenMin + (R.Intn r.lenRnd ((if c < r.lenMax then c else r.lenMax) - r.lenMin + 1)).1,
      (R.Intn r.lenRnd ((if c < r.lenMax then c else r.lenMax) - r.lenMin + 1)).2)
  else (c, r.lenRnd)

/-- A sink that hands every buffer to `W` and also records it. -/
def logged {ω : Type} (W : Writer ω) : Writer (ω × List Nat) where
  Write := fun w b => ((W.Write w.1 b).1, ((W.Write w.1 b).2, w.2 ++ b))

/-- A sink that accepts every buffer in full without error. -/
def Writer.Accepting {ω : Type} (W : Writer ω) : Prop :=
  ∀ w b, (W.Write w b).1 = (b.length, none)

/-- Splitting a text on spaces and line breaks: the words of `s`, in order,
`cur` being the word read so far. -/
def splitWords : List Nat → List Nat → List (List Nat)
  | [], cur => if cur = [] then [] else [cur]
  | c :: cs, cur =>
    if c = 32 ∨ c = 10 then
      (if cur = [] then splitWords cs [] else cur :: splitWords cs [])
    else splitWords cs (cur ++ [c])

/-- For the paragraph generated from the draw stream `lcg` in state `s`: the
number of words generated, the number of words in the lines returned, and
whether the word `w` is among the former and among the latter. -/
def paragraphWordsKept (s : Nat) (w : List Nat) : Option (Nat × Nat × Bool × Bool) :=
  match newTextGenerator.genParagraphWords lcg s, newTextGenerator.genParagraph lcg s with
  | .ok (ws, _), .ok (ls, _) =>
    some (ws.length, (splitWords ls.flatten []).length, decide (w ∈ ws),
      decide (w ∈ splitWords ls.flatten []))
  | _, _ => none

/-- A Generator that never returns `io.EOF` as its error. -/
def Generator.NeverEOF {σ : Type} (G : Generator σ) : Prop :=
  ∀ s pos rem s1, G.Gen s pos rem ≠ .ok (.error .EOF, s1)

/-- A custom Generator that fails with `io.EOF` on every call. -/
def eofGenerator : Generator Nat where
  Gen := fun s _ _ => .ok (.error .EOF, s)

/-- For the chunk the pseudo-text generator returns at position `pos` from the
draw stream `lcg` in state `s`: the number of its words, its words number `i`
and `i + 1` (counted from 0), and its last word. -/
def textChunkWords (s pos i : Nat) :
    Option (Nat × Option (List Nat) × Option (List Nat) × Option (List Nat)) :=
  match newTextGenerator.Gen lcg s pos 0 with
  | .ok (.ok chunk, _) =>
    some ((splitWords chunk []).length, (splitWords chunk []).get? i,
      (splitWords chunk []).get? (i + 1), (splitWords chunk []).getLast?)
  | _ => none

/-- A lowercase ASCII letter. -/
def isLower (c : Nat) : Prop := 97 ≤ c ∧ c ≤ 122

/-- An uppercase ASCII letter. -/
def isUpper (c : Nat) : Prop := 65 ≤ c ∧ c ≤ 90

/-- A word as `genWord` or `strings.Title` leaves it: a letter followed by at
most 15 lowercase letters. -/
def PlainWord (w : List Nat) : Prop :=
  ∃ a body, w = a :: body ∧ (isLower a ∨ isUpper a) ∧ (∀ c ∈ body, isLower c) ∧
    body.length < 16

/-- A word of a sentence: a letter, then at most 15 lowercase letters, then at
most one period.  An uppercase letter can only be its first byte and a period
only its last. -/
def WordShape (w : List Nat) : Prop :=
  ∃ a body tail, w = a :: (body ++ tail) ∧ (isLower a ∨ isUpper a) ∧
    (∀ c ∈ body, isLower c) ∧ (tail = [] ∨ tail = [46]) ∧ body.length < 16

/-- A custom Generator that fails, and advances the draw stream, when the draw
stream is in an even state, and returns the chunk 1, 2, 3 otherwise. -/
def flakyGenerator : Generator Nat where
  Gen := fun s _ _ =>
    if s % 2 = 0 then .ok (.error (.other "flaky"), s + 1) else .ok (.ok [1, 2, 3], s)

/-- Words joined by single spaces. -/
def joinWords : List (List Nat) → List Nat
  | [] => []
  | [w] => w
  | w :: w2 :: ws => w ++ 32 :: joinWords (w2 :: ws)

/-- A line of a paragraph: one or more words that satisfy `P`, joined by single
spaces, at most `width` bytes together, followed by one line break. -/
def LineOf (P : List Nat → Prop) (width : Nat) (line : List Nat) : Prop :=
  ∃ grp, grp ≠ [] ∧ (∀ w ∈ grp, P w) ∧ (joinWords grp).length ≤ width ∧
    line = joinWords grp ++ [10]

/-- Modelled from the spec: the Verifier (the spec's Consumer), whose source
file is not among the sources.  Its state is the spec's "declared size,
bytes-verified-so-far, pending (not-yet-compared) expected buffer, its one
content draw stream", with the stream parameters, the Generator, the error of a
terminal Mismatch or Overflow, and whether `Close` was called. -/
structure Verifier (σ : Type) where
  dType : DataType
  seed : Int
  size : Nat
  written : Nat
  datRnd : σ
  gen : Generator σ
  buf : List Nat
  failed : Option Error
  closed : Bool

/-- Modelled from the spec: `NewVerifier`, whose source is missing.  "Identical
Stream Parameters to a Producer ... Consumer with bytes-verified = 0", "a
content draw stream seeded identically to a matching Producer"; the Generator
is chosen from the type tag as `New` chooses it (the pairing guarantee of the
spec, and its note that the reference aliases an unknown tag to
uniform-binary). -/
def NewVerifier {σ : Type} (R : Rand σ) (dType : DataType) (seed : Int) (size : Nat) :
    Verifier σ :=
  { dType := dType
    seed := seed
    size := size
    written := 0
    datRnd := R.NewSource seed
    gen :=
      if dType = Zero then newZeroGenerator.toGenerator
      else if dType = Binary then (newBinaryGenerator.toGenerator R)
      else if dType = Text then (newTextGenerator.toGenerator R)
      else (newBinaryGenerator.toGenerator R)
    buf := []
    failed := none
    closed := false }

/-- Modelled from the spec: `NewVerifierWithGenerator`, whose source is missing:
the constructor "taking an explicit Generator value instead of a type tag". -/
def NewVerifierWithGenerator {σ : Type} (R : Rand σ) (gen : Generator σ) (seed : Int)
    (size : Nat) : Verifier σ :=
  { dType := Custom
    seed := seed
    size := size
    written := 0
    datRnd := R.NewSource seed
    gen := gen
    buf := []
    failed := none
    closed := false }

/-- `Reader.NewVerifier` of reader.go. -/
def Reader.NewVerifier {σ : Type} (R : Rand σ) (r : Reader σ) : Verifier σ :=
  if r.dType = Custom then Randdata.NewVerifierWithGenerator R r.gen r.seed r.size
  else Randdata.NewVerifier R r.dType r.seed r.size

/-- Modelled from the spec: the refill of the Verifier, whose source is missing:
"Generator(content draw stream, bytes-verified, declared size − bytes-verified)",
the refill policy of `Reader.prepareNext`. -/
def Verifier.prepareNext {σ : Type} (v : Verifier σ) :
    Except Fault (Option Error × Verifier σ) :=
  match v.gen.Gen v.datRnd v.written (v.size - v.written) with
  | .error f => .error f
  | .ok (.error e, s) => .ok (some e, { v with datRnd := s })
  | .ok (.ok buf, s) => .ok (none, { v with datRnd := s, buf := buf })

/-- The index of the first position at which two byte sequences of the same
length differ. -/
def firstDiff : List Nat → List Nat → Nat → Option Nat
  | a :: as, b :: bs, i => if a = b then firstDiff as bs (i + 1) else some i
  | _, _, _ => none

/-- Modelled from the spec: the comparison loop of `Verifier.Write`, whose source
is missing.  "Refill the expected-content pending buffer on demand"; "compare
byte-by-byte against the expected pending buffer; on the first divergent byte,
fail with a mismatch condition carrying the absolute byte offset, the expected
byte(s), and the actual byte(s) at that offset; stop comparing for this call".
The bytes-verified counter advances with the bytes that matched. -/
def Verifier.verifyLoop {σ : Type} :
    Nat → Verifier σ → List Nat → Except Fault (Option Error × Verifier σ)
  | 0, _, _ => .error .outOfFuel
  | fuel + 1, v, bytes =>
    if bytes.length = 0 then .ok (none, v)
    else
      match (if v.buf.length = 0 then v.prepareNext else .ok (none, v)) with
      | .error f => .error f
      | .ok (some err, v1) => .ok (some err, v1)
      | .ok (none, v1) =>
        let n := min bytes.length v1.buf.length
        match firstDiff (v1.buf.take n) (bytes.take n) 0 with
        | some i =>
          .ok (some (.UnexpectedBytesError (v1.written + i) ((v1.buf.drop i).take 1)
                ((bytes.drop i).take 1)),
            { v1 with written := v1.written + i, buf := v1.buf.drop i })
        | none =>
          Verifier.verifyLoop fuel { v1 with written := v1.written + n, buf := v1.buf.drop n }
            (bytes.drop n)

/-- Modelled from the spec: `Verifier.Write`, whose source is missing.  A write
that would exceed the declared size compares "only the in-range prefix; if that
prefix matches, fail with an overflow condition carrying the declared size, the
total length written including the excess, the accepted in-range prefix, and
the rejected suffix"; otherwise the bytes are compared and "on full match" the
counter has advanced "by the written length" and the write succeeds.  After a
Mismatch or an Overflow, and after `Close`, the Verifier is terminal: a further
write is rejected. -/
def Verifier.Write {σ : Type} (fuel : Nat) (v : Verifier σ) (bytes : List Nat) :
    Except Fault ((Nat × Option Error) × Verifier σ) :=
  if v.closed then .ok ((0, some (.other "closed")), v)
  else
    match v.failed with
    | some e => .ok ((0, some e), v)
    | none =>
      if v.size < v.written + bytes.length then
        match Verifier.verifyLoop fuel v (bytes.take (v.size - v.written)) with
        | .error f => .error f
        | .ok (some e, v1) => .ok ((v1.written - v.written, some e), { v1 with failed := some e })
        | .ok (none, v1) =>
          .ok ((v1.written - v.written,
              some (.TrailingExtraBytesError v.size (v.written + bytes.length)
                (bytes.take (v.size - v.written)) (bytes.drop (v.size - v.written)))),
            { v1 with
              failed := some (.TrailingExtraBytesError v.size (v.written + bytes.length)
                (bytes.take (v.size - v.written)) (bytes.drop (v.size - v.written))) })
      else
        match Verifier.verifyLoop fuel v bytes with
        | .error f => .error f
        | .ok (some e, v1) => .ok ((v1.written - v.written, some e), { v1 with failed := some e })
        | .ok (none, v1) => .ok ((bytes.length, none), v1)

/-- Modelled from the spec: `Verifier.Close`, whose source is missing: "if
bytes-verified < declared size, fail with a shortfall condition carrying
declared size and bytes-verified; otherwise succeed.  Close is terminal". -/
def Verifier.Close {σ : Type} (v : Verifier σ) : Option Error × Verifier σ :=
  if v.written < v.size then
    (some (.NotEnoughBytesError v.size v.written), { v with closed := true })
  else (none, { v with closed := true })

/-- The Verifier as the `io.Writer` handed to `WriteTo`.  A fault of `Write` ends
the run: it is kept as the state of the sink and reported as an error. -/
def verifierWriter {σ : Type} (fuel : Nat) : Writer (Except Fault (Verifier σ)) where
  Write := fun w b =>
    match w with
    | .error f => ((0, some (.other "fault")), .error f)
    | .ok v =>
      match v.Write fuel b with
      | .error f => ((0, some (.other "fault")), .error f)
      | .ok res => (res.1, .ok res.2)

/-- What the Verifier still expects: its pending buffer followed by the chunks
still to come. -/
def Verifier.pending {σ : Type} (v : Verifier σ) : List Nat :=
  v.buf ++ v.gen.chunks (v.size - (v.written + v.buf.length)) v.datRnd
    (v.written + v.buf.length) v.size

/-- The bytes the Verifier still expects within the declared size. -/
def Verifier.rest {σ : Type} (v : Verifier σ) : List Nat :=
  v.pending.take (v.size - v.written)

/-- The fields of a Verifier that a successful comparison leaves as they are. -/
def Verifier.SameParams {σ : Type} (v v1 : Verifier σ) : Prop :=
  v1.size = v.size ∧ v1.gen = v.gen ∧ v1.failed = v.failed ∧ v1.closed = v.closed

/-- The state of a Verifier, as a sink, that has accepted every byte so far and
still expects the bytes `s`. -/
def Verifier.Expecting {σ : Type} (w : Except Fault (Verifier σ)) (s : List Nat) : Prop :=
  ∃ v, w = .ok v ∧ v.gen.Productive ∧ v.failed = none ∧ v.closed = false ∧
    v.written ≤ v.size ∧ v.rest = s

/-- One invocation of a Generator: the draw stream and the arguments it was
called with, the length of the chunk it returned (0 when it returned an error)
and the draw stream it left. -/
structure GenCall (σ : Type) where
  r : σ
  pos : Nat
  rem : Nat
  len : Nat
  next : σ

/-- The draw stream `R` with a record of Generator calls carried along: `Read`
and `Intn` act on the draw stream and leave the record as it is. -/
def tracedRand {σ : Type} (R : Rand σ) : Rand (σ × List (GenCall σ)) where
  NewSource := fun seed => (R.NewSource seed, [])
  Read := fun s n => ((R.Read s.1 n).1, ((R.Read s.1 n).2, s.2))
  Intn := fun s n => ((R.Intn s.1 n).1, ((R.Intn s.1 n).2, s.2))
  Read_length := fun s n => R.Read_length s.1 n
  Read_byte := fun s n b h => R.Read_byte s.1 n b h
  Intn_lt := fun s n h => R.Intn_lt s.1 n h

/-- The length of the chunk in a result of `Gen`, 0 for an error. -/
def chunkLen (res : Except Error (List Nat)) : Nat :=
  match res with
  | .ok c => c.length
  | .error _ => 0

/-- The Generator `G`, recording each of its invocations at the end of the
record carried by the draw stream it is given. -/
def traced {σ : Type} (G : Generator σ) : Generator (σ × List (GenCall σ)) where
  Gen := fun s pos rem =>
    match G.Gen s.1 pos rem with
    | .error f => .error f
    | .ok (res, s1) =>
      .ok (res, (s1, s.2 ++ [GenCall.mk s.1 pos rem (chunkLen res) s1]))

/-- The calls of a record, from the draw stream `s` and the position `pos`, are
in order: each is made with the draw stream the call before it left, at the
position the call before it reached, below `size`, with the remaining length
`size - pos`, and its length and next draw stream are what `G` returns. -/
def ValidCalls {σ : Type} (G : Generator σ) (size : Nat) :
    σ → Nat → List (GenCall σ) → Prop
  | _, _, [] => True
  | s, pos, c :: cs =>
    c.r = s ∧ c.pos = pos ∧ c.rem = size - pos ∧ pos < size ∧
      (∃ res, G.Gen s pos (size - pos) = .ok (res, c.next) ∧ c.len = chunkLen res) ∧
      ValidCalls G size c.next (pos + c.len) cs

/-- The draw stream the last call of a record left, `s` for an empty record. -/
def callsState {σ : Type} : σ → List (GenCall σ) → σ
  | s, [] => s
  | _, c :: cs => callsState c.next cs

/-- The position the calls of a record have reached from `pos`. -/
def callsEnd {σ : Type} : Nat → List (GenCall σ) → Nat
  | pos, [] => pos
  | pos, c :: cs => callsEnd (pos + c.len) cs

/-- Readers reached from `r0` by any sequence of `Read`, `ReadByte` and `WriteTo`
calls that return. -/
inductive Reaches {τ : Type} (R : Rand τ) (r0 : Reader τ) : Reader τ → Prop where
  | start : Reaches R r0 r0
  | read (fuel : Nat) (p : List Nat) (r : Reader τ) (ret : ReadRet τ) :
      Reaches R r0 r → r.Read R fuel p = .ok ret → Reaches R r0 ret.r
  | readByte (fuel : Nat) (r : Reader τ) (res : (Nat × Option Error) × Reader τ) :
      Reaches R r0 r → r.ReadByte R fuel = .ok res → Reaches R r0 res.2
  | writeTo {ω : Type} (W : Writer ω) (fuel : Nat) (w : ω) (r : Reader τ)
      (ret : WriteToRet τ ω) :
      Reaches R r0 r → r.WriteTo R W fuel w = .ok ret → Reaches R r0 ret.r

/-- A Reader as `New` and `NewWithGenerator` leave it, with the recording
Generator `traced G`: nothing read, nothing pending, an empty record. -/
def FreshTraced {σ : Type} (G : Generator σ) (s0 : σ) (size : Nat)
    (r0 : Reader (σ × List (GenCall σ))) : Prop :=
  r0.gen = traced G ∧ r0.datRnd = (s0, []) ∧ r0.lenRnd.2 = [] ∧ r0.read = 0 ∧ r0.buf = [] ∧
    r0.size = size

/-- The invariant of a Reader with the recording Generator: the record is in
order from the start, the content draw stream is the one the last call left,
and the calls have reached the counter plus the pending bytes. -/
def TraceInv {σ : Type} (G : Generator σ) (s0 : σ) (size : Nat)
    (r : Reader (σ × List (GenCall σ))) : Prop :=
  r.gen = traced G ∧ r.size = size ∧ ValidCalls G size s0 0 r.datRnd.2 ∧
    r.datRnd.1 = callsState s0 r.datRnd.2 ∧
    r.read + r.buf.length = callsEnd 0 r.datRnd.2 ∧ r.lenRnd.2 = []

/-- One pass through the body of the `for` loop of `Read`: `remLen` and
`len(curDst)` at the head of the pass, whether the pass called `prepareNext`,
the position and the remaining length `prepareNext` hands to `Gen` at that
point, and `n`, the length of `r.buf` after the refill step (0 when the refill
failed). -/
structure LoopPass where
  remLen : Nat
  space : Nat
  called : Bool
  pos : Nat
  rem : Nat
  n : Nat
  deriving DecidableEq

/-- The `for` loop of `Read` once more, returning next to its result the passes
it made, first to last. -/
def Reader.readLoopLog {σ : Type} (readLen : Nat) :
    Nat → Reader σ → Nat → List Nat → List Nat → Except Fault (ReadRet σ) × List LoopPass
  | 0, _, _, _, _ => (.error .outOfFuel, [])
  | fuel + 1, r, remLen, done, curDst =>
    match (if r.buf.length = 0 then r.prepareNext else .ok (none, r)) with
    | .error f =>
      (.error f,
        [LoopPass.mk remLen curDst.length (decide (r.buf.length = 0)) r.read (r.size - r.read) 0])
    | .ok (some err, r1) =>
      (.ok { n := readLen - remLen, err := some err, p := done ++ curDst, r := r1 },
        [LoopPass.mk remLen curDst.length (decide (r.buf.length = 0)) r.read (r.size - r.read) 0])
    | .ok (none, r1) =>
      let n := r1.buf.length
      let pass :=
        LoopPass.mk remLen curDst.length (decide (r.buf.length = 0)) r.read (r.size - r.read) n
      if remLen ≤ n then
        (.ok { n := readLen
               err := none
               p := done ++ copy curDst (r1.buf.take remLen)
               r := { r1 with read := r1.read + remLen, buf := r1.buf.drop remLen } },
          [pass])
      else
        let dst := copy curDst r1.buf
        if dst.length < n then (.error .indexOutOfRange, [pass])
        else
          let tl := Reader.readLoopLog readLen fuel { r1 with read := r1.read + n, buf := [] }
            (remLen - n) (done ++ dst.take n) (dst.drop n)
          (tl.1, pass :: tl.2)

/-- `Read` once more, returning next to its result the passes its loop made. -/
def Reader.ReadLog {σ : Type} (R : Rand σ) (fuel : Nat) (r : Reader σ) (p : List Nat) :
    Except Fault (ReadRet σ) × List LoopPass :=
  if r.size ≤ r.read then
    (.ok { n := 0, err := some .EOF, p := p, r := r }, [])
  else
    let jitter : Bool := decide (r.lenMin < p.length) && decide (r.lenMin < r.lenMax)
    let max := if p.length < r.lenMax then p.length else r.lenMax
    let draw := R.Intn r.lenRnd (max - r.lenMin + 1)
    let readLen := if jitter then r.lenMin + draw.1 else p.length
    let r1 : Reader σ := if jitter then { r with lenRnd := draw.2 } else r
    let readLen := if r.size < r.read + readLen then r.size - r.read else readLen
    Reader.readLoopLog readLen fuel r1 readLen [] p

/-- What holds of every pass of the loop of `Read` for a Reader with Generator
`G` and declared size `size`. -/
def LoopPass.InRange {σ : Type} (G : Generator σ) (size : Nat) (it : LoopPass) : Prop :=
  it.remLen ≤ it.space ∧ 1 ≤ it.n ∧ it.pos < size ∧ it.rem = size - it.pos ∧ 1 ≤ it.rem ∧
    (it.called = true →
      ∃ s c s1, G.Gen s it.pos it.rem = .ok (.ok c, s1) ∧ c.length = it.n)

/-- From one pass to the next, the bytes still to copy and the space left both
go down by the length of the buffer that was copied. -/
def LoopPass.Next (a b : LoopPass) : Prop :=
  b.remLen < a.remLen ∧ b.remLen = a.remLen - a.n ∧ b.space = a.space - a.n

/-- The sentence loop of `genParagraph`, sentence by sentence: `sents` lists, in
order, what the successive calls of `genSentence` return, the first on the draw
stream `r`, each later one on the draw stream the call before it left, and `r1`
is the draw stream after the last call. -/
def textGenerator.SentencesOf {σ : Type} (R : Rand σ) (g : textGenerator) :
    σ → List (List (List Nat)) → σ → Prop
  | r, [], r1 => r1 = r
  | r, sw :: rest, r1 =>
    ∃ r2, g.genSentence R r = .ok (sw, r2) ∧ textGenerator.SentencesOf R g r2 rest r1

/-! ## The built-in generators -/

theorem zeroGenerator_Gen_eq {σ : Type} (r : σ) (pos rem : Nat) :
    (newZeroGenerator.toGenerator : Generator σ).Gen r pos rem
      = .ok (.ok (List.replicate (min 4096 rem) 0), r) := by
  have h : (if rem < 4096 then rem else 4096) = min 4096 rem := by
    split <;> omega
  show Except.ok (Except.ok (List.replicate (if rem < 4096 then rem else 4096) 0), r) = _
  rw [h]

theorem binaryGenerator_Gen_eq {σ : Type} (R : Rand σ) (r : σ) (pos rem : Nat) :
    (newBinaryGenerator.toGenerator R).Gen r pos rem
      = .ok (.ok (R.Read r (min 256 rem)).1, (R.Read r (min 256 rem)).2) := by
  have h : (if rem < 256 then rem else 256) = min 256 rem := by
    split <;> omega
  show Except.ok (Except.ok (R.Read r (if rem < 256 then rem else 256)).1,
    (R.Read r (if rem < 256 then rem else 256)).2) = _
  rw [h]

theorem zeroGenerator_productive {σ : Type} :
    (newZeroGenerator.toGenerator : Generator σ).Productive := by
  intro s pos rem h
  refine ⟨_, _, zeroGenerator_Gen_eq s pos rem, ?_⟩
  intro hc
  have := congrArg List.length hc
  rw [List.length_replicate, List.length_nil] at this
  omega

theorem binaryGenerator_productive {σ : Type} (R : Rand σ) :
    (newBinaryGenerator.toGenerator R).Productive := by
  intro s pos rem h
  refine ⟨_, _, binaryGenerator_Gen_eq R s pos rem, ?_⟩
  intro hc
  have := congrArg List.length hc
  rw [R.Read_length, List.length_nil] at this
  omega

theorem rand_getD_lt {σ : Type} (R : Rand σ) (s : σ) (n i : Nat) :
    (R.Read s n).1.getD i 0 < 256 := by
  by_cases h : i < (R.Read s n).1.length
  · rw [List.getD_eq_getElem _ _ h]
    exact R.Read_byte s n _ (List.getElem_mem _)
  · rw [List.getD_eq_default _ _ (Nat.le_of_not_lt h)]
    norm_num

theorem enSentLenTbl_length : enSentLenTbl.length = 64 := by decide

theorem enSentLenTbl_ge : ∀ n ∈ enSentLenTbl, 4 ≤ n := by decide

theorem enSentLenTbl_le : ∀ n ∈ enSentLenTbl, n ≤ 30 := by decide

theorem genLetter_ok {σ : Type} (R : Rand σ) (g : textGenerator) (r : σ) :
    ∃ c, g.genLetter R r = .ok (c, (R.Intn r 26).2) ∧ c ∈ chars := by
  have hlt : (R.Intn r 26).1 < chars.length := R.Intn_lt r 26 (by norm_num)
  refine ⟨chars[(R.Intn r 26).1], ?_, List.getElem_mem _⟩
  show (match chars.get? (R.Intn r 26).1 with
    | some c => Except.ok (c, (R.Intn r 26).2)
    | none => Except.error Fault.indexOutOfRange) = _
  rw [List.get?_eq_getElem?, List.getElem?_eq_getElem hlt]

theorem genLetters_ok {σ : Type} (R : Rand σ) (g : textGenerator) (k : Nat) (r : σ) :
    ∃ cs r1, g.genLetters R k r = .ok (cs, r1) ∧ cs.length = k ∧ ∀ c ∈ cs, c ∈ chars := by
  induction k generalizing r with
  | zero => exact ⟨[], r, rfl, rfl, by simp⟩
  | succ k ih =>
    obtain ⟨c, hc, hmem⟩ := genLetter_ok R g r
    obtain ⟨cs, r1, hcs, hlen, hall⟩ := ih (R.Intn r 26).2
    refine ⟨c :: cs, r1, ?_, by simp [hlen], ?_⟩
    · simp only [textGenerator.genLetters, hc, hcs]
    · intro x hx
      rcases List.mem_cons.1 hx with h | h
      · exact h ▸ hmem
      · exact hall x h

theorem genWordLenLoop_pos (seed : Nat) (tbl : List Nat) (i : Nat) :
    1 ≤ genWordLenLoop seed tbl i := by
  induction tbl generalizing i with
  | nil => simp [genWordLenLoop]
  | cons t ts ih =>
    simp only [genWordLenLoop]
    split
    · omega
    · exact ih _

theorem genWord_ok {σ : Type} (R : Rand σ) (g : textGenerator) (r : σ) :
    ∃ w r1, g.genWord R r = .ok (w, r1) ∧ w.length = (g.genWordLen R r).1 ∧
      w ≠ [] ∧ ∀ c ∈ w, c ∈ chars := by
  obtain ⟨cs, r1, h, hlen, hall⟩ := genLetters_ok R g (g.genWordLen R r).1 (g.genWordLen R r).2
  refine ⟨cs, r1, h, hlen, ?_, hall⟩
  intro hnil
  have h1 : 1 ≤ (g.genWordLen R r).1 := genWordLenLoop_pos _ _ _
  rw [hnil] at hlen
  simp at hlen
  omega

theorem genSentenceWords_ok {σ : Type} (R : Rand σ) (g : textGenerator) (k : Nat) (r : σ) :
    ∃ ws r1, g.genSentenceWords R k r = .ok (ws, r1) ∧ ws.length = k := by
  induction k generalizing r with
  | zero => exact ⟨[], r, rfl, rfl⟩
  | succ k ih =>
    obtain ⟨w, r1, hw, -⟩ := genWord_ok R g r
    obtain ⟨ws, r2, hws, hlen⟩ := ih r1
    exact ⟨w :: ws, r2, by simp only [textGenerator.genSentenceWords, hw, hws], by simp [hlen]⟩

theorem genSentLen_ok {σ : Type} (R : Rand σ) (g : textGenerator) (r : σ) :
    ∃ n, g.genSentLen R r = .ok (n, (R.Read r 1).2) ∧ 4 ≤ n ∧ n ≤ 30 := by
  have hb := rand_getD_lt R r 1 0
  have hlt : (R.Read r 1).1.getD 0 0 / 4 < enSentLenTbl.length := by
    rw [enSentLenTbl_length]
    omega
  refine ⟨enSentLenTbl[(R.Read r 1).1.getD 0 0 / 4], ?_,
    enSentLenTbl_ge _ (List.getElem_mem _), enSentLenTbl_le _ (List.getElem_mem _)⟩
  show (match enSentLenTbl.get? ((R.Read r 1).1.getD 0 0 / 4) with
    | some n => Except.ok (n, (R.Read r 1).2)
    | none => Except.error Fault.indexOutOfRange) = _
  rw [List.get?_eq_getElem?, List.getElem?_eq_getElem hlt]

theorem appendToLast_endsFull (s : List Nat) (hs : s ≠ []) (ws : List (List Nat))
    (h : ws ≠ []) : EndsFull (appendToLast s ws) := by
  induction ws with
  | nil => exact absurd rfl h
  | cons w rest ih =>
    cases rest with
    | nil => exact ⟨[], w ++ s, rfl, by simp [hs]⟩
    | cons w2 rest2 =>
      obtain ⟨init, x, hx, hne⟩ := ih (by simp)
      exact ⟨w :: init, x, by simp only [appendToLast, hx, List.cons_append], hne⟩

theorem endsFull_append_left (a : List (List Nat)) {b : List (List Nat)} (h : EndsFull b) :
    EndsFull (a ++ b) := by
  obtain ⟨init, w, hw, hne⟩ := h
  exact ⟨a ++ init, w, by rw [hw, List.append_assoc], hne⟩

theorem genSentence_ok {σ : Type} (R : Rand σ) (g : textGenerator) (r : σ) :
    ∃ ws r1, g.genSentence R r = .ok (ws, r1) ∧ EndsFull ws := by
  obtain ⟨n, hn, h4, -⟩ := genSentLen_ok R g r
  obtain ⟨ws, r2, hws, hlen⟩ := genSentenceWords_ok R g n (R.Read r 1).2
  cases ws with
  | nil => simp at hlen; omega
  | cons w0 rest =>
    refine ⟨appendToLast [46] (Title w0 :: rest), r2, ?_,
      appendToLast_endsFull _ (by simp) _ (by simp)⟩
    simp only [textGenerator.genSentence, hn, hws]

theorem genSentences_ok {σ : Type} (R : Rand σ) (g : textGenerator) (k : Nat) (r : σ) :
    ∃ ws r1, g.genSentences R (k + 1) r = .ok (ws, r1) ∧ EndsFull ws := by
  induction k generalizing r with
  | zero =>
    obtain ⟨sw, r1, hsw, hfull⟩ := genSentence_ok R g r
    refine ⟨sw, r1, ?_, hfull⟩
    simp only [textGenerator.genSentences, hsw, List.append_nil]
  | succ k ih =>
    obtain ⟨sw, r1, hsw, -⟩ := genSentence_ok R g r
    obtain ⟨ws, r2, hws, hfull⟩ := ih r1
    refine ⟨sw ++ ws, r2, ?_, endsFull_append_left sw hfull⟩
    rw [textGenerator.genSentences, hsw]
    simp only [hws]

theorem wrapLoop_cons (g : textGenerator) (w : List Nat) (ws lines : List (List Nat))
    (cur : List Nat) :
    g.wrapLoop (w :: ws) lines cur
      = if (if 0 < cur.length then cur.length + 1 else cur.length) + w.length ≤ g.width then
          g.wrapLoop ws lines (cur ++ ((if 0 < cur.length then [32] else []) ++ w))
        else g.wrapLoop ws (lines ++ [cur ++ [10]]) [] := rfl

theorem wrapLoop_append (g : textGenerator) (a b : List (List Nat)) (lines : List (List Nat))
    (cur : List Nat) :
    g.wrapLoop (a ++ b) lines cur
      = g.wrapLoop b (g.wrapLoop a lines cur).1 (g.wrapLoop a lines cur).2 := by
  induction a generalizing lines cur with
  | nil => rfl
  | cons w ws ih =>
    rw [List.cons_append, wrapLoop_cons, wrapLoop_cons]
    by_cases h : (if 0 < cur.length then cur.length + 1 else cur.length) + w.length ≤ g.width
    · rw [if_pos h, if_pos h]
      exact ih _ _
    · rw [if_neg h, if_neg h]
      exact ih _ _

theorem wrapLoop_lines_ne (g : textGenerator) (ws : List (List Nat)) (lines : List (List Nat))
    (cur : List Nat) (h : ∀ l ∈ lines, l ≠ []) :
    ∀ l ∈ (g.wrapLoop ws lines cur).1, l ≠ [] := by
  induction ws generalizing lines cur with
  | nil => exact h
  | cons w ws ih =>
    rw [wrapLoop_cons]
    by_cases hc : (if 0 < cur.length then cur.length + 1 else cur.length) + w.length ≤ g.width
    · rw [if_pos hc]
      exact ih _ _ h
    · rw [if_neg hc]
      refine ih _ _ ?_
      intro l hl
      rcases List.mem_append.1 hl with h1 | h1
      · exact h l h1
      · rw [List.mem_singleton.1 h1]
        simp

theorem wrap_ne (g : textGenerator) (ws : List (List Nat)) (h : EndsFull ws) :
    (g.wrap ws).flatten ≠ [] := by
  obtain ⟨init, w, hw, hne⟩ := h
  have hlines := wrapLoop_lines_ne g ws [] [] (by simp)
  have hlast : (g.wrapLoop ws [] []).1 ≠ [] ∨ (g.wrapLoop ws [] []).2 ≠ [] := by
    rw [hw, wrapLoop_append, wrapLoop_cons]
    generalize (g.wrapLoop init [] []).1 = l0
    generalize (g.wrapLoop init [] []).2 = c0
    by_cases hc : (if 0 < c0.length then c0.length + 1 else c0.length) + w.length ≤ g.width
    · rw [if_pos hc]
      right
      simp [textGenerator.wrapLoop, hne]
    · rw [if_neg hc]
      left
      simp [textGenerator.wrapLoop]
  intro hflat
  rw [List.flatten_eq_nil_iff] at hflat
  unfold textGenerator.wrap at hflat
  by_cases hc : (g.wrapLoop ws [] []).2 ≠ []
  · rw [if_pos hc] at hflat
    have := hflat ((g.wrapLoop ws [] []).2 ++ [10]) (by simp)
    simp at this
  · rw [if_neg hc] at hflat
    rcases hlast with h1 | h1
    · obtain ⟨l, hl⟩ := List.exists_mem_of_ne_nil _ h1
      exact hlines l hl (hflat l hl)
    · exact hc h1

theorem textGenerator_productive {σ : Type} (R : Rand σ) :
    (newTextGenerator.toGenerator R).Productive := by
  intro s pos rem _
  obtain ⟨ws, r1, hws, hfull⟩ :=
    genSentences_ok R newTextGenerator ((R.Read s 1).1.getD 0 0 / 32 + 4) (R.Read s 1).2
  have hpar : newTextGenerator.genParagraph R s = .ok (newTextGenerator.wrap ws, r1) := by
    simp only [textGenerator.genParagraph, textGenerator.genParagraphWords, hws]
  have hne := wrap_ne newTextGenerator ws hfull
  by_cases hp : 0 < pos
  · refine ⟨10 :: (newTextGenerator.wrap ws).flatten, r1, ?_, by simp⟩
    simp only [textGenerator.toGenerator, textGenerator.Gen, hpar, hp, if_true]
  · refine ⟨(newTextGenerator.wrap ws).flatten, r1, ?_, hne⟩
    simp only [textGenerator.toGenerator, textGenerator.Gen, hpar, hp, if_false]

theorem New_built {σ : Type} (R : Rand σ) (dType : Nat) (seed : Int) (size : Nat) :
    (New R dType seed size).Built := by
  refine ⟨rfl, rfl, ?_⟩
  show Generator.Productive (if dType = Zero then newZeroGenerator.toGenerator
      else if dType = Binary then (newBinaryGenerator.toGenerator R)
      else if dType = Text then (newTextGenerator.toGenerator R)
      else (newBinaryGenerator.toGenerator R))
  split
  · exact zeroGenerator_productive
  · split
    · exact binaryGenerator_productive R
    · split
      · exact textGenerator_productive R
      · exact binaryGenerator_productive R

/-! ## Chunks and the pending stream -/

theorem chunks_zero {σ : Type} (G : Generator σ) (s : σ) (pos size : Nat) :
    G.chunks 0 s pos size = [] := rfl

theorem chunks_succ {σ : Type} (G : Generator σ) (k : Nat) (s : σ) (pos size : Nat) :
    G.chunks (k + 1) s pos size
      = if size ≤ pos then []
        else match G.Gen s pos (size - pos) with
          | .ok (.ok c, s1) => c ++ G.chunks k s1 (pos + c.length) size
          | _ => [] := rfl

theorem chunks_done {σ : Type} (G : Generator σ) (k : Nat) (s : σ) (pos size : Nat)
    (h : size ≤ pos) : G.chunks k s pos size = [] := by
  cases k with
  | zero => rfl
  | succ k => rw [chunks_succ, if_pos h]

theorem chunks_step {σ : Type} (G : Generator σ) (k : Nat) (s s1 : σ) (pos size : Nat)
    (c : List Nat) (h : ¬ size ≤ pos) (hc : G.Gen s pos (size - pos) = .ok (.ok c, s1)) :
    G.chunks (k + 1) s pos size = c ++ G.chunks k s1 (pos + c.length) size := by
  rw [chunks_succ, if_neg h, hc]

theorem chunks_fuel {σ : Type} (G : Generator σ) (hG : G.Productive) (k1 k2 : Nat) (s : σ)
    (pos size : Nat) (h1 : size - pos ≤ k1) (h2 : size - pos ≤ k2) :
    G.chunks k1 s pos size = G.chunks k2 s pos size := by
  induction k1 generalizing k2 s pos with
  | zero => rw [chunks_zero, chunks_done G k2 s pos size (by omega)]
  | succ k1 ih =>
    by_cases hle : size ≤ pos
    · rw [chunks_done G _ s pos size hle, chunks_done G _ s pos size hle]
    · obtain ⟨c, s1, hc, hne⟩ := hG s pos (size - pos) (by omega)
      have hlen : 1 ≤ c.length := List.length_pos.2 hne
      cases k2 with
      | zero => omega
      | succ k2 =>
        rw [chunks_step G k1 s s1 pos size c hle hc, chunks_step G k2 s s1 pos size c hle hc,
          ih k2 s1 (pos + c.length) (by omega) (by omega)]

theorem chunks_length {σ : Type} (G : Generator σ) (hG : G.Productive) (k : Nat) (s : σ)
    (pos size : Nat) (h : size - pos ≤ k) : size - pos ≤ (G.chunks k s pos size).length := by
  induction k generalizing s pos with
  | zero => omega
  | succ k ih =>
    by_cases hle : size ≤ pos
    · omega
    · obtain ⟨c, s1, hc, hne⟩ := hG s pos (size - pos) (by omega)
      have hlen : 1 ≤ c.length := List.length_pos.2 hne
      rw [chunks_step G k s s1 pos size c hle hc, List.length_append]
      have := ih s1 (pos + c.length) (by omega)
      omega

theorem pending_length {σ : Type} (r : Reader σ) (hG : r.gen.Productive) :
    r.size - r.read ≤ r.pending.length := by
  unfold Reader.pending
  rw [List.length_append]
  have := chunks_length r.gen hG (r.size - (r.read + r.buf.length)) r.datRnd
    (r.read + r.buf.length) r.size (Nat.le_refl _)
  omega

/-! ## The loop of `Read` -/

theorem sameParams_refl {σ : Type} (r : Reader σ) : r.SameParams r :=
  ⟨rfl, rfl, rfl, rfl, rfl, rfl⟩

theorem sameParams_trans {σ : Type} {a b c : Reader σ} (h1 : a.SameParams b)
    (h2 : b.SameParams c) : a.SameParams c := by
  obtain ⟨a1, a2, a3, a4, a5, a6⟩ := h1
  obtain ⟨b1, b2, b3, b4, b5, b6⟩ := h2
  exact ⟨b1.trans a1, b2.trans a2, b3.trans a3, b4.trans a4, b5.trans a5, b6.trans a6⟩

theorem sameParams_built {σ : Type} {a b : Reader σ} (h : a.SameParams b)
    (ha : a.Built) : b.Built := by
  obtain ⟨-, -, -, h4, h5, h6⟩ := h
  obtain ⟨a1, a2, a3⟩ := ha
  exact ⟨h4.trans a1, h5.trans a2, h6 ▸ a3⟩

theorem copy_of_le (dst src : List Nat) (h : src.length ≤ dst.length) :
    copy dst src = src ++ dst.drop src.length := by
  unfold copy
  rw [List.take_of_length_le h]

theorem readLoop_succ {σ : Type} (readLen fuel : Nat) (r : Reader σ) (remLen : Nat)
    (done curDst : List Nat) :
    Reader.readLoop readLen (fuel + 1) r remLen done curDst
      = match (if r.buf.length = 0 then r.prepareNext else .ok (none, r)) with
        | .error f => .error f
        | .ok (some err, r1) =>
          .ok { n := readLen - remLen, err := some err, p := done ++ curDst, r := r1 }
        | .ok (none, r1) =>
          if remLen ≤ r1.buf.length then
            .ok { n := readLen
                  err := none
                  p := done ++ copy curDst (r1.buf.take remLen)
                  r := { r1 with read := r1.read + remLen, buf := r1.buf.drop remLen } }
          else
            if (copy curDst r1.buf).length < r1.buf.length then .error .indexOutOfRange
            else
              Reader.readLoop readLen fuel { r1 with read := r1.read + r1.buf.length, buf := [] }
                (remLen - r1.buf.length) (done ++ (copy curDst r1.buf).take r1.buf.length)
                ((copy curDst r1.buf).drop r1.buf.length) := rfl

/-- The refill at the head of the loop body: afterwards the pending buffer is not
empty, and the undelivered stream is the same. -/
theorem refill_spec {σ : Type} (r : Reader σ) (hG : r.gen.Productive)
    (hlt : r.read < r.size) :
    ∃ r1, (if r.buf.length = 0 then r.prepareNext else .ok (none, r)) = .ok (none, r1) ∧
      r1.buf ≠ [] ∧ r1.pending = r.pending ∧ r1.read = r.read ∧ r1.lenRnd = r.lenRnd ∧
      r.SameParams r1 := by
  by_cases hb : r.buf.length = 0
  · rw [if_pos hb]
    have hnil : r.buf = [] := List.length_eq_zero.1 hb
    obtain ⟨c, s1, hc, hne⟩ := hG r.datRnd r.read (r.size - r.read) (by omega)
    have hlen : 1 ≤ c.length := List.length_pos.2 hne
    refine ⟨{ r with datRnd := s1, buf := c }, ?_, hne, ?_, rfl, rfl, sameParams_refl r⟩
    · unfold Reader.prepareNext
      rw [hc]
    · unfold Reader.pending
      rw [hnil]
      simp only [List.length_nil, Nat.add_zero, List.nil_append]
      obtain ⟨m, hm⟩ : ∃ m, r.size - r.read = m + 1 := ⟨r.size - r.read - 1, by omega⟩
      rw [hm, chunks_step r.gen m r.datRnd s1 r.read r.size c (by omega) hc]
      rw [chunks_fuel r.gen hG m (r.size - (r.read + c.length)) s1 (r.read + c.length) r.size
        (by omega) (Nat.le_refl _)]
  · rw [if_neg hb]
    refine ⟨r, rfl, ?_, rfl, rfl, rfl, sameParams_refl r⟩
    intro hnil
    exact hb (by rw [hnil]; rfl)

theorem readLoop_spec {σ : Type} (readLen fuel : Nat) :
    ∀ (r : Reader σ) (remLen : Nat) (done curDst : List Nat), r.gen.Productive →
      1 ≤ remLen → remLen ≤ r.size - r.read → remLen ≤ curDst.length → remLen < fuel →
      ∃ r1, Reader.readLoop readLen fuel r remLen done curDst
          = .ok { n := readLen, err := none,
                  p := done ++ (r.pending.take remLen ++ curDst.drop remLen), r := r1 } ∧
        r1.read = r.read + remLen ∧ r1.pending = r.pending.drop remLen ∧
        r1.lenRnd = r.lenRnd ∧ r.SameParams r1 := by
  induction fuel with
  | zero => intro r remLen done curDst _ _ _ _ h; omega
  | succ fuel ih =>
    intro r remLen done curDst hG h1 hsz hdst hfuel
    obtain ⟨r1, hfill, hbuf, hpend, hread, hrnd, hsame⟩ := refill_spec r hG (by omega)
    have hsize : r1.size = r.size := hsame.2.2.1
    have hgen : r1.gen = r.gen := hsame.2.2.2.2.2
    have hn : 1 ≤ r1.buf.length := List.length_pos.2 hbuf
    have hp1 : r1.pending = r1.buf ++ r1.gen.chunks (r1.size - (r1.read + r1.buf.length))
        r1.datRnd (r1.read + r1.buf.length) r1.size := rfl
    rw [readLoop_succ, hfill]
    simp only
    by_cases hle : remLen ≤ r1.buf.length
    · rw [if_pos hle]
      refine ⟨{ r1 with read := r1.read + remLen, buf := r1.buf.drop remLen }, ?_, ?_, ?_, hrnd,
        hsame⟩
      · have hcopy : copy curDst (r1.buf.take remLen)
            = r.pending.take remLen ++ curDst.drop remLen := by
          rw [copy_of_le _ _ (by rw [List.length_take]; omega), List.length_take,
            Nat.min_eq_left hle, ← hpend, hp1, List.take_append_of_le_length hle]
        rw [hcopy]
      · show r1.read + remLen = r.read + remLen
        rw [hread]
      · rw [← hpend, hp1]
        unfold Reader.pending
        simp only [List.length_drop]
        rw [List.drop_append_of_le_length hle]
        have : r1.read + remLen + (r1.buf.length - remLen) = r1.read + r1.buf.length := by omega
        rw [this]
    · rw [if_neg hle]
      have hlt : r1.buf.length < remLen := Nat.lt_of_not_le hle
      have hcopy : copy curDst r1.buf = r1.buf ++ curDst.drop r1.buf.length :=
        copy_of_le _ _ (by omega)
      have hnf : ¬ (copy curDst r1.buf).length < r1.buf.length := by
        rw [hcopy, List.length_append]
        omega
      rw [if_neg hnf, hcopy, List.take_left, List.drop_left]
      have hp2 : ({ r1 with read := r1.read + r1.buf.length, buf := [] } : Reader σ).pending
          = r1.gen.chunks (r1.size - (r1.read + r1.buf.length)) r1.datRnd
              (r1.read + r1.buf.length) r1.size := by
        unfold Reader.pending
        simp only [List.length_nil, Nat.add_zero, List.nil_append]
      obtain ⟨r2, hrun, hread2, hpend2, hrnd2, hsame2⟩ :=
        ih { r1 with read := r1.read + r1.buf.length, buf := [] } (remLen - r1.buf.length)
          (done ++ r1.buf) (curDst.drop r1.buf.length) (hgen ▸ hG) (by omega)
          (by show remLen - r1.buf.length ≤ r1.size - (r1.read + r1.buf.length); omega)
          (by rw [List.length_drop]; omega) (by omega)
      refine ⟨r2, ?_, ?_, ?_, hrnd2.trans hrnd, sameParams_trans hsame hsame2⟩
      · rw [hrun, hp2]
        have hsplit : r.pending.take remLen
            = r1.buf ++ (r1.gen.chunks (r1.size - (r1.read + r1.buf.length)) r1.datRnd
                (r1.read + r1.buf.length) r1.size).take (remLen - r1.buf.length) := by
          rw [← hpend, hp1, List.take_append_eq_append_take,
            List.take_of_length_le (Nat.le_of_lt hlt)]
        rw [hsplit, List.drop_drop]
        have : r1.buf.length + (remLen - r1.buf.length) = remLen := by omega
        rw [this]
        simp only [List.append_assoc]
      · rw [hread2]
        show r1.read + r1.buf.length + (remLen - r1.buf.length) = r.read + remLen
        omega
      · rw [hpend2, hp2, ← hpend, hp1]
        have : remLen = r1.buf.length + (remLen - r1.buf.length) := by omega
        conv_rhs => rw [this, ← List.drop_drop, List.drop_left]

/-! ## `Read` -/

theorem clamp_eq_min (size read x : Nat) :
    (if size < read + x then size - read else x) = min x (size - read) := by
  split <;> omega

theorem Read_eof {σ : Type} (R : Rand σ) (fuel : Nat) (r : Reader σ) (p : List Nat)
    (h : r.size ≤ r.read) :
    r.Read R fuel p = .ok { n := 0, err := some .EOF, p := p, r := r } := by
  unfold Reader.Read
  rw [if_pos h]

theorem Read_not_eof {σ : Type} (R : Rand σ) (fuel : Nat) (r : Reader σ) (p : List Nat)
    (h : r.read < r.size) :
    r.Read R fuel p
      = Reader.readLoop (min (r.jitterLen R p.length).1 (r.size - r.read)) fuel
          { r with lenRnd := (r.jitterLen R p.length).2 }
          (min (r.jitterLen R p.length).1 (r.size - r.read)) [] p := by
  unfold Reader.Read Reader.jitterLen
  rw [if_neg (Nat.not_le.2 h)]
  simp only [clamp_eq_min]
  by_cases hj : r.lenMin < p.length ∧ r.lenMin < r.lenMax
  · have hb : (decide (r.lenMin < p.length) && decide (r.lenMin < r.lenMax)) = true := by
      simp [hj.1, hj.2]
    rw [if_pos hj]
    simp only [hb, if_true]
  · have hb : (decide (r.lenMin < p.length) && decide (r.lenMin < r.lenMax)) = false := by
      rcases not_and_or.1 hj with h1 | h1 <;> simp [h1]
    rw [if_neg hj]
    simp only [hb, Bool.false_eq_true, if_false]

theorem jitterLen_bounds {σ : Type} (R : Rand σ) (r : Reader σ) (c : Nat)
    (hmin : r.lenMin = 1) (hc : 1 ≤ c) :
    1 ≤ (r.jitterLen R c).1 ∧ (r.jitterLen R c).1 ≤ c := by
  unfold Reader.jitterLen
  have hmax : (if c < r.lenMax then c else r.lenMax) = min c r.lenMax := by
    split <;> omega
  rw [hmax]
  by_cases hj : r.lenMin < c ∧ r.lenMin < r.lenMax
  · rw [if_pos hj]
    have hlt := R.Intn_lt r.lenRnd (min c r.lenMax - r.lenMin + 1) (by omega)
    obtain ⟨hj1, hj2⟩ := hj
    simp only
    omega
  · rw [if_neg hj]
    simp only
    omega

theorem jitterLen_le {σ : Type} (R : Rand σ) (r : Reader σ) (c : Nat) :
    (r.jitterLen R c).1 ≤ c := by
  unfold Reader.jitterLen
  by_cases hj : r.lenMin < c ∧ r.lenMin < r.lenMax
  · rw [if_pos hj]
    have hmax : (if c < r.lenMax then c else r.lenMax) = min c r.lenMax := by
      split <;> omega
    rw [hmax]
    have hlt := R.Intn_lt r.lenRnd (min c r.lenMax - r.lenMin + 1) (by omega)
    obtain ⟨hj1, hj2⟩ := hj
    simp only
    omega
  · rw [if_neg hj]

theorem Read_spec {σ : Type} (R : Rand σ) (fuel : Nat) (r : Reader σ) (p : List Nat)
    (hb : r.Built) (hlt : r.read < r.size) (hp : 1 ≤ p.length) (hf : p.length < fuel) :
    ∃ n r1, r.Read R fuel p
        = .ok { n := n, err := none, p := r.pending.take n ++ p.drop n, r := r1 } ∧
      n = min (r.jitterLen R p.length).1 (r.size - r.read) ∧
      1 ≤ n ∧ n ≤ p.length ∧ n ≤ r.size - r.read ∧
      r1.read = r.read + n ∧ r1.pending = r.pending.drop n ∧
      r1.lenRnd = (r.jitterLen R p.length).2 ∧ r.SameParams r1 := by
  obtain ⟨hmin, -, hG⟩ := hb
  obtain ⟨j1, j2⟩ := jitterLen_bounds R r p.length hmin hp
  obtain ⟨r1, hrun, hread, hpend, hrnd, hsame⟩ :=
    readLoop_spec (min (r.jitterLen R p.length).1 (r.size - r.read)) fuel
      { r with lenRnd := (r.jitterLen R p.length).2 }
      (min (r.jitterLen R p.length).1 (r.size - r.read)) [] p hG
      (by omega) (by show _ ≤ r.size - r.read; omega) (by omega) (by omega)
  refine ⟨_, r1, ?_, rfl, by omega, by omega, by omega, hread, hpend, hrnd, hsame⟩
  rw [Read_not_eof R fuel r p hlt, hrun]
  rfl

theorem Read_spec_length {σ : Type} (r : Reader σ) (p : List Nat) (n : Nat)
    (hG : r.gen.Productive) (hn : n ≤ r.size - r.read) (hp : n ≤ p.length) :
    (r.pending.take n ++ p.drop n).length = p.length ∧
      (r.pending.take n ++ p.drop n).take n = r.pending.take n := by
  have hlen : (r.pending.take n).length = n := by
    rw [List.length_take]
    have := pending_length r hG
    omega
  constructor
  · rw [List.length_append, hlen, List.length_drop]
    omega
  · rw [List.take_append_of_le_length (by omega), List.take_take, Nat.min_self]

/-! ## Draining a Reader -/

theorem readAll_cons {σ : Type} (R : Rand σ) (fuel : Nat) (p : List Nat) (ps : List (List Nat))
    (r : Reader σ) :
    readAll R fuel (p :: ps) r
      = match r.Read R fuel p with
        | .error f => .error f
        | .ok ret =>
          match ret.err with
          | some _ => .ok ([], ret.r)
          | none =>
            match readAll R fuel ps ret.r with
            | .error f => .error f
            | .ok (out, r1) => .ok (ret.p.take ret.n ++ out, r1) := rfl

theorem rest_of_eof {σ : Type} (r : Reader σ) (h : r.size ≤ r.read) : r.rest = [] := by
  unfold Reader.rest
  have : r.size - r.read = 0 := by omega
  rw [this, List.take_zero]

theorem readAll_spec {σ : Type} (R : Rand σ) (fuel : Nat) :
    ∀ (bufs : List (List Nat)) (r : Reader σ), r.Built → r.read ≤ r.size →
      (∀ p ∈ bufs, 1 ≤ p.length ∧ p.length < fuel) → r.size - r.read ≤ bufs.length →
      ∃ r1, readAll R fuel bufs r = .ok (r.rest, r1) ∧ r1.read = r.size ∧ r.SameParams r1 := by
  intro bufs
  induction bufs with
  | nil =>
    intro r _ hle _ hlen
    have h0 : r.size - r.read ≤ 0 := hlen
    refine ⟨r, ?_, by omega, sameParams_refl r⟩
    rw [rest_of_eof r (by omega)]
    rfl
  | cons p ps ih =>
    intro r hb hle hbufs hlen
    by_cases heof : r.size ≤ r.read
    · refine ⟨r, ?_, by omega, sameParams_refl r⟩
      rw [readAll_cons, Read_eof R fuel r p heof, rest_of_eof r heof]
    · have hlt : r.read < r.size := Nat.lt_of_not_le heof
      obtain ⟨hp1, hp2⟩ := hbufs p (List.mem_cons_self _ _)
      obtain ⟨n, r1, hrun, -, hn1, hn2, hn3, hread, hpend, -, hsame⟩ :=
        Read_spec R fuel r p hb hlt hp1 hp2
      have hsize : r1.size = r.size := hsame.2.2.1
      obtain ⟨r2, hrun2, hread2, hsame2⟩ :=
        ih r1 (sameParams_built hsame hb) (by omega)
          (fun q hq => hbufs q (List.mem_cons_of_mem _ hq))
          (by simp only [List.length_cons] at hlen; omega)
      refine ⟨r2, ?_, by omega, sameParams_trans hsame hsame2⟩
      rw [readAll_cons, hrun]
      simp only
      rw [hrun2]
      simp only
      rw [(Read_spec_length r p n hb.2.2 hn3 hn2).2]
      unfold Reader.rest
      rw [hpend, hsize, hread]
      have : r.size - r.read = n + (r.size - (r.read + n)) := by omega
      conv_rhs => rw [this, List.take_add]

theorem New_rest {σ : Type} (R : Rand σ) (dType : Nat) (seed : Int) (size : Nat) :
    (New R dType seed size).rest
      = canonicalStream (New R dType seed size).gen (R.NewSource seed) size := by
  unfold Reader.rest Reader.pending canonicalStream
  show List.take (size - 0) ([] ++ (New R dType seed size).gen.chunks (size - (0 + 0))
    (R.NewSource seed) (0 + 0) size) = _
  simp only [Nat.sub_zero, Nat.add_zero, List.nil_append]

/-! ## `WriteTo` -/

theorem writeToLoop_succ {σ ω : Type} (R : Rand σ) (W : Writer ω) (fuelRead fuel : Nat)
    (r : Reader σ) (w : ω) (wLen : Int) (buf : List Nat) :
    Reader.writeToLoop R W fuelRead (fuel + 1) r w wLen buf
      = match r.Read R fuelRead buf with
        | .error f => .error f
        | .ok ret =>
          match ret.err with
          | some e =>
            if e ≠ .EOF then .ok { n := wLen, err := some e, r := ret.r, w := w }
            else .ok { n := wLen, err := none, r := ret.r, w := w }
          | none =>
            if ret.p.length < ret.n then .error .indexOutOfRange
            else
              match (W.Write w (ret.p.take ret.n)).1.2 with
              | some e =>
                .ok { n := wLen + ((W.Write w (ret.p.take ret.n)).1.1 : Int), err := some e,
                      r := ret.r, w := (W.Write w (ret.p.take ret.n)).2 }
              | none =>
                Reader.writeToLoop R W fuelRead fuel ret.r (W.Write w (ret.p.take ret.n)).2
                  (wLen + ((W.Write w (ret.p.take ret.n)).1.1 : Int)) ret.p := rfl

theorem writeToLoop_spec {σ ω : Type} (R : Rand σ) (W : Writer ω) (hW : W.Accepting)
    (fuelRead fuel : Nat) :
    ∀ (r : Reader σ) (w : ω) (log : List Nat) (wLen : Int) (buf : List Nat), r.Built →
      r.read ≤ r.size → 1 ≤ buf.length → buf.length < fuelRead → r.size - r.read < fuel →
      ∃ r1 w1, Reader.writeToLoop R (logged W) fuelRead fuel r (w, log) wLen buf
          = .ok { n := wLen + ((r.size - r.read : Nat) : Int), err := none, r := r1,
                  w := (w1, log ++ r.rest) } ∧
        r1.read = r.size ∧ r.SameParams r1 := by
  induction fuel with
  | zero => intro r w log wLen buf _ _ _ _ h; omega
  | succ fuel ih =>
    intro r w log wLen buf hb hle hbuf1 hbuf2 hfuel
    by_cases heof : r.size ≤ r.read
    · refine ⟨r, w, ?_, by omega, sameParams_refl r⟩
      rw [writeToLoop_succ, Read_eof R fuelRead r buf heof, rest_of_eof r heof]
      have : r.size - r.read = 0 := by omega
      simp [this]
    · have hlt : r.read < r.size := Nat.lt_of_not_le heof
      obtain ⟨n, r1, hrun, -, hn1, hn2, hn3, hread, hpend, -, hsame⟩ :=
        Read_spec R fuelRead r buf hb hlt hbuf1 hbuf2
      have hsize : r1.size = r.size := hsame.2.2.1
      obtain ⟨hplen, hptake⟩ := Read_spec_length r buf n hb.2.2 hn3 hn2
      have htl : (r.pending.take n).length = n := by
        rw [← hptake, List.length_take, hplen]
        omega
      obtain ⟨r2, w2, hrun2, hread2, hsame2⟩ :=
        ih r1 (W.Write w (r.pending.take n)).2 (log ++ r.pending.take n) (wLen + (n : Int))
          (r.pending.take n ++ buf.drop n) (sameParams_built hsame hb) (by omega) (by omega) (by omega)
          (by omega)
      refine ⟨r2, w2, ?_, by omega, sameParams_trans hsame hsame2⟩
      have hacc := hW w (r.pending.take n)
      have hnf : ¬ (r.pending.take n ++ buf.drop n).length < n := by omega
      rw [writeToLoop_succ, hrun]
      simp only
      rw [if_neg hnf, hptake]
      have hw1 : ((logged W).Write (w, log) (r.pending.take n)).1 = (n, none) := by
        show (W.Write w (r.pending.take n)).1 = (n, none)
        rw [hacc, htl]
      have hw2 : ((logged W).Write (w, log) (r.pending.take n)).2
          = ((W.Write w (r.pending.take n)).2, log ++ r.pending.take n) := rfl
      rw [hw1, hw2]
      simp only
      rw [hrun2]
      have hrest : r.rest = r.pending.take n ++ r1.rest := by
        unfold Reader.rest
        rw [hpend, hsize, hread]
        have : r.size - r.read = n + (r.size - (r.read + n)) := by omega
        conv_lhs => rw [this, List.take_add]
      have hcnt : wLen + (n : Int) + ((r1.size - r1.read : Nat) : Int)
          = wLen + ((r.size - r.read : Nat) : Int) := by
        rw [hsize, hread]
        omega
      rw [hrest, hcnt, List.append_assoc]

/-! ## Invariance of the parameters -/

theorem refill_inv {σ : Type} (r r1 : Reader σ) (e : Option Error)
    (h : (if r.buf.length = 0 then r.prepareNext else .ok (none, r)) = .ok (e, r1)) :
    r.SameParams r1 ∧ r1.read = r.read ∧ r1.lenRnd = r.lenRnd := by
  by_cases hb : r.buf.length = 0
  · rw [if_pos hb] at h
    unfold Reader.prepareNext at h
    cases hg : r.gen.Gen r.datRnd r.read (r.size - r.read) with
    | error f =>
      rw [hg] at h
      cases h
    | ok v =>
      obtain ⟨res, s⟩ := v
      rw [hg] at h
      cases res with
      | error e1 =>
        simp only [Except.ok.injEq, Prod.mk.injEq] at h
        rw [← h.2]
        exact ⟨sameParams_refl r, rfl, rfl⟩
      | ok b =>
        simp only [Except.ok.injEq, Prod.mk.injEq] at h
        rw [← h.2]
        exact ⟨sameParams_refl r, rfl, rfl⟩
  · rw [if_neg hb] at h
    simp only [Except.ok.injEq, Prod.mk.injEq] at h
    rw [← h.2]
    exact ⟨sameParams_refl r, rfl, rfl⟩

theorem readLoop_inv {σ : Type} (readLen fuel : Nat) :
    ∀ (r : Reader σ) (remLen : Nat) (done curDst : List Nat) (ret : ReadRet σ),
      Reader.readLoop readLen fuel r remLen done curDst = .ok ret →
      r.SameParams ret.r ∧ ret.r.lenRnd = r.lenRnd := by
  induction fuel with
  | zero =>
    intro r remLen done curDst ret h
    cases h
  | succ fuel ih =>
    intro r remLen done curDst ret h
    rw [readLoop_succ] at h
    cases hx : (if r.buf.length = 0 then r.prepareNext else .ok (none, r)) with
    | error f =>
      rw [hx] at h
      cases h
    | ok v =>
      obtain ⟨e, r1⟩ := v
      obtain ⟨hs, -, hr⟩ := refill_inv r r1 e hx
      rw [hx] at h
      cases e with
      | some e1 =>
        simp only [Except.ok.injEq] at h
        rw [← h]
        exact ⟨hs, hr⟩
      | none =>
        simp only at h
        by_cases hle : remLen ≤ r1.buf.length
        · rw [if_pos hle] at h
          simp only [Except.ok.injEq] at h
          rw [← h]
          exact ⟨hs, hr⟩
        · rw [if_neg hle] at h
          by_cases hf : (copy curDst r1.buf).length < r1.buf.length
          · rw [if_pos hf] at h
            cases h
          · rw [if_neg hf] at h
            obtain ⟨hs2, hr2⟩ := ih _ _ _ _ ret h
            exact ⟨sameParams_trans hs hs2, hr2.trans hr⟩

theorem Read_inv {σ : Type} (R : Rand σ) (fuel : Nat) (r : Reader σ) (p : List Nat)
    (ret : ReadRet σ) (h : r.Read R fuel p = .ok ret) : r.SameParams ret.r := by
  by_cases heof : r.size ≤ r.read
  · rw [Read_eof R fuel r p heof] at h
    simp only [Except.ok.injEq] at h
    rw [← h]
    exact sameParams_refl r
  · rw [Read_not_eof R fuel r p (Nat.lt_of_not_le heof)] at h
    exact (readLoop_inv _ _ _ _ _ _ ret h).1

theorem fromNew_inv {σ : Type} {R : Rand σ} {dType : Nat} {seed : Int} {size : Nat}
    {r : Reader σ} (h : FromNew R dType seed size r) :
    (New R dType seed size).SameParams r := by
  induction h with
  | new => exact sameParams_refl _
  | read fuel r p ret _ hrun ih => exact sameParams_trans ih (Read_inv R fuel r p ret hrun)

theorem fromNew_built {σ : Type} {R : Rand σ} {dType : Nat} {seed : Int} {size : Nat}
    {r : Reader σ} (h : FromNew R dType seed size r) : r.Built :=
  sameParams_built (fromNew_inv h) (New_built R dType seed size)

/-- With a productive Generator the loop of `Read` never ends with an error. -/
theorem readLoop_no_err {σ : Type} (readLen fuel : Nat) :
    ∀ (r : Reader σ) (remLen : Nat) (done curDst : List Nat) (ret : ReadRet σ),
      r.gen.Productive → r.read < r.size → remLen ≤ r.size - r.read →
      Reader.readLoop readLen fuel r remLen done curDst = .ok ret → ret.err = none := by
  induction fuel with
  | zero =>
    intro r remLen done curDst ret _ _ _ h
    cases h
  | succ fuel ih =>
    intro r remLen done curDst ret hG hlt hrem h
    obtain ⟨r1, hfill, -, -, hread, -, hsame⟩ := refill_spec r hG hlt
    rw [readLoop_succ, hfill] at h
    simp only at h
    by_cases hle : remLen ≤ r1.buf.length
    · rw [if_pos hle] at h
      simp only [Except.ok.injEq] at h
      rw [← h]
    · rw [if_neg hle] at h
      by_cases hf : (copy curDst r1.buf).length < r1.buf.length
      · rw [if_pos hf] at h
        cases h
      · rw [if_neg hf] at h
        have hsize : r1.size = r.size := hsame.2.2.1
        have hgen : r1.gen = r.gen := hsame.2.2.2.2.2
        exact ih _ _ _ _ ret (hgen ▸ hG)
          (by show r1.read + r1.buf.length < r1.size; omega)
          (by show remLen - r1.buf.length ≤ r1.size - (r1.read + r1.buf.length); omega) h

theorem Read_no_err {σ : Type} (R : Rand σ) (fuel : Nat) (r : Reader σ) (p : List Nat)
    (ret : ReadRet σ) (hb : r.Built) (hlt : r.read < r.size)
    (h : r.Read R fuel p = .ok ret) : ret.err = none := by
  rw [Read_not_eof R fuel r p hlt] at h
  exact readLoop_no_err _ _ { r with lenRnd := (r.jitterLen R p.length).2 } _ _ _ ret hb.2.2 hlt
    (Nat.min_le_right _ _) h

/-! ## Claims about `Read` and `WriteTo` -/

/-- C1: for every type tag, seed and size, draining a Reader made by `New` gives
the same bytes for every sequence of non-empty read buffers and every state of
the jitter draw stream: two Readers with the same (type, seed, size), read
through the buffers `bufs1` and `bufs2` and started with the jitter streams `j1`
and `j2`, both deliver the canonical stream, of `size` bytes, and end at
end-of-stream. -/
theorem C1_read_sizes_do_not_change_content {σ : Type} (R : Rand σ) (dType : Nat)
    (seed : Int) (size : Nat) (j1 j2 : σ) (fuel1 fuel2 : Nat) (bufs1 bufs2 : List (List Nat))
    (h1 : ∀ p ∈ bufs1, 1 ≤ p.length ∧ p.length < fuel1)
    (h2 : ∀ p ∈ bufs2, 1 ≤ p.length ∧ p.length < fuel2)
    (hl1 : size ≤ bufs1.length) (hl2 : size ≤ bufs2.length) :
    ∃ out r1 r2,
      readAll R fuel1 bufs1 { New R dType seed size with lenRnd := j1 } = .ok (out, r1) ∧
      readAll R fuel2 bufs2 { New R dType seed size with lenRnd := j2 } = .ok (out, r2) ∧
      out = canonicalStream (New R dType seed size).gen (R.NewSource seed) size ∧
      out.length = size ∧ r1.IsEOF = true ∧ r2.IsEOF = true := by
  have hb := New_built R dType seed size
  obtain ⟨r1, hr1, hread1, hs1⟩ :=
    readAll_spec R fuel1 bufs1 { New R dType seed size with lenRnd := j1 } hb (Nat.zero_le _) h1
      (by show size - 0 ≤ _; omega)
  obtain ⟨r2, hr2, hread2, hs2⟩ :=
    readAll_spec R fuel2 bufs2 { New R dType seed size with lenRnd := j2 } hb (Nat.zero_le _) h2
      (by show size - 0 ≤ _; omega)
  have hlen : (New R dType seed size).rest.length = size := by
    unfold Reader.rest
    rw [List.length_take]
    have := pending_length (New R dType seed size) hb.2.2
    have h0 : (New R dType seed size).size - (New R dType seed size).read = size := Nat.sub_zero _
    omega
  refine ⟨(New R dType seed size).rest, r1, r2, hr1, hr2, New_rest R dType seed size, hlen, ?_, ?_⟩
  · have hsz : r1.size = size := hs1.2.2.1
    have hrd : r1.read = size := hread1
    simp [Reader.IsEOF, hsz, hrd]
  · have hsz : r2.size = size := hs2.2.2.1
    have hrd : r2.read = size := hread2
    simp [Reader.IsEOF, hsz, hrd]

theorem C1_witness :
    (∀ p ∈ [[0], [0], [0], [0], [0]], 1 ≤ p.length ∧ p.length < 2) ∧
    (∀ p ∈ [[0, 0, 0], [0, 0], [0, 0, 0, 0], [0], [0, 0]], 1 ≤ p.length ∧ p.length < 9) ∧
    ∃ out r1 r2,
      readAll lcg 2 [[0], [0], [0], [0], [0]] { New lcg Text 7 5 with lenRnd := 11 }
        = .ok (out, r1) ∧
      readAll lcg 9 [[0, 0, 0], [0, 0], [0, 0, 0, 0], [0], [0, 0]]
        { New lcg Text 7 5 with lenRnd := 12 } = .ok (out, r2) ∧
      out = canonicalStream (New lcg Text 7 5).gen (lcg.NewSource 7) 5 ∧
      out.length = 5 ∧ r1.IsEOF = true ∧ r2.IsEOF = true :=
  ⟨by decide, by decide,
    C1_read_sizes_do_not_change_content lcg Text 7 5 11 12 2 9 _ _ (by decide) (by decide)
      (by decide) (by decide)⟩

/-- C2: for every type tag, seed and size, reading a Reader made by `New`
through non-empty buffers until end-of-stream returns exactly `size` bytes in
total, and `TotalRead()` is then `size`. -/
theorem C2_drain_returns_size_bytes {σ : Type} (R : Rand σ) (dType : Nat) (seed : Int)
    (size fuel : Nat) (bufs : List (List Nat))
    (h : ∀ p ∈ bufs, 1 ≤ p.length ∧ p.length < fuel) (hl : size ≤ bufs.length) :
    ∃ out r1, readAll R fuel bufs (New R dType seed size) = .ok (out, r1) ∧
      out.length = size ∧ r1.TotalRead = size ∧ r1.IsEOF = true ∧
      r1.Read R fuel (List.replicate 256 0)
        = .ok { n := 0, err := some .EOF, p := List.replicate 256 0, r := r1 } := by
  have hb := New_built R dType seed size
  obtain ⟨r1, hr1, hread1, hs1⟩ :=
    readAll_spec R fuel bufs (New R dType seed size) hb (Nat.zero_le _) h
      (by show size - 0 ≤ _; omega)
  have hsize : r1.size = size := hs1.2.2.1
  have hlen : (New R dType seed size).rest.length = size := by
    unfold Reader.rest
    rw [List.length_take]
    have := pending_length (New R dType seed size) hb.2.2
    have h0 : (New R dType seed size).size - (New R dType seed size).read = size := Nat.sub_zero _
    omega
  have hrd : r1.read = size := hread1
  refine ⟨_, r1, hr1, hlen, hrd, ?_, Read_eof R fuel r1 _ (by omega)⟩
  simp [Reader.IsEOF, hsize, hrd]

theorem C2_witness :
    (∀ p ∈ List.replicate 3000000 (List.replicate 256 0), 1 ≤ p.length ∧ p.length < 257) ∧
    ∃ out r1, readAll lcg 257 (List.replicate 3000000 (List.replicate 256 0))
        (New lcg Binary 777 3000000) = .ok (out, r1) ∧
      out.length = 3000000 ∧ r1.TotalRead = 3000000 ∧ r1.IsEOF = true ∧
      r1.Read lcg 257 (List.replicate 256 0)
        = .ok { n := 0, err := some .EOF, p := List.replicate 256 0, r := r1 } := by
  have h : ∀ p ∈ List.replicate 3000000 (List.replicate 256 0),
      1 ≤ p.length ∧ p.length < 257 := by
    intro p hp
    rw [List.eq_of_mem_replicate hp, List.length_replicate]
    omega
  exact ⟨h, C2_drain_returns_size_bytes lcg Binary 777 3000000 257 _ h
    (by rw [List.length_replicate])⟩

/-- C3: for a Reader made by `New` (and read any number of times) that is not at
end-of-stream, and a buffer `p` with `len(p) >= 1`, `Read(p)` returns `(n, nil)`
with `1 <= n <= min(len(p), size - TotalRead())`; it overwrites exactly the
first `n` bytes of `p` (the length of `p` and its bytes from `n` on are
unchanged) and `TotalRead()` grows by exactly `n`. -/
theorem C3_read_returns_between_one_and_min {σ : Type} (R : Rand σ) (dType : Nat)
    (seed : Int) (size fuel : Nat) (r : Reader σ) (p : List Nat)
    (hr : FromNew R dType seed size r) (hne : r.IsEOF = false) (hp : 1 ≤ p.length)
    (hf : p.length < fuel) :
    ∃ ret, r.Read R fuel p = .ok ret ∧ ret.err = none ∧
      1 ≤ ret.n ∧ ret.n ≤ min p.length (size - r.TotalRead) ∧
      ret.p.length = p.length ∧ ret.p.drop ret.n = p.drop ret.n ∧
      ret.p.take ret.n = r.rest.take ret.n ∧
      ret.r.TotalRead = r.TotalRead + ret.n := by
  have hsize : r.size = size := (fromNew_inv hr).2.2.1
  have hlt : r.read < r.size := by
    simp only [Reader.IsEOF, decide_eq_false_iff_not] at hne
    omega
  obtain ⟨n, r1, hrun, -, hn1, hn2, hn3, hread, -, -, -⟩ := Read_spec R fuel r p (fromNew_built hr) hlt hp hf
  obtain ⟨hplen, hptake⟩ := Read_spec_length r p n (fromNew_built hr).2.2 hn3 hn2
  have htl : (r.pending.take n).length = n := by
    rw [← hptake, List.length_take, hplen]
    omega
  refine ⟨_, hrun, rfl, hn1, ?_, hplen, ?_, ?_, hread⟩
  · show n ≤ min p.length (size - r.read)
    omega
  · show (r.pending.take n ++ p.drop n).drop n = p.drop n
    rw [List.drop_append_of_le_length (by omega), List.drop_of_length_le (by omega),
      List.nil_append]
  · show (r.pending.take n ++ p.drop n).take n = r.rest.take n
    rw [hptake]
    unfold Reader.rest
    rw [List.take_take, Nat.min_eq_left hn3]

theorem C3_witness :
    FromNew lcg Binary 5 10 (New lcg Binary 5 10) ∧ (New lcg Binary 5 10).IsEOF = false ∧
    ∃ ret, (New lcg Binary 5 10).Read lcg 4 [9, 9, 9] = .ok ret ∧ ret.err = none ∧
      1 ≤ ret.n ∧ ret.n ≤ min [9, 9, 9].length (10 - (New lcg Binary 5 10).TotalRead) ∧
      ret.p.length = [9, 9, 9].length ∧ ret.p.drop ret.n = [9, 9, 9].drop ret.n ∧
      ret.p.take ret.n = (New lcg Binary 5 10).rest.take ret.n ∧
      ret.r.TotalRead = (New lcg Binary 5 10).TotalRead + ret.n :=
  ⟨FromNew.new, by decide,
    C3_read_returns_between_one_and_min lcg Binary 5 10 4 _ [9, 9, 9] FromNew.new (by decide)
      (by decide) (by decide)⟩

theorem refill_err {σ : Type} (r r1 : Reader σ) (e : Error)
    (h : (if r.buf.length = 0 then r.prepareNext else .ok (none, r)) = .ok (some e, r1)) :
    ∃ s1, r.gen.Gen r.datRnd r.read (r.size - r.read) = .ok (.error e, s1) := by
  by_cases hb : r.buf.length = 0
  · rw [if_pos hb] at h
    unfold Reader.prepareNext at h
    cases hg : r.gen.Gen r.datRnd r.read (r.size - r.read) with
    | error f =>
      rw [hg] at h
      cases h
    | ok v =>
      obtain ⟨res, s⟩ := v
      rw [hg] at h
      cases res with
      | error e1 =>
        simp only [Except.ok.injEq, Prod.mk.injEq, Option.some.injEq] at h
        exact ⟨s, by rw [h.1]⟩
      | ok b =>
        simp only [Except.ok.injEq, Prod.mk.injEq] at h
        cases h.1
  · rw [if_neg hb] at h
    simp only [Except.ok.injEq, Prod.mk.injEq] at h
    cases h.1

/-- An error returned by the loop of `Read` is one the Generator returned. -/
theorem readLoop_err {σ : Type} (readLen fuel : Nat) :
    ∀ (r : Reader σ) (remLen : Nat) (done curDst : List Nat) (ret : ReadRet σ) (e : Error),
      Reader.readLoop readLen fuel r remLen done curDst = .ok ret → ret.err = some e →
      ∃ s pos rem s1, r.gen.Gen s pos rem = .ok (.error e, s1) := by
  induction fuel with
  | zero =>
    intro r remLen done curDst ret e h
    cases h
  | succ fuel ih =>
    intro r remLen done curDst ret e h herr
    rw [readLoop_succ] at h
    cases hx : (if r.buf.length = 0 then r.prepareNext else .ok (none, r)) with
    | error f =>
      rw [hx] at h
      cases h
    | ok v =>
      obtain ⟨e0, r1⟩ := v
      obtain ⟨hs, -, -⟩ := refill_inv r r1 e0 hx
      have hgen : r1.gen = r.gen := hs.2.2.2.2.2
      cases e0 with
      | some e1 =>
        obtain ⟨s1, hg⟩ := refill_err r r1 e1 hx
        rw [hx] at h
        simp only [Except.ok.injEq] at h
        rw [← h] at herr
        simp only [Option.some.injEq] at herr
        exact ⟨_, _, _, s1, herr ▸ hg⟩
      | none =>
        rw [hx] at h
        simp only at h
        by_cases hle : remLen ≤ r1.buf.length
        · rw [if_pos hle] at h
          simp only [Except.ok.injEq] at h
          rw [← h] at herr
          cases herr
        · rw [if_neg hle] at h
          by_cases hf : (copy curDst r1.buf).length < r1.buf.length
          · rw [if_pos hf] at h
            cases h
          · rw [if_neg hf] at h
            obtain ⟨s, pos, rem, s1, hg⟩ := ih _ _ _ _ ret e h herr
            exact ⟨s, pos, rem, s1, hgen ▸ hg⟩

theorem productive_neverEOF {σ : Type} (G : Generator σ)
    (h : ∀ s pos rem, ∃ c s1, G.Gen s pos rem = .ok (.ok c, s1)) : G.NeverEOF := by
  intro s pos rem s1 hg
  obtain ⟨c, s2, hc⟩ := h s pos rem
  rw [hc] at hg
  cases hg

theorem New_neverEOF {σ : Type} (R : Rand σ) (dType : Nat) (seed : Int) (size : Nat) :
    (New R dType seed size).gen.NeverEOF := by
  have hz : (newZeroGenerator.toGenerator : Generator σ).NeverEOF :=
    productive_neverEOF _ (fun s pos rem => ⟨_, _, zeroGenerator_Gen_eq s pos rem⟩)
  have hbin : (newBinaryGenerator.toGenerator R).NeverEOF :=
    productive_neverEOF _ (fun s pos rem => ⟨_, _, binaryGenerator_Gen_eq R s pos rem⟩)
  have ht : (newTextGenerator.toGenerator R).NeverEOF :=
    productive_neverEOF _ (fun s pos rem => by
      obtain ⟨c, s1, hc, -⟩ := textGenerator_productive R s pos 1 (by omega)
      exact ⟨c, s1, hc⟩)
  show Generator.NeverEOF (if dType = Zero then newZeroGenerator.toGenerator
      else if dType = Binary then (newBinaryGenerator.toGenerator R)
      else if dType = Text then (newTextGenerator.toGenerator R)
      else (newBinaryGenerator.toGenerator R))
  split
  · exact hz
  · split
    · exact hbin
    · split
      · exact ht
      · exact hbin

/-- C4, as the code has it: `Read` on any Reader whose counter has reached the
size returns `(0, io.EOF)`, copies nothing and leaves the Reader as it was.  For
a Reader whose Generator never returns `io.EOF` itself (every Reader made by
`New`, in any state) that is the only case in which `Read` returns `io.EOF`, and
`IsEOF()` is true exactly when the next `Read` returns `io.EOF`.  A Reader of
size 0 is at end-of-stream on its first `Read`. -/
theorem C4_eof_iff_counter_reached_size {σ : Type} (R : Rand σ) (fuel : Nat) (r : Reader σ)
    (p : List Nat) (hG : r.gen.NeverEOF) :
    (∀ r0 : Reader σ, r0.size ≤ r0.TotalRead →
      r0.Read R fuel p = .ok { n := 0, err := some .EOF, p := p, r := r0 }) ∧
    ((∃ ret, r.Read R fuel p = .ok ret ∧ ret.n = 0 ∧ ret.err = some .EOF)
      ↔ r.size ≤ r.TotalRead) ∧
    (r.IsEOF = true ↔ ∃ ret, r.Read R fuel p = .ok ret ∧ ret.err = some .EOF) ∧
    (∀ dType seed size r1, FromNew R dType seed size r1 → r1.gen.NeverEOF) ∧
    (∀ dType seed, (New R dType seed 0).Read R fuel p
      = .ok { n := 0, err := some .EOF, p := p, r := New R dType seed 0 }) ∧
    (∀ gen seed, (NewWithGenerator R gen seed 0).Read R fuel p
      = .ok { n := 0, err := some .EOF, p := p, r := NewWithGenerator R gen seed 0 }) := by
  have hback : ∀ ret, r.Read R fuel p = .ok ret → ret.err = some .EOF → r.size ≤ r.read := by
    intro ret hrun herr
    by_contra hlt
    rw [Read_not_eof R fuel r p (Nat.lt_of_not_le hlt)] at hrun
    obtain ⟨s, pos, rem, s1, hg⟩ := readLoop_err _ _ _ _ _ _ ret .EOF hrun herr
    exact hG s pos rem s1 hg
  refine ⟨fun r0 h0 => Read_eof R fuel r0 p h0, ⟨?_, ?_⟩, ⟨?_, ?_⟩, ?_,
    fun _ _ => Read_eof R fuel _ p (Nat.le_refl _),
    fun _ _ => Read_eof R fuel _ p (Nat.le_refl _)⟩
  · rintro ⟨ret, hrun, -, herr⟩
    exact hback ret hrun herr
  · intro h
    exact ⟨_, Read_eof R fuel r p h, rfl, rfl⟩
  · intro h
    simp only [Reader.IsEOF, decide_eq_true_eq] at h
    exact ⟨_, Read_eof R fuel r p h, rfl⟩
  · rintro ⟨ret, hrun, herr⟩
    simp only [Reader.IsEOF, decide_eq_true_eq]
    exact hback ret hrun herr
  · intro dType seed size r1 h1
    have hgen : r1.gen = (New R dType seed size).gen := (fromNew_inv h1).2.2.2.2.2
    rw [hgen]
    exact New_neverEOF R dType seed size

theorem C4_witness :
    (New lcg Text 1 3).gen.NeverEOF ∧
    (∀ r0 : Reader Nat, r0.size ≤ r0.TotalRead →
      r0.Read lcg 5 [7, 7] = .ok { n := 0, err := some .EOF, p := [7, 7], r := r0 }) ∧
    ((∃ ret, (New lcg Text 1 3).Read lcg 5 [7, 7] = .ok ret ∧ ret.n = 0 ∧ ret.err = some .EOF)
      ↔ (New lcg Text 1 3).size ≤ (New lcg Text 1 3).TotalRead) ∧
    ((New lcg Text 1 3).IsEOF = true
      ↔ ∃ ret, (New lcg Text 1 3).Read lcg 5 [7, 7] = .ok ret ∧ ret.err = some .EOF) ∧
    (∀ dType seed size r1, FromNew lcg dType seed size r1 → r1.gen.NeverEOF) ∧
    (∀ dType seed, (New lcg dType seed 0).Read lcg 5 [7, 7]
      = .ok { n := 0, err := some .EOF, p := [7, 7], r := New lcg dType seed 0 }) ∧
    (∀ gen seed, (NewWithGenerator lcg gen seed 0).Read lcg 5 [7, 7]
      = .ok { n := 0, err := some .EOF, p := [7, 7], r := NewWithGenerator lcg gen seed 0 }) :=
  ⟨New_neverEOF lcg Text 1 3,
    C4_eof_iff_counter_reached_size lcg 5 (New lcg Text 1 3) [7, 7] (New_neverEOF lcg Text 1 3)⟩

/-- C4, as stated, fails: a Reader made by `NewWithGenerator` with a Generator
that fails with `io.EOF`, of size 5 and with nothing read, returns `(0, io.EOF)`
from `Read` although `TotalRead() = 0 < 5` and `IsEOF()` is false. -/
theorem C4_counterexample :
    (NewWithGenerator lcg eofGenerator 1 5).Read lcg 2 [0]
      = .ok { n := 0, err := some .EOF, p := [0], r := NewWithGenerator lcg eofGenerator 1 5 } ∧
    (NewWithGenerator lcg eofGenerator 1 5).TotalRead = 0 ∧
    (NewWithGenerator lcg eofGenerator 1 5).size = 5 ∧
    (NewWithGenerator lcg eofGenerator 1 5).IsEOF = false :=
  ⟨rfl, rfl, rfl, rfl⟩

/-- C5: for a fresh Reader made by `New` and a sink that accepts every buffer in
full, `WriteTo` ends (given fuel above the buffer size 8192 and above `size`)
and returns `(size, nil)`; the bytes handed to the sink, in order, are the bytes
that reading through any non-empty buffers delivers; the Reader is left at
end-of-stream with `TotalRead() = size`. -/
theorem C5_writeTo_writes_the_stream {σ ω : Type} (R : Rand σ) (W : Writer ω)
    (hW : W.Accepting) (dType : Nat) (seed : Int) (size fuel : Nat) (w0 : ω)
    (fuelRead : Nat) (bufs : List (List Nat)) (hf1 : 8192 < fuel) (hf2 : size < fuel)
    (h : ∀ p ∈ bufs, 1 ≤ p.length ∧ p.length < fuelRead) (hl : size ≤ bufs.length) :
    ∃ r1 w1 out r2,
      (New R dType seed size).WriteTo R (logged W) fuel (w0, [])
        = .ok { n := (size : Int), err := none, r := r1, w := (w1, out) } ∧
      readAll R fuelRead bufs (New R dType seed size) = .ok (out, r2) ∧
      out.length = size ∧ r1.IsEOF = true ∧ r1.TotalRead = size := by
  have hb := New_built R dType seed size
  obtain ⟨r1, w1, hrun, hread, hsame⟩ :=
    writeToLoop_spec R W hW fuel fuel (New R dType seed size) w0 [] 0 (List.replicate 8192 0) hb
      (Nat.zero_le _) (by rw [List.length_replicate]; omega)
      (by rw [List.length_replicate]; exact hf1) (by show size - 0 < fuel; omega)
  obtain ⟨r2, hr2, -, -⟩ :=
    readAll_spec R fuelRead bufs (New R dType seed size) hb (Nat.zero_le _) h
      (by show size - 0 ≤ _; omega)
  have hn : (0 : Int) + (((New R dType seed size).size - (New R dType seed size).read : Nat) : Int)
      = (size : Int) := by
    show (0 : Int) + ((size - 0 : Nat) : Int) = (size : Int)
    rw [Nat.sub_zero, Int.zero_add]
  rw [hn, List.nil_append] at hrun
  have hsz : r1.size = size := hsame.2.2.1
  have hrd : r1.read = size := hread
  have hlen : (New R dType seed size).rest.length = size := by
    unfold Reader.rest
    rw [List.length_take]
    have := pending_length (New R dType seed size) hb.2.2
    have h0 : (New R dType seed size).size - (New R dType seed size).read = size := Nat.sub_zero _
    omega
  refine ⟨r1, w1, _, r2, hrun, hr2, hlen, ?_, hrd⟩
  simp [Reader.IsEOF, hsz, hrd]

theorem C5_witness :
    collector.Accepting ∧ (∀ p ∈ [[0, 0], [0], [0, 0, 0]], 1 ≤ p.length ∧ p.length < 4) ∧
    ∃ r1 w1 out r2,
      (New lcg Text 3 3).WriteTo lcg (logged collector) 8193 ([], [])
        = .ok { n := (3 : Int), err := none, r := r1, w := (w1, out) } ∧
      readAll lcg 4 [[0, 0], [0], [0, 0, 0]] (New lcg Text 3 3) = .ok (out, r2) ∧
      out.length = 3 ∧ r1.IsEOF = true ∧ r1.TotalRead = 3 :=
  ⟨fun _ _ => rfl, by decide,
    C5_writeTo_writes_the_stream lcg collector (fun _ _ => rfl) Text 3 3 8193 [] 4 _
      (by decide) (by decide) (by decide) (by decide)⟩

/-! ## Claims about `New` and the generators -/

theorem New_gen_default {σ : Type} (R : Rand σ) (t : Nat) (seed : Int) (size : Nat)
    (h0 : t ≠ Zero) (h1 : t ≠ Binary) (h2 : t ≠ Text) :
    (New R t seed size).gen = newBinaryGenerator.toGenerator R := by
  show (if t = Zero then newZeroGenerator.toGenerator
      else if t = Binary then (newBinaryGenerator.toGenerator R)
      else if t = Text then (newTextGenerator.toGenerator R)
      else (newBinaryGenerator.toGenerator R)) = _
  rw [if_neg h0, if_neg h1, if_neg h2]

theorem New_gen_binary {σ : Type} (R : Rand σ) (seed : Int) (size : Nat) :
    (New R Binary seed size).gen = newBinaryGenerator.toGenerator R := rfl

/-- C6, as the code has it: `New` has no failure result.  For a tag other than
Zero, Binary and Text it returns the Reader it returns for Binary, with only the
`dType` field holding the given tag; read through any non-empty buffers, the two
Readers deliver the same bytes. -/
theorem C6_unknown_tag_is_treated_as_binary {σ : Type} (R : Rand σ) (t : Nat) (seed : Int)
    (size fuel : Nat) (bufs : List (List Nat)) (h0 : t ≠ Zero) (h1 : t ≠ Binary)
    (h2 : t ≠ Text) (h : ∀ p ∈ bufs, 1 ≤ p.length ∧ p.length < fuel)
    (hl : size ≤ bufs.length) :
    New R t seed size = { New R Binary seed size with dType := t } ∧
    ∃ out r1 r2, readAll R fuel bufs (New R t seed size) = .ok (out, r1) ∧
      readAll R fuel bufs (New R Binary seed size) = .ok (out, r2) ∧ out.length = size := by
  have hgen := New_gen_default R t seed size h0 h1 h2
  have heq : New R t seed size = { New R Binary seed size with dType := t } := by
    have e1 : New R t seed size
        = { New R Binary seed size with dType := t, gen := (New R t seed size).gen } := rfl
    rw [e1, hgen]
    rfl
  obtain ⟨r1, hr1, -, -⟩ :=
    readAll_spec R fuel bufs (New R t seed size) (New_built R t seed size) (Nat.zero_le _) h
      (by show size - 0 ≤ _; omega)
  obtain ⟨r2, hr2, -, -⟩ :=
    readAll_spec R fuel bufs (New R Binary seed size) (New_built R Binary seed size)
      (Nat.zero_le _) h (by show size - 0 ≤ _; omega)
  have hrest : (New R t seed size).rest = (New R Binary seed size).rest := by
    rw [New_rest, New_rest, hgen, New_gen_binary]
  have hlen : (New R Binary seed size).rest.length = size := by
    unfold Reader.rest
    rw [List.length_take]
    have := pending_length (New R Binary seed size) (New_built R Binary seed size).2.2
    have h0 : (New R Binary seed size).size - (New R Binary seed size).read = size :=
      Nat.sub_zero _
    omega
  rw [hrest] at hr1
  exact ⟨heq, _, r1, r2, hr1, hr2, hlen⟩

theorem C6_witness :
    UTF8Text ≠ Zero ∧ UTF8Text ≠ Binary ∧ UTF8Text ≠ Text ∧
    New lcg UTF8Text 7 3 = { New lcg Binary 7 3 with dType := UTF8Text } ∧
    ∃ out r1 r2, readAll lcg 3 [[0], [0, 0], [0]] (New lcg UTF8Text 7 3) = .ok (out, r1) ∧
      readAll lcg 3 [[0], [0, 0], [0]] (New lcg Binary 7 3) = .ok (out, r2) ∧ out.length = 3 :=
  ⟨by decide, by decide, by decide,
    C6_unknown_tag_is_treated_as_binary lcg UTF8Text 7 3 3 _ (by decide) (by decide) (by decide)
      (by decide) (by decide)⟩

/-- C6, as stated, fails: `New` with the unimplemented tag UTF8Text yields a
Reader, its generator is the uniform-binary one, and `Read` on it succeeds. -/
theorem C6_counterexample :
    (New lcg UTF8Text 7 3).gen = (New lcg Binary 7 3).gen ∧
    ∃ ret, (New lcg UTF8Text 7 3).Read lcg 2 [0] = .ok ret ∧ ret.err = none ∧ ret.n = 1 := by
  refine ⟨rfl, ?_⟩
  obtain ⟨n, r1, hrun, -, hn1, hn2, -⟩ :=
    Read_spec lcg 2 (New lcg UTF8Text 7 3) [0] (New_built lcg UTF8Text 7 3)
      (by decide) (by decide) (by decide)
  have hn : n = 1 := by
    simp only [List.length_singleton] at hn2
    omega
  exact ⟨_, hrun, rfl, hn⟩

/-- C7, as the code has it: for every position and remaining length `rem` the
zero-fill generator built by `newZeroGenerator` returns a chunk of exactly
`min(4096, rem)` bytes and no error. -/
theorem C7_zero_chunk_is_min_4096_rem {σ : Type} (s : σ) (pos rem : Nat) :
    ∃ c, newZeroGenerator.Gen s pos rem = .ok (.ok c, s) ∧ c.length = min 4096 rem :=
  ⟨_, zeroGenerator_Gen_eq s pos rem, List.length_replicate _ _⟩

/-- C7, as stated, fails: asked for a chunk with 1000 bytes remaining, the
zero-fill generator returns 1000 bytes, not `min(256, 1000) = 256`. -/
theorem C7_counterexample :
    ∃ c, newZeroGenerator.Gen (0 : Nat) 0 1000 = .ok (.ok c, 0) ∧ c.length = 1000 ∧
      c.length ≠ min 256 1000 :=
  ⟨_, zeroGenerator_Gen_eq 0 0 1000, List.length_replicate _ _,
    by rw [List.length_replicate]; decide⟩

theorem zero_chunks_zero {σ : Type} (k : Nat) (s : σ) (pos size : Nat) :
    ∀ b ∈ (newZeroGenerator.toGenerator : Generator σ).chunks k s pos size, b = 0 := by
  induction k generalizing s pos with
  | zero =>
    intro b hb
    cases hb
  | succ k ih =>
    intro b hb
    by_cases hle : size ≤ pos
    · rw [chunks_done _ _ s pos size hle] at hb
      cases hb
    · rw [chunks_step _ k s s pos size _ hle (zeroGenerator_Gen_eq s pos (size - pos))] at hb
      rcases List.mem_append.1 hb with h | h
      · exact List.eq_of_mem_replicate h
      · exact ih _ _ b h

theorem zero_stream {σ : Type} (s : σ) (size : Nat) :
    canonicalStream (newZeroGenerator.toGenerator : Generator σ) s size
      = List.replicate size 0 := by
  unfold canonicalStream
  rw [List.eq_replicate_iff]
  constructor
  · rw [List.length_take]
    have := chunks_length (newZeroGenerator.toGenerator : Generator σ) zeroGenerator_productive
      size s 0 size (by omega)
    omega
  · intro b hb
    exact zero_chunks_zero size s 0 size b (List.mem_of_mem_take hb)

/-- C8: every byte of every chunk the zero-fill generator returns is 0 and the
draw stream is returned unchanged; and the bytes read from `New(Zero, seed,
size)`, through any non-empty buffers, are `size` zero bytes, whatever the
seed. -/
theorem C8_zero_stream_is_all_zero {σ : Type} (R : Rand σ) (s : σ) (pos rem : Nat)
    (seed : Int) (size fuel : Nat) (bufs : List (List Nat))
    (h : ∀ p ∈ bufs, 1 ≤ p.length ∧ p.length < fuel) (hl : size ≤ bufs.length) :
    (∃ c, newZeroGenerator.Gen s pos rem = .ok (.ok c, s) ∧ ∀ b ∈ c, b = 0) ∧
    ∃ r1, readAll R fuel bufs (New R Zero seed size) = .ok (List.replicate size 0, r1) := by
  refine ⟨⟨_, zeroGenerator_Gen_eq s pos rem, fun b hb => List.eq_of_mem_replicate hb⟩, ?_⟩
  obtain ⟨r1, hr1, -, -⟩ :=
    readAll_spec R fuel bufs (New R Zero seed size) (New_built R Zero seed size) (Nat.zero_le _) h
      (by show size - 0 ≤ _; omega)
  have hgen : (New R Zero seed size).gen = newZeroGenerator.toGenerator := rfl
  rw [New_rest, hgen, zero_stream] at hr1
  exact ⟨r1, hr1⟩

theorem C8_witness :
    (∀ p ∈ [[1, 1], [1], [1, 1, 1]], 1 ≤ p.length ∧ p.length < 4) ∧
    (∃ c, newZeroGenerator.Gen (5 : Nat) 0 2 = .ok (.ok c, 5) ∧ ∀ b ∈ c, b = 0) ∧
    ∃ r1, readAll lcg 4 [[1, 1], [1], [1, 1, 1]] (New lcg Zero 9 3)
      = .ok (List.replicate 3 0, r1) :=
  ⟨by decide,
    C8_zero_stream_is_all_zero lcg 5 0 2 9 3 4 [[1, 1], [1], [1, 1, 1]] (by decide) (by decide)⟩

/-- C9: for every position and remaining length `rem` the uniform-binary
generator returns, without error, the `min(256, rem)` bytes of one `Read` on the
draw stream passed to it, and the draw stream is left as that one `Read` leaves
it. -/
theorem C9_binary_chunk_is_next_draws {σ : Type} (R : Rand σ) (s : σ) (pos rem : Nat) :
    newBinaryGenerator.Gen R s pos rem
      = .ok (.ok (R.Read s (min 256 rem)).1, (R.Read s (min 256 rem)).2) ∧
    (R.Read s (min 256 rem)).1.length = min 256 rem :=
  ⟨binaryGenerator_Gen_eq R s pos rem, R.Read_length s _⟩

/-! ## The word-wrap of `genParagraph` -/

theorem paragraphWordsKept_eval :
    paragraphWordsKept 0 [104, 113, 97, 116, 99] = some (102, 96, true, false) := by
  decide!

/-- C10 fails on the code: in the paragraph generated from the draw stream `lcg`
in state 0, `genParagraph` generates 102 words and the lines it returns hold 96
of them; the 14th word, "hqatc", the first that does not fit on its line, is
generated and is in no line. -/
theorem C10_wrap_drops_the_word_that_does_not_fit :
    ∃ words lines r1,
      newTextGenerator.genParagraphWords lcg 0 = .ok (words, r1) ∧
      newTextGenerator.genParagraph lcg 0 = .ok (lines, r1) ∧
      words.length = 102 ∧ (splitWords lines.flatten []).length = 96 ∧
      [104, 113, 97, 116, 99] ∈ words ∧
      [104, 113, 97, 116, 99] ∉ splitWords lines.flatten [] := by
  have h := paragraphWordsKept_eval
  unfold paragraphWordsKept at h
  unfold textGenerator.genParagraph at h ⊢
  cases hw : newTextGenerator.genParagraphWords lcg 0 with
  | error f =>
    rw [hw] at h
    cases h
  | ok v =>
    obtain ⟨ws, r1⟩ := v
    rw [hw] at h
    simp only [Option.some.injEq, Prod.mk.injEq, decide_eq_true_eq,
      decide_eq_false_iff_not] at h
    exact ⟨ws, _, r1, rfl, rfl, h.1, h.2.1, h.2.2.1, h.2.2.2⟩

/-! ## Claims about the pseudo-text generator -/

theorem textChunkWords_eval :
    textChunkWords 2369 0 50
      = some (63, some [113, 111], some [79, 121, 97, 101, 120, 108],
          some [99, 109, 111, 121, 107, 120, 105, 118, 115, 105]) := by
  decide!

/-- C11 fails on the code: in the chunk generated at position 0 from the draw
stream `lcg` in state 2369, word 51 of the output, "Oyaexl", begins with an
uppercase letter although the word before it, "qo", does not end with a period,
and the last word of the chunk, "cmoykxivsi", does not end with a period. -/
theorem C11_sentence_ends_are_dropped :
    ∃ chunk r1, newTextGenerator.Gen lcg 2369 0 0 = .ok (.ok chunk, r1) ∧
      (splitWords chunk []).length = 63 ∧
      (splitWords chunk []).get? 50 = some [113, 111] ∧
      (splitWords chunk []).get? 51 = some [79, 121, 97, 101, 120, 108] ∧
      (splitWords chunk []).getLast? = some [99, 109, 111, 121, 107, 120, 105, 118, 115, 105] := by
  have h := textChunkWords_eval
  unfold textChunkWords at h
  cases hg : newTextGenerator.Gen lcg 2369 0 0 with
  | error f =>
    rw [hg] at h
    cases h
  | ok v =>
    obtain ⟨res, r1⟩ := v
    rw [hg] at h
    cases res with
    | error e => cases h
    | ok chunk =>
      simp only [Option.some.injEq, Prod.mk.injEq] at h
      exact ⟨chunk, r1, rfl, h.1, h.2.1, h.2.2.1, h.2.2.2⟩

theorem genWordLenLoop_first (v : Nat) :
    ∀ (tbl : List Nat) (k i t : Nat), tbl.get? i = some t → v < t →
      (∀ j u, j < i → tbl.get? j = some u → u ≤ v) → genWordLenLoop v tbl k = k + i + 1 := by
  intro tbl
  induction tbl with
  | nil =>
    intro k i t h
    cases h
  | cons a as ih =>
    intro k i t h hv hbefore
    cases i with
    | zero =>
      simp only [List.get?_cons_zero, Option.some.injEq] at h
      rw [genWordLenLoop, if_pos (h ▸ hv)]
    | succ i =>
      have ha : a ≤ v := hbefore 0 a (Nat.succ_pos i) rfl
      rw [genWordLenLoop, if_neg (Nat.not_lt.2 ha),
        ih (k + 1) i t h hv (fun j u hj hu => hbefore (j + 1) u (Nat.succ_lt_succ hj) hu)]
      omega

theorem genWordLenLoop_none (v : Nat) :
    ∀ (tbl : List Nat) (k : Nat), (∀ t ∈ tbl, t ≤ v) → genWordLenLoop v tbl k = 16 := by
  intro tbl
  induction tbl with
  | nil =>
    intro k _
    rfl
  | cons a as ih =>
    intro k h
    have ha : a ≤ v := h a (List.mem_cons_self _ _)
    rw [genWordLenLoop, if_neg (Nat.not_lt.2 ha)]
    exact ih (k + 1) (fun t ht => h t (List.mem_cons_of_mem _ ht))

theorem genWordLenLoop_count (v : Nat) :
    ∀ (tbl : List Nat) (k : Nat), List.Sorted (fun a b => a < b) tbl →
      genWordLenLoop v tbl k
        = if ∃ t ∈ tbl, v < t then k + 1 + (tbl.filter (fun t => decide (t ≤ v))).length
          else 16 := by
  intro tbl
  induction tbl with
  | nil =>
    intro k _
    simp [genWordLenLoop]
  | cons a as ih =>
    intro k hs
    have hs2 : List.Sorted (fun a b => a < b) as := hs.of_cons
    have hrel : ∀ b ∈ as, a < b := List.rel_of_sorted_cons hs
    by_cases hva : v < a
    · have hex : ∃ t ∈ a :: as, v < t := ⟨a, List.mem_cons_self _ _, hva⟩
      have hfil : (a :: as).filter (fun t => decide (t ≤ v)) = [] := by
        rw [List.filter_eq_nil_iff]
        intro t ht
        have : a ≤ t := by
          rcases List.mem_cons.1 ht with h | h
          · omega
          · exact Nat.le_of_lt (hrel t h)
        simp only [decide_eq_true_eq]
        omega
      rw [genWordLenLoop, if_pos hva, if_pos hex, hfil]
      rfl
    · have hav : a ≤ v := Nat.le_of_not_lt hva
      have hfil : (a :: as).filter (fun t => decide (t ≤ v))
          = a :: as.filter (fun t => decide (t ≤ v)) := by
        rw [List.filter_cons_of_pos (by simpa using hav)]
      rw [genWordLenLoop, if_neg hva, ih (k + 1) hs2, hfil]
      by_cases hex : ∃ t ∈ as, v < t
      · have hex2 : ∃ t ∈ a :: as, v < t := by
          obtain ⟨t, ht, hvt⟩ := hex
          exact ⟨t, List.mem_cons_of_mem _ ht, hvt⟩
        rw [if_pos hex, if_pos hex2, List.length_cons]
        omega
      · have hex2 : ¬ ∃ t ∈ a :: as, v < t := by
          rintro ⟨t, ht, hvt⟩
          rcases List.mem_cons.1 ht with h | h
          · exact hva (h ▸ hvt)
          · exact hex ⟨t, h, hvt⟩
        rw [if_neg hex, if_neg hex2]

theorem enWordLenTbl_sorted : List.Sorted (fun a b => a < b) enWordLenTbl := by
  decide

theorem genWordLenLoop_le (v : Nat) :
    ∀ (tbl : List Nat) (k : Nat), k + tbl.length ≤ 16 → genWordLenLoop v tbl k ≤ 16 := by
  intro tbl
  induction tbl with
  | nil =>
    intro k _
    exact Nat.le_refl _
  | cons a as ih =>
    intro k h
    simp only [List.length_cons] at h
    rw [genWordLenLoop]
    split
    · omega
    · exact ih (k + 1) (by omega)

/-- C14: `genWordLen` reads two bytes, whose big-endian value `v` is below
65536, and returns the result of the table scan for `v`.  For every `v` the
scan returns `i + 1` for the smallest index `i` whose threshold in the 15-entry
table `enWordLenTbl` is greater than `v`, and 16 when no threshold is greater;
the result is in 1..16; the table is strictly increasing and the result is 1
plus the number of thresholds `<= v`. -/
theorem C14_word_length_is_first_threshold_above {σ : Type} (R : Rand σ) (g : textGenerator)
    (r : σ) (v : Nat) :
    ((g.genWordLen R r).1
        = genWordLenLoop ((R.Read r 2).1.getD 0 0 * 256 + (R.Read r 2).1.getD 1 0)
            enWordLenTbl 0 ∧
      (R.Read r 2).1.getD 0 0 * 256 + (R.Read r 2).1.getD 1 0 < 65536 ∧
      (g.genWordLen R r).2 = (R.Read r 2).2) ∧
    (∀ i t, enWordLenTbl.get? i = some t → v < t →
      (∀ j u, j < i → enWordLenTbl.get? j = some u → u ≤ v) →
      genWordLenLoop v enWordLenTbl 0 = i + 1) ∧
    ((∀ t ∈ enWordLenTbl, t ≤ v) → genWordLenLoop v enWordLenTbl 0 = 16) ∧
    (1 ≤ genWordLenLoop v enWordLenTbl 0 ∧ genWordLenLoop v enWordLenTbl 0 ≤ 16) ∧
    (enWordLenTbl.length = 15 ∧ List.Sorted (fun a b => a < b) enWordLenTbl) ∧
    genWordLenLoop v enWordLenTbl 0
      = 1 + (enWordLenTbl.filter (fun t => decide (t ≤ v))).length := by
  have hb0 := rand_getD_lt R r 2 0
  have hb1 := rand_getD_lt R r 2 1
  have hv : (R.Read r 2).1.getD 0 0 * 256 + (R.Read r 2).1.getD 1 0 < 65536 := by omega
  refine ⟨⟨?_, hv, rfl⟩, ?_, genWordLenLoop_none v enWordLenTbl 0,
    ⟨genWordLenLoop_pos v _ _, genWordLenLoop_le v _ _ (by decide)⟩,
    ⟨by decide, enWordLenTbl_sorted⟩, ?_⟩
  · show genWordLenLoop (BigEndianUint16 (R.Read r 2).1) enWordLenTbl 0 = _
    unfold BigEndianUint16
    rw [Nat.mod_eq_of_lt hv]
  · intro i t hi hvt hbefore
    have := genWordLenLoop_first v enWordLenTbl 0 i t hi hvt hbefore
    omega
  · rw [genWordLenLoop_count v enWordLenTbl 0 enWordLenTbl_sorted]
    by_cases hex : ∃ t ∈ enWordLenTbl, v < t
    · rw [if_pos hex, Nat.zero_add]
    · rw [if_neg hex]
      have hall : ∀ t ∈ enWordLenTbl, decide (t ≤ v) = true := by
        intro t ht
        have : ¬ v < t := fun h => hex ⟨t, ht, h⟩
        simp only [decide_eq_true_eq]
        omega
      have hlen : enWordLenTbl.length = 15 := by decide
      rw [List.filter_eq_self.2 hall, hlen]

theorem chars_lower : ∀ c ∈ chars, isLower c := by
  unfold isLower
  decide

theorem genWord_plain {σ : Type} (R : Rand σ) (g : textGenerator) (r : σ) :
    ∃ a body r1, g.genWord R r = .ok (a :: body, r1) ∧ isLower a ∧
      (∀ c ∈ body, isLower c) ∧ body.length < 16 := by
  obtain ⟨w, r1, hw, hlen, hne, hall⟩ := genWord_ok R g r
  have hle : (g.genWordLen R r).1 ≤ 16 := genWordLenLoop_le _ _ _ (by decide)
  cases w with
  | nil => exact absurd rfl hne
  | cons a body =>
    refine ⟨a, body, r1, hw, chars_lower a (hall a (List.mem_cons_self _ _)),
      fun c hc => chars_lower c (hall c (List.mem_cons_of_mem _ hc)), ?_⟩
    simp only [List.length_cons] at hlen
    omega

theorem TitleFrom_lower (prev : Nat) (t : List Nat) (hp : isSeparator prev = false)
    (ht : ∀ c ∈ t, isLower c) : TitleFrom prev t = t := by
  induction t generalizing prev with
  | nil => rfl
  | cons c cs ih =>
    have hc : isLower c := ht c (List.mem_cons_self _ _)
    have hsep : isSeparator c = false := by
      unfold isLower at hc
      unfold isSeparator
      simp [hc.1, hc.2]
    rw [TitleFrom, hp, ih c hsep (fun x hx => ht x (List.mem_cons_of_mem _ hx))]
    simp

theorem Title_plain (a : Nat) (body : List Nat) (ha : isLower a)
    (hb : ∀ c ∈ body, isLower c) : Title (a :: body) = (a - 32) :: body ∧ isUpper (a - 32) := by
  have hsep : isSeparator a = false := by
    unfold isLower at ha
    unfold isSeparator
    simp [ha.1, ha.2]
  have h32 : isSeparator 32 = true := by decide
  unfold isLower at ha
  constructor
  · rw [Title, TitleFrom, h32, TitleFrom_lower a body hsep hb]
    simp [toTitle, ha.1, ha.2]
  · unfold isUpper
    omega

theorem genSentenceWords_plain {σ : Type} (R : Rand σ) (g : textGenerator) (k : Nat) (r : σ) :
    ∃ ws r1, g.genSentenceWords R k r = .ok (ws, r1) ∧ ws.length = k ∧
      ∀ w ∈ ws, ∃ a body, w = a :: body ∧ isLower a ∧ (∀ c ∈ body, isLower c) ∧
        body.length < 16 := by
  induction k generalizing r with
  | zero => exact ⟨[], r, rfl, rfl, by simp⟩
  | succ k ih =>
    obtain ⟨a, body, r1, hw, ha, hb, hl⟩ := genWord_plain R g r
    obtain ⟨ws, r2, hws, hlen, hall⟩ := ih r1
    refine ⟨(a :: body) :: ws, r2, by simp only [textGenerator.genSentenceWords, hw, hws],
      by simp [hlen], ?_⟩
    intro w hw2
    rcases List.mem_cons.1 hw2 with h | h
    · exact ⟨a, body, h, ha, hb, hl⟩
    · exact hall w h

theorem appendToLast_length (s : List Nat) (ws : List (List Nat)) :
    (appendToLast s ws).length = ws.length := by
  induction ws with
  | nil => rfl
  | cons w rest ih =>
    cases rest with
    | nil => rfl
    | cons w2 rest2 =>
      rw [appendToLast, List.length_cons, ih]
      rfl

theorem appendToLast_shape (ws : List (List Nat)) (h : ∀ w ∈ ws, PlainWord w) :
    ∀ w ∈ appendToLast [46] ws, WordShape w := by
  induction ws with
  | nil =>
    intro w hw
    cases hw
  | cons w1 rest ih =>
    obtain ⟨a, body, hw1, ha, hb, hl⟩ := h w1 (List.mem_cons_self _ _)
    cases rest with
    | nil =>
      intro w hw
      rw [appendToLast, List.mem_singleton] at hw
      exact ⟨a, body, [46], by rw [hw, hw1, List.cons_append], ha, hb, Or.inr rfl, hl⟩
    | cons w2 rest2 =>
      intro w hw
      rw [appendToLast] at hw
      rcases List.mem_cons.1 hw with h1 | h1
      · exact ⟨a, body, [], by rw [h1, hw1, List.append_nil], ha, hb, Or.inl rfl, hl⟩
      · exact ih (fun x hx => h x (List.mem_cons_of_mem _ hx)) w h1

theorem genSentLen_index {σ : Type} (R : Rand σ) (g : textGenerator) (r : σ) :
    ∃ n, g.genSentLen R r = .ok (n, (R.Read r 1).2) ∧
      (R.Read r 1).1.getD 0 0 / 4 < enSentLenTbl.length ∧
      enSentLenTbl.get? ((R.Read r 1).1.getD 0 0 / 4) = some n ∧ 4 ≤ n ∧ n ≤ 30 := by
  have hb := rand_getD_lt R r 1 0
  have hlt : (R.Read r 1).1.getD 0 0 / 4 < enSentLenTbl.length := by
    rw [enSentLenTbl_length]
    omega
  have hget : enSentLenTbl.get? ((R.Read r 1).1.getD 0 0 / 4)
      = some (enSentLenTbl[(R.Read r 1).1.getD 0 0 / 4]) := by
    rw [List.get?_eq_getElem?, List.getElem?_eq_getElem hlt]
  refine ⟨enSentLenTbl[(R.Read r 1).1.getD 0 0 / 4], ?_, hlt, hget,
    enSentLenTbl_ge _ (List.getElem_mem _), enSentLenTbl_le _ (List.getElem_mem _)⟩
  show (match enSentLenTbl.get? ((R.Read r 1).1.getD 0 0 / 4) with
    | some n => Except.ok (n, (R.Read r 1).2)
    | none => Except.error Fault.indexOutOfRange) = _
  rw [hget]

theorem genSentence_shape {σ : Type} (R : Rand σ) (g : textGenerator) (r : σ) :
    ∃ n ws r1, g.genSentLen R r = .ok (n, (R.Read r 1).2) ∧ g.genSentence R r = .ok (ws, r1) ∧
      ws.length = n ∧ 4 ≤ n ∧ n ≤ 30 ∧ ∀ w ∈ ws, WordShape w := by
  obtain ⟨n, hn, -, -, h4, h30⟩ := genSentLen_index R g r
  obtain ⟨ws, r2, hws, hlen, hall⟩ := genSentenceWords_plain R g n (R.Read r 1).2
  cases ws with
  | nil =>
    simp only [List.length_nil] at hlen
    omega
  | cons w0 rest =>
    obtain ⟨a, body, hw0, ha, hb, hl⟩ := hall w0 (List.mem_cons_self _ _)
    obtain ⟨htitle, hup⟩ := Title_plain a body ha hb
    have hplain : ∀ w ∈ Title w0 :: rest, PlainWord w := by
      intro w hw
      rcases List.mem_cons.1 hw with h | h
      · exact ⟨a - 32, body, by rw [h, hw0, htitle], Or.inr hup, hb, hl⟩
      · obtain ⟨a1, body1, e1, ha1, hb1, hl1⟩ := hall w (List.mem_cons_of_mem _ h)
        exact ⟨a1, body1, e1, Or.inl ha1, hb1, hl1⟩
    refine ⟨n, appendToLast [46] (Title w0 :: rest), r2, hn, ?_, ?_, h4, h30,
      appendToLast_shape _ hplain⟩
    · simp only [textGenerator.genSentence, hn, hws]
    · rw [appendToLast_length]
      exact hlen

theorem genSentences_shape {σ : Type} (R : Rand σ) (g : textGenerator) (k : Nat) (r : σ) :
    ∃ (sents : List (List (List Nat))) (r1 : σ), g.genSentences R k r = .ok (sents.flatten, r1) ∧ sents.length = k ∧
      ∀ s ∈ sents, 4 ≤ s.length ∧ s.length ≤ 30 ∧ ∀ w ∈ s, WordShape w := by
  induction k generalizing r with
  | zero => exact ⟨[], r, rfl, rfl, by simp⟩
  | succ k ih =>
    obtain ⟨n, sw, r1, -, hsw, hlen, h4, h30, hshape⟩ := genSentence_shape R g r
    obtain ⟨sents, r2, hrest, hk, hall⟩ := ih r1
    refine ⟨sw :: sents, r2, ?_, by simp [hk], ?_⟩
    · rw [textGenerator.genSentences, hsw]
      simp only [hrest, List.flatten_cons]
    · intro s hs
      rcases List.mem_cons.1 hs with h | h
      · rw [h]
        exact ⟨by omega, by omega, hshape⟩
      · exact hall s h

/-- The words `genSentences` returns are the outputs of its `genSentence` calls,
in order, each of 4 to 30 well-shaped words. -/
theorem genSentences_run {σ : Type} (R : Rand σ) (g : textGenerator) (k : Nat) (r : σ) :
    ∃ (sents : List (List (List Nat))) (r1 : σ),
      g.genSentences R k r = .ok (sents.flatten, r1) ∧ g.SentencesOf R r sents r1 ∧
      sents.length = k ∧
      ∀ s ∈ sents, 4 ≤ s.length ∧ s.length ≤ 30 ∧ ∀ w ∈ s, WordShape w := by
  induction k generalizing r with
  | zero => exact ⟨[], r, rfl, rfl, rfl, by simp⟩
  | succ k ih =>
    obtain ⟨n, sw, r1, -, hsw, hlen, h4, h30, hshape⟩ := genSentence_shape R g r
    obtain ⟨sents, r2, hrest, hof, hk, hall⟩ := ih r1
    refine ⟨sw :: sents, r2, ?_, ⟨r1, hsw, hof⟩, by simp [hk], ?_⟩
    · rw [textGenerator.genSentences, hsw]
      simp only [hrest, List.flatten_cons]
    · intro s hs
      rcases List.mem_cons.1 hs with h | h
      · rw [h]
        exact ⟨by omega, by omega, hshape⟩
      · exact hall s h

theorem wordShape_ne (w : List Nat) (h : WordShape w) : w ≠ [] := by
  obtain ⟨a, body, tail, hw, -⟩ := h
  rw [hw]
  exact List.cons_ne_nil _ _

/-- C15: the words of a paragraph are the outputs of `5 + b / 32` successive
calls of `genSentence`, in order, `b` being the byte drawn for the paragraph;
that number is between 5 and 12, and every one of these sentences is made of
between 4 and 30 words, each word non-empty.  For every draw stream,
`genSentence` returns a sentence whose number of words is the entry of
`enSentLenTbl` at the index `b / 4` of the byte it draws; that index is below
the length 64 of the table, every entry of the table is between 4 and 30, and
`genSentence` ends without an index out of range, as does `genParagraph`. -/
theorem C15_sentence_and_paragraph_sizes {σ : Type} (R : Rand σ) (g : textGenerator) (r : σ) :
    (∃ (sents : List (List (List Nat))) (r1 : σ),
      g.genParagraphWords R r = .ok (sents.flatten, r1) ∧
      g.SentencesOf R (R.Read r 1).2 sents r1 ∧
      sents.length = 5 + (R.Read r 1).1.getD 0 0 / 32 ∧
      (R.Read r 1).1.getD 0 0 / 32 < 8 ∧
      5 ≤ sents.length ∧ sents.length ≤ 12 ∧
      ∀ s ∈ sents, 4 ≤ s.length ∧ s.length ≤ 30 ∧ ∀ w ∈ s, w ≠ []) ∧
    (∃ n ws r1, g.genSentLen R r = .ok (n, (R.Read r 1).2) ∧
      (R.Read r 1).1.getD 0 0 / 4 < enSentLenTbl.length ∧ enSentLenTbl.length = 64 ∧
      enSentLenTbl.get? ((R.Read r 1).1.getD 0 0 / 4) = some n ∧
      g.genSentence R r = .ok (ws, r1) ∧ ws.length = n ∧ 4 ≤ n ∧ n ≤ 30 ∧ ws ≠ [] ∧
      ∀ w ∈ ws, w ≠ []) ∧
    (∀ n ∈ enSentLenTbl, 4 ≤ n ∧ n ≤ 30) ∧
    ∃ lines r1, g.genParagraph R r = .ok (lines, r1) := by
  have hb := rand_getD_lt R r 1 0
  obtain ⟨sents, r1, hrun, hof, hk, hall⟩ :=
    genSentences_run R g ((R.Read r 1).1.getD 0 0 / 32 + 5) (R.Read r 1).2
  have hpar : g.genParagraphWords R r = .ok (sents.flatten, r1) := hrun
  refine ⟨⟨sents, r1, hpar, hof, by omega, by omega, by omega, by omega,
    fun s hs => ⟨(hall s hs).1, (hall s hs).2.1,
      fun w hw => wordShape_ne w ((hall s hs).2.2 w hw)⟩⟩, ?_,
    fun n hn => ⟨enSentLenTbl_ge n hn, enSentLenTbl_le n hn⟩, ?_⟩
  · obtain ⟨n, hn, hidx, hget, -, -⟩ := genSentLen_index R g r
    obtain ⟨n2, ws, r2, hn2, hws, hlen, h4, h30, hshape⟩ := genSentence_shape R g r
    have hnn : n2 = n := by
      rw [hn] at hn2
      simp only [Except.ok.injEq, Prod.mk.injEq] at hn2
      exact hn2.1.symm
    subst hnn
    refine ⟨n2, ws, r2, hn, hidx, enSentLenTbl_length, hget, hws, hlen, h4, h30, ?_,
      fun w hw => wordShape_ne w (hshape w hw)⟩
    intro hnil
    rw [hnil] at hlen
    simp only [List.length_nil] at hlen
    omega
  · exact ⟨g.wrap sents.flatten, r1, by simp only [textGenerator.genParagraph, hpar]⟩

/-- C16: the pseudo-text generator ignores the remaining length, `Gen(r, pos,
rem1) = Gen(r, pos, rem2)`, and uses the position only for the separator: the
chunk at position 0 is the concatenation of the lines `genParagraph` returns,
and the chunk at any position above 0 is one line break followed by them. -/
theorem C16_text_chunk_ignores_rem {σ : Type} (R : Rand σ) (g : textGenerator) (r : σ)
    (pos rem1 rem2 : Nat) :
    g.Gen R r pos rem1 = g.Gen R r pos rem2 ∧
    ∃ lines r1, g.genParagraph R r = .ok (lines, r1) ∧
      g.Gen R r 0 rem1 = .ok (.ok lines.flatten, r1) ∧
      g.Gen R r (pos + 1) rem1 = .ok (.ok (10 :: lines.flatten), r1) := by
  obtain ⟨sents, r1, hrun, -, -⟩ :=
    genSentences_shape R g ((R.Read r 1).1.getD 0 0 / 32 + 5) (R.Read r 1).2
  have hpar : g.genParagraph R r = .ok (g.wrap sents.flatten, r1) := by
    simp only [textGenerator.genParagraph, textGenerator.genParagraphWords, hrun]
  refine ⟨rfl, g.wrap sents.flatten, r1, hpar, ?_, ?_⟩
  · simp only [textGenerator.Gen, hpar, Nat.lt_irrefl, if_false]
  · simp only [textGenerator.Gen, hpar, Nat.succ_pos, if_true]

/-! ## Claims about the exposed length and about Generator failures -/

theorem readLoop_n {σ : Type} (readLen fuel : Nat) :
    ∀ (r : Reader σ) (remLen : Nat) (done curDst : List Nat) (ret : ReadRet σ),
      Reader.readLoop readLen fuel r remLen done curDst = .ok ret → ret.err = none →
      ret.n = readLen := by
  induction fuel with
  | zero =>
    intro r remLen done curDst ret h
    cases h
  | succ fuel ih =>
    intro r remLen done curDst ret h herr
    rw [readLoop_succ] at h
    cases hx : (if r.buf.length = 0 then r.prepareNext else .ok (none, r)) with
    | error f =>
      rw [hx] at h
      cases h
    | ok v =>
      obtain ⟨e, r1⟩ := v
      rw [hx] at h
      cases e with
      | some e1 =>
        simp only [Except.ok.injEq] at h
        rw [← h] at herr
        cases herr
      | none =>
        simp only at h
        by_cases hle : remLen ≤ r1.buf.length
        · rw [if_pos hle] at h
          simp only [Except.ok.injEq] at h
          rw [← h]
        · rw [if_neg hle] at h
          by_cases hf : (copy curDst r1.buf).length < r1.buf.length
          · rw [if_pos hf] at h
            cases h
          · rw [if_neg hf] at h
            exact ih _ _ _ _ ret h herr

/-- C20: for a Reader with the bounds `New` and `NewWithGenerator` set (1 and
`math.MaxInt32`) that is not at end-of-stream, and a buffer of capacity `c`:
for `c <= 1` the exposed length is `c` and the jitter stream is left untouched;
for `c >= 2` the exposed length is `1 + d`, with `d` the one value drawn by
`Intn(min(c, MaxInt32))` from the jitter stream, so `d < min(c, MaxInt32)` and
`1 <= 1 + d <= min(c, MaxInt32)`.  `Read` runs its loop for the exposed length
clamped to `size - TotalRead()`, which is the length it returns when it returns
no error, and leaves the jitter stream as the draw left it.  The exposed length
does not depend on the content draw stream, the Generator or the pending
buffer. -/
theorem C20_exposed_length_is_jitter_then_clamp {σ : Type} (R : Rand σ) (fuel : Nat)
    (r : Reader σ) (p : List Nat) (hmin : r.lenMin = 1) (hmax : r.lenMax = MaxInt32)
    (hne : r.IsEOF = false) :
    (p.length ≤ 1 → r.jitterLen R p.length = (p.length, r.lenRnd)) ∧
    (2 ≤ p.length →
      r.jitterLen R p.length
        = (1 + (R.Intn r.lenRnd (min p.length MaxInt32)).1,
            (R.Intn r.lenRnd (min p.length MaxInt32)).2) ∧
      (R.Intn r.lenRnd (min p.length MaxInt32)).1 < min p.length MaxInt32 ∧
      1 ≤ 1 + (R.Intn r.lenRnd (min p.length MaxInt32)).1 ∧
      1 + (R.Intn r.lenRnd (min p.length MaxInt32)).1 ≤ min p.length MaxInt32) ∧
    r.Read R fuel p
      = Reader.readLoop (min (r.jitterLen R p.length).1 (r.size - r.TotalRead)) fuel
          { r with lenRnd := (r.jitterLen R p.length).2 }
          (min (r.jitterLen R p.length).1 (r.size - r.TotalRead)) [] p ∧
    (∀ ret, r.Read R fuel p = .ok ret →
      ret.r.lenRnd = (r.jitterLen R p.length).2 ∧
      (ret.err = none → ret.n = min (r.jitterLen R p.length).1 (r.size - r.TotalRead))) ∧
    (∀ (s : σ) (gen : Generator σ) (buf : List Nat),
      ({ r with datRnd := s, gen := gen, buf := buf } : Reader σ).jitterLen R p.length
        = r.jitterLen R p.length) := by
  have hlt : r.read < r.size := by
    simp only [Reader.IsEOF, decide_eq_false_iff_not] at hne
    omega
  have hM : MaxInt32 = 2147483647 := rfl
  refine ⟨?_, ?_, Read_not_eof R fuel r p hlt, ?_, fun _ _ _ => rfl⟩
  · intro hc
    unfold Reader.jitterLen
    rw [if_neg (by rw [hmin]; omega)]
  · intro hc
    have hbound : (if p.length < r.lenMax then p.length else r.lenMax) - r.lenMin + 1
        = min p.length MaxInt32 := by
      rw [hmin, hmax]
      split <;> omega
    have hd := R.Intn_lt r.lenRnd (min p.length MaxInt32) (by rw [hM]; omega)
    refine ⟨?_, hd, by omega, by omega⟩
    unfold Reader.jitterLen
    rw [if_pos (by rw [hmin, hmax, hM]; omega), hbound, hmin]
  · intro ret hrun
    rw [Read_not_eof R fuel r p hlt] at hrun
    exact ⟨(readLoop_inv _ _ _ _ _ _ ret hrun).2, fun herr => readLoop_n _ _ _ _ _ _ ret hrun herr⟩

theorem C20_witness :
    (New lcg Binary 5 10).lenMin = 1 ∧ (New lcg Binary 5 10).lenMax = MaxInt32 ∧
    (New lcg Binary 5 10).IsEOF = false ∧
    ([9, 9, 9].length ≤ 1 →
      (New lcg Binary 5 10).jitterLen lcg [9, 9, 9].length
        = ([9, 9, 9].length, (New lcg Binary 5 10).lenRnd)) ∧
    (2 ≤ [9, 9, 9].length →
      (New lcg Binary 5 10).jitterLen lcg [9, 9, 9].length
        = (1 + (lcg.Intn (New lcg Binary 5 10).lenRnd (min [9, 9, 9].length MaxInt32)).1,
            (lcg.Intn (New lcg Binary 5 10).lenRnd (min [9, 9, 9].length MaxInt32)).2) ∧
      (lcg.Intn (New lcg Binary 5 10).lenRnd (min [9, 9, 9].length MaxInt32)).1
        < min [9, 9, 9].length MaxInt32 ∧
      1 ≤ 1 + (lcg.Intn (New lcg Binary 5 10).lenRnd (min [9, 9, 9].length MaxInt32)).1 ∧
      1 + (lcg.Intn (New lcg Binary 5 10).lenRnd (min [9, 9, 9].length MaxInt32)).1
        ≤ min [9, 9, 9].length MaxInt32) ∧
    (New lcg Binary 5 10).Read lcg 4 [9, 9, 9]
      = Reader.readLoop
          (min ((New lcg Binary 5 10).jitterLen lcg [9, 9, 9].length).1
            ((New lcg Binary 5 10).size - (New lcg Binary 5 10).TotalRead)) 4
          { New lcg Binary 5 10 with
            lenRnd := ((New lcg Binary 5 10).jitterLen lcg [9, 9, 9].length).2 }
          (min ((New lcg Binary 5 10).jitterLen lcg [9, 9, 9].length).1
            ((New lcg Binary 5 10).size - (New lcg Binary 5 10).TotalRead)) [] [9, 9, 9] ∧
    (∀ ret, (New lcg Binary 5 10).Read lcg 4 [9, 9, 9] = .ok ret →
      ret.r.lenRnd = ((New lcg Binary 5 10).jitterLen lcg [9, 9, 9].length).2 ∧
      (ret.err = none →
        ret.n = min ((New lcg Binary 5 10).jitterLen lcg [9, 9, 9].length).1
          ((New lcg Binary 5 10).size - (New lcg Binary 5 10).TotalRead))) ∧
    (∀ (s : Nat) (gen : Generator Nat) (buf : List Nat),
      ({ New lcg Binary 5 10 with datRnd := s, gen := gen, buf := buf } : Reader Nat).jitterLen
          lcg [9, 9, 9].length
        = (New lcg Binary 5 10).jitterLen lcg [9, 9, 9].length) :=
  ⟨rfl, rfl, by decide,
    C20_exposed_length_is_jitter_then_clamp lcg 4 (New lcg Binary 5 10) [9, 9, 9] rfl rfl
      (by decide)⟩

theorem refill_fail {σ : Type} (r r1 : Reader σ) (e : Error)
    (h : (if r.buf.length = 0 then r.prepareNext else .ok (none, r)) = .ok (some e, r1)) :
    r1.buf = [] ∧ r1.read = r.read ∧
      r.gen.Gen r.datRnd r.read (r.size - r.read) = .ok (.error e, r1.datRnd) := by
  by_cases hb : r.buf.length = 0
  · rw [if_pos hb] at h
    unfold Reader.prepareNext at h
    cases hg : r.gen.Gen r.datRnd r.read (r.size - r.read) with
    | error f =>
      rw [hg] at h
      cases h
    | ok v =>
      obtain ⟨res, s⟩ := v
      rw [hg] at h
      cases res with
      | error e1 =>
        simp only [Except.ok.injEq, Prod.mk.injEq, Option.some.injEq] at h
        rw [← h.2, h.1]
        exact ⟨List.length_eq_zero.1 hb, rfl, rfl⟩
      | ok b =>
        simp only [Except.ok.injEq, Prod.mk.injEq] at h
        cases h.1
  · rw [if_neg hb] at h
    simp only [Except.ok.injEq, Prod.mk.injEq] at h
    cases h.1

/-- When the loop of `Read` returns an error, the Generator returned it at the
position the Reader is left at, the pending buffer is empty, and the bytes
copied before are counted. -/
theorem readLoop_fail {σ : Type} (readLen fuel : Nat) :
    ∀ (r : Reader σ) (remLen : Nat) (done curDst : List Nat) (ret : ReadRet σ) (e : Error),
      r.read < r.size → remLen ≤ r.size - r.read → remLen ≤ readLen →
      Reader.readLoop readLen fuel r remLen done curDst = .ok ret → ret.err = some e →
      ret.r.buf = [] ∧ ret.r.read < ret.r.size ∧
      ret.r.read + (readLen - remLen) = r.read + ret.n ∧
      ∃ s, ret.r.gen.Gen s ret.r.read (ret.r.size - ret.r.read)
        = .ok (.error e, ret.r.datRnd) := by
  induction fuel with
  | zero =>
    intro r remLen done curDst ret e _ _ _ h
    cases h
  | succ fuel ih =>
    intro r remLen done curDst ret e hlt hrem hrl h herr
    rw [readLoop_succ] at h
    cases hx : (if r.buf.length = 0 then r.prepareNext else .ok (none, r)) with
    | error f =>
      rw [hx] at h
      cases h
    | ok v =>
      obtain ⟨e0, r1⟩ := v
      obtain ⟨hs, hread, -⟩ := refill_inv r r1 e0 hx
      have hsize : r1.size = r.size := hs.2.2.1
      have hgen : r1.gen = r.gen := hs.2.2.2.2.2
      cases e0 with
      | some e1 =>
        obtain ⟨hbuf, -, hg⟩ := refill_fail r r1 e1 hx
        rw [hx] at h
        simp only [Except.ok.injEq] at h
        rw [← h] at herr
        simp only [Option.some.injEq] at herr
        rw [← h]
        refine ⟨hbuf, by show r1.read < r1.size; omega, ?_, r.datRnd, ?_⟩
        · show r1.read + (readLen - remLen) = r.read + (readLen - remLen)
          rw [hread]
        · show r1.gen.Gen r.datRnd r1.read (r1.size - r1.read) = _
          rw [hgen, hread, hsize, ← herr]
          exact hg
      | none =>
        rw [hx] at h
        simp only at h
        by_cases hle : remLen ≤ r1.buf.length
        · rw [if_pos hle] at h
          simp only [Except.ok.injEq] at h
          rw [← h] at herr
          cases herr
        · rw [if_neg hle] at h
          by_cases hf : (copy curDst r1.buf).length < r1.buf.length
          · rw [if_pos hf] at h
            cases h
          · rw [if_neg hf] at h
            obtain ⟨h1, h2, h3, h4⟩ := ih _ _ _ _ ret e
              (by show r1.read + r1.buf.length < r1.size; omega)
              (by show remLen - r1.buf.length ≤ r1.size - (r1.read + r1.buf.length); omega)
              (by omega) h herr
            refine ⟨h1, h2, ?_, h4⟩
            have h3' : ret.r.read + (readLen - (remLen - r1.buf.length))
                = r1.read + r1.buf.length + ret.n := h3
            omega

theorem Read_one_byte {σ : Type} (R : Rand σ) (k : Nat) (q : Reader σ) (x : Nat)
    (hmin : q.lenMin = 1) (hbuf : q.buf = []) (hlt : q.read < q.size) :
    (∀ e2 s2, q.gen.Gen q.datRnd q.read (q.size - q.read) = .ok (.error e2, s2) →
      q.Read R (k + 1) [x]
        = .ok { n := 0, err := some e2, p := [x], r := { q with datRnd := s2 } }) ∧
    (∀ b c s2, q.gen.Gen q.datRnd q.read (q.size - q.read) = .ok (.ok (b :: c), s2) →
      q.Read R (k + 1) [x]
        = .ok { n := 1, err := none, p := [b],
                r := { q with datRnd := s2, read := q.read + 1, buf := c } }) := by
  have hj : q.jitterLen R [x].length = (1, q.lenRnd) := by
    unfold Reader.jitterLen
    rw [if_neg (by rw [hmin]; simp)]
    rfl
  have hL : min 1 (q.size - q.read) = 1 := by omega
  have hrun := Read_not_eof R (k + 1) q [x] hlt
  rw [hj] at hrun
  simp only [hL] at hrun
  have hb0 : ({ q with lenRnd := q.lenRnd } : Reader σ).buf.length = 0 := by
    show q.buf.length = 0
    rw [hbuf]
    rfl
  constructor
  · intro e2 s2 hg
    rw [hrun, readLoop_succ, if_pos hb0]
    unfold Reader.prepareNext
    simp only [hg]
    rfl
  · intro b c s2 hg
    rw [hrun, readLoop_succ, if_pos hb0]
    unfold Reader.prepareNext
    simp only [hg]
    rw [if_pos (by simp)]
    rfl

/-- A `Read` that finds the pending buffer empty and whose call of the Generator
fails: it returns `(0, err)`, leaves `p` as it was, and keeps the draw stream
the Generator left. -/
theorem Read_refill_error {σ : Type} (R : Rand σ) (k : Nat) (q : Reader σ) (p : List Nat)
    (e2 : Error) (s2 : σ) (hbuf : q.buf = []) (hlt : q.read < q.size)
    (hg : q.gen.Gen q.datRnd q.read (q.size - q.read) = .ok (.error e2, s2)) :
    q.Read R (k + 1) p
      = .ok { n := 0, err := some e2, p := p,
              r := { q with lenRnd := (q.jitterLen R p.length).2, datRnd := s2 } } := by
  have hb0 : ({ q with lenRnd := (q.jitterLen R p.length).2 } : Reader σ).buf.length = 0 := by
    show q.buf.length = 0
    rw [hbuf]
    rfl
  rw [Read_not_eof R (k + 1) q p hlt, readLoop_succ, if_pos hb0]
  unfold Reader.prepareNext
  simp only [hg, Nat.sub_self, List.nil_append]

/-- A `Read` that finds the pending buffer empty and whose call of the Generator
returns a non-empty chunk goes on as a `Read` on the Reader that holds this
chunk as its pending buffer. -/
theorem Read_refill_chunk {σ : Type} (R : Rand σ) (fuel : Nat) (q : Reader σ) (p : List Nat)
    (c : List Nat) (s2 : σ) (hbuf : q.buf = []) (hlt : q.read < q.size) (hc : c ≠ [])
    (hg : q.gen.Gen q.datRnd q.read (q.size - q.read) = .ok (.ok c, s2)) :
    q.Read R fuel p = ({ q with datRnd := s2, buf := c } : Reader σ).Read R fuel p := by
  have hj : ({ q with datRnd := s2, buf := c } : Reader σ).jitterLen R p.length
      = q.jitterLen R p.length := rfl
  rw [Read_not_eof R fuel q p hlt,
    Read_not_eof R fuel ({ q with datRnd := s2, buf := c } : Reader σ) p hlt, hj]
  cases fuel with
  | zero => rfl
  | succ k =>
    have hb0 : ({ q with lenRnd := (q.jitterLen R p.length).2 } : Reader σ).buf.length = 0 := by
      show q.buf.length = 0
      rw [hbuf]
      rfl
    have hb1 : ¬ ({ ({ q with datRnd := s2, buf := c } : Reader σ) with
        lenRnd := (q.jitterLen R p.length).2 } : Reader σ).buf.length = 0 := by
      show ¬ c.length = 0
      exact fun h => hc (List.length_eq_zero.1 h)
    rw [readLoop_succ, readLoop_succ, if_pos hb0, if_neg hb1]
    unfold Reader.prepareNext
    simp only [hg]

/-- A `Read` that finds the pending buffer empty and whose call of the Generator
returns a chunk at least as long as the length the `Read` exposes: it returns
that length and no error, with the head of the chunk copied into `p`. -/
theorem Read_refill_covered {σ : Type} (R : Rand σ) (k : Nat) (q : Reader σ) (p : List Nat)
    (c : List Nat) (s2 : σ) (hbuf : q.buf = []) (hlt : q.read < q.size)
    (hg : q.gen.Gen q.datRnd q.read (q.size - q.read) = .ok (.ok c, s2))
    (hL : min (q.jitterLen R p.length).1 (q.size - q.read) ≤ c.length) :
    q.Read R (k + 1) p
      = .ok { n := min (q.jitterLen R p.length).1 (q.size - q.read)
              err := none
              p := copy p (c.take (min (q.jitterLen R p.length).1 (q.size - q.read)))
              r := { q with
                     lenRnd := (q.jitterLen R p.length).2
                     datRnd := s2
                     read := q.read + min (q.jitterLen R p.length).1 (q.size - q.read)
                     buf := c.drop (min (q.jitterLen R p.length).1 (q.size - q.read)) } } := by
  have hb0 : ({ q with lenRnd := (q.jitterLen R p.length).2 } : Reader σ).buf.length = 0 := by
    show q.buf.length = 0
    rw [hbuf]
    rfl
  rw [Read_not_eof R (k + 1) q p hlt, readLoop_succ, if_pos hb0]
  unfold Reader.prepareNext
  simp only [hg]
  rw [if_pos hL]
  simp only [List.nil_append]

/-- What the loop of `Read` has copied stays copied: the count it returns is at
least the count reached, and `p` starts with the bytes in front of `curDst`. -/
theorem readLoop_progress {σ : Type} (readLen fuel : Nat) :
    ∀ (r : Reader σ) (remLen : Nat) (done curDst : List Nat) (ret : ReadRet σ),
      remLen ≤ readLen → Reader.readLoop readLen fuel r remLen done curDst = .ok ret →
      readLen - remLen ≤ ret.n ∧ ret.p.take done.length = done := by
  induction fuel with
  | zero =>
    intro r remLen done curDst ret _ h
    cases h
  | succ fuel ih =>
    intro r remLen done curDst ret hrl h
    rw [readLoop_succ] at h
    cases hx : (if r.buf.length = 0 then r.prepareNext else .ok (none, r)) with
    | error f =>
      rw [hx] at h
      cases h
    | ok v =>
      obtain ⟨e, r1⟩ := v
      rw [hx] at h
      cases e with
      | some e1 =>
        simp only [Except.ok.injEq] at h
        rw [← h]
        exact ⟨Nat.le_refl _, List.take_left' rfl⟩
      | none =>
        simp only at h
        by_cases hle : remLen ≤ r1.buf.length
        · rw [if_pos hle] at h
          simp only [Except.ok.injEq] at h
          rw [← h]
          exact ⟨Nat.sub_le _ _, List.take_left' rfl⟩
        · rw [if_neg hle] at h
          by_cases hf : (copy curDst r1.buf).length < r1.buf.length
          · rw [if_pos hf] at h
            cases h
          · rw [if_neg hf] at h
            obtain ⟨h1, h2⟩ := ih _ _ _ _ ret (by omega) h
            refine ⟨by omega, ?_⟩
            have h3 := congrArg (List.take done.length) h2
            rw [List.take_take, List.length_append, List.take_left' rfl,
              Nat.min_eq_left (Nat.le_add_right _ _)] at h3
            exact h3

/-- A `Read` that finds the pending buffer empty and whose call of the Generator
returns a chunk delivers the head of that chunk, however the `Read` ends: with
`m` the smaller of the exposed length and the length of the chunk, the count
returned is at least `m` and `p` starts with the first `m` bytes of the
chunk. -/
theorem Read_refill_delivers {σ : Type} (R : Rand σ) (fuel : Nat) (q : Reader σ) (p : List Nat)
    (c : List Nat) (s2 : σ) (ret : ReadRet σ) (hbuf : q.buf = []) (hlt : q.read < q.size)
    (hg : q.gen.Gen q.datRnd q.read (q.size - q.read) = .ok (.ok c, s2))
    (hrun : q.Read R fuel p = .ok ret) :
    min (min (q.jitterLen R p.length).1 (q.size - q.read)) c.length ≤ ret.n ∧
    ret.p.take (min (min (q.jitterLen R p.length).1 (q.size - q.read)) c.length)
      = c.take (min (min (q.jitterLen R p.length).1 (q.size - q.read)) c.length) := by
  have hj := jitterLen_le R q p.length
  cases fuel with
  | zero =>
    rw [Read_not_eof R 0 q p hlt] at hrun
    cases hrun
  | succ k =>
    by_cases hL : min (q.jitterLen R p.length).1 (q.size - q.read) ≤ c.length
    · rw [Read_refill_covered R k q p c s2 hbuf hlt hg hL] at hrun
      simp only [Except.ok.injEq] at hrun
      rw [← hrun, Nat.min_eq_left hL]
      refine ⟨Nat.le_refl _, ?_⟩
      show (copy p (c.take _)).take _ = _
      rw [copy_of_le _ _ (by rw [List.length_take]; omega)]
      exact List.take_left' (by rw [List.length_take]; omega)
    · have hlt2 : c.length < min (q.jitterLen R p.length).1 (q.size - q.read) :=
        Nat.lt_of_not_le hL
      have hb0 : ({ q with lenRnd := (q.jitterLen R p.length).2 } : Reader σ).buf.length = 0 := by
        show q.buf.length = 0
        rw [hbuf]
        rfl
      rw [Read_not_eof R (k + 1) q p hlt, readLoop_succ, if_pos hb0] at hrun
      unfold Reader.prepareNext at hrun
      simp only [hg] at hrun
      rw [if_neg hL] at hrun
      have hcopy : copy p c = c ++ p.drop c.length := copy_of_le _ _ (by omega)
      have hnf : ¬ (copy p c).length < c.length := by
        rw [hcopy, List.length_append]
        omega
      rw [if_neg hnf, hcopy, List.take_left, List.drop_left, List.nil_append] at hrun
      obtain ⟨h1, h2⟩ := readLoop_progress _ _ _ _ _ _ ret (by omega) hrun
      rw [Nat.min_eq_right (Nat.le_of_lt hlt2), h2, List.take_length]
      exact ⟨by omega, rfl⟩

/-- C17, as the code has it: when `Read` on a Reader that is not at
end-of-stream returns an error, the Generator returned that error at the
position the Reader has reached, the bytes copied before are counted and the
pending buffer is empty.  The Reader keeps no record of the failure: the next
`Read`, whatever its buffer `q`, calls the Generator again at that position
with the draw stream as the failed call left it.  If the Generator fails again,
the `Read` returns `(0, err)` with the new error and leaves `q` untouched.  If
the Generator returns a non-empty chunk, the `Read` goes on as a `Read` on the
Reader that holds this chunk as its pending buffer; if the chunk is at least as
long as the length the `Read` exposes, the `Read` returns that length, no error
and the head of the chunk; and however the `Read` ends, it delivers at least
the smaller of the exposed length and the length of the chunk, from the head of
the chunk, which is at least one byte when `q` and the chunk are not empty.
For a one-byte buffer the `Read` returns the Generator's error if it fails
again and the first byte of its chunk if it succeeds. -/
theorem C17_generator_failure_is_returned_not_latched {σ : Type} (R : Rand σ)
    (fuel : Nat) (r : Reader σ) (p : List Nat) (ret : ReadRet σ) (e : Error)
    (hmin : r.lenMin = 1) (hne : r.IsEOF = false) (hrun : r.Read R fuel p = .ok ret)
    (herr : ret.err = some e) :
    (∃ s, r.gen.Gen s ret.r.TotalRead (r.size - ret.r.TotalRead)
      = .ok (.error e, ret.r.datRnd)) ∧
    ret.r.TotalRead = r.TotalRead + ret.n ∧ ret.r.buf = [] ∧ ret.r.IsEOF = false ∧
    r.SameParams ret.r ∧
    (∀ (k : Nat) (q : List Nat) (e2 : Error) (s2 : σ),
      r.gen.Gen ret.r.datRnd ret.r.TotalRead (r.size - ret.r.TotalRead)
        = .ok (.error e2, s2) →
      ret.r.Read R (k + 1) q
        = .ok { n := 0, err := some e2, p := q,
                r := { ret.r with
                       lenRnd := (ret.r.jitterLen R q.length).2, datRnd := s2 } }) ∧
    (∀ (fuel2 : Nat) (q c : List Nat) (s2 : σ),
      r.gen.Gen ret.r.datRnd ret.r.TotalRead (r.size - ret.r.TotalRead)
        = .ok (.ok c, s2) → c ≠ [] →
      ret.r.Read R fuel2 q
        = ({ ret.r with datRnd := s2, buf := c } : Reader σ).Read R fuel2 q) ∧
    (∀ (k : Nat) (q c : List Nat) (s2 : σ),
      r.gen.Gen ret.r.datRnd ret.r.TotalRead (r.size - ret.r.TotalRead)
        = .ok (.ok c, s2) →
      min (ret.r.jitterLen R q.length).1 (r.size - ret.r.TotalRead) ≤ c.length →
      ret.r.Read R (k + 1) q
        = .ok { n := min (ret.r.jitterLen R q.length).1 (r.size - ret.r.TotalRead)
                err := none
                p := copy q
                  (c.take (min (ret.r.jitterLen R q.length).1 (r.size - ret.r.TotalRead)))
                r := { ret.r with
                       lenRnd := (ret.r.jitterLen R q.length).2
                       datRnd := s2
                       read := ret.r.read
                         + min (ret.r.jitterLen R q.length).1 (r.size - ret.r.TotalRead)
                       buf := c.drop
                         (min (ret.r.jitterLen R q.length).1 (r.size - ret.r.TotalRead)) } }) ∧
    (∀ (fuel2 : Nat) (q c : List Nat) (s2 : σ) (ret2 : ReadRet σ),
      r.gen.Gen ret.r.datRnd ret.r.TotalRead (r.size - ret.r.TotalRead)
        = .ok (.ok c, s2) →
      ret.r.Read R fuel2 q = .ok ret2 →
      min (min (ret.r.jitterLen R q.length).1 (r.size - ret.r.TotalRead)) c.length ≤ ret2.n ∧
      ret2.p.take (min (min (ret.r.jitterLen R q.length).1 (r.size - ret.r.TotalRead)) c.length)
        = c.take (min (min (ret.r.jitterLen R q.length).1 (r.size - ret.r.TotalRead)) c.length) ∧
      (1 ≤ q.length → c ≠ [] → 1 ≤ ret2.n)) ∧
    (∀ (k x : Nat) (e2 : Error) (s2 : σ),
      r.gen.Gen ret.r.datRnd ret.r.TotalRead (r.size - ret.r.TotalRead)
        = .ok (.error e2, s2) →
      ret.r.Read R (k + 1) [x]
        = .ok { n := 0, err := some e2, p := [x], r := { ret.r with datRnd := s2 } }) ∧
    (∀ (k x b : Nat) (c : List Nat) (s2 : σ),
      r.gen.Gen ret.r.datRnd ret.r.TotalRead (r.size - ret.r.TotalRead)
        = .ok (.ok (b :: c), s2) →
      ret.r.Read R (k + 1) [x]
        = .ok { n := 1, err := none, p := [b],
                r := { ret.r with datRnd := s2, read := ret.r.read + 1, buf := c } }) := by
  have hlt : r.read < r.size := by
    simp only [Reader.IsEOF, decide_eq_false_iff_not] at hne
    omega
  have hsame := Read_inv R fuel r p ret hrun
  have hsize : ret.r.size = r.size := hsame.2.2.1
  have hgen : ret.r.gen = r.gen := hsame.2.2.2.2.2
  have hmin2 : ret.r.lenMin = 1 := hsame.2.2.2.1.trans hmin
  rw [Read_not_eof R fuel r p hlt] at hrun
  obtain ⟨hbuf, hlt2, hcnt, s, hg⟩ :=
    readLoop_fail _ _ { r with lenRnd := (r.jitterLen R p.length).2 } _ _ _ ret e hlt
      (Nat.min_le_right _ _) (Nat.le_refl _) hrun herr
  have hto : ∀ (res : Except Error (List Nat)) (s2 : σ),
      r.gen.Gen ret.r.datRnd ret.r.TotalRead (r.size - ret.r.TotalRead) = .ok (res, s2) →
      ret.r.gen.Gen ret.r.datRnd ret.r.read (ret.r.size - ret.r.read) = .ok (res, s2) := by
    intro res s2 h
    rw [hgen, hsize]
    exact h
  have hL : ∀ q : List Nat,
      min (ret.r.jitterLen R q.length).1 (r.size - ret.r.TotalRead)
        = min (ret.r.jitterLen R q.length).1 (ret.r.size - ret.r.read) := by
    intro q
    rw [hsize]
    rfl
  rw [hgen, hsize] at hg
  refine ⟨⟨s, hg⟩, ?_, hbuf, ?_, hsame, ?_, ?_, ?_, ?_, ?_, ?_⟩
  · have : ret.r.read + 0 = r.read + ret.n := by
      rw [← hcnt, Nat.sub_self]
    show ret.r.read = r.read + ret.n
    omega
  · simp only [Reader.IsEOF, decide_eq_false_iff_not]
    omega
  · intro k q e2 s2 h
    exact Read_refill_error R k ret.r q e2 s2 hbuf hlt2 (hto _ _ h)
  · intro fuel2 q c s2 h hc
    exact Read_refill_chunk R fuel2 ret.r q c s2 hbuf hlt2 hc (hto _ _ h)
  · intro k q c s2 h hle
    rw [hL q] at hle ⊢
    exact Read_refill_covered R k ret.r q c s2 hbuf hlt2 (hto _ _ h) hle
  · intro fuel2 q c s2 ret2 h hrun2
    rw [hL q]
    obtain ⟨h1, h2⟩ := Read_refill_delivers R fuel2 ret.r q c s2 ret2 hbuf hlt2 (hto _ _ h) hrun2
    refine ⟨h1, h2, ?_⟩
    intro hq hc
    have hj := (jitterLen_bounds R ret.r q.length hmin2 hq).1
    have hcl : 1 ≤ c.length := List.length_pos.2 hc
    omega
  · intro k x e2 s2 h
    exact (Read_one_byte R k ret.r x hmin2 hbuf hlt2).1 e2 s2 (hto _ _ h)
  · intro k x b c s2 h
    exact (Read_one_byte R k ret.r x hmin2 hbuf hlt2).2 b c s2 (hto _ _ h)

theorem C17_witness :
    (NewWithGenerator lcg flakyGenerator 0 3).lenMin = 1 ∧
    (NewWithGenerator lcg flakyGenerator 0 3).IsEOF = false ∧
    (NewWithGenerator lcg flakyGenerator 0 3).Read lcg 2 [0]
      = .ok { n := 0, err := some (.other "flaky"), p := [0],
              r := { NewWithGenerator lcg flakyGenerator 0 3 with datRnd := 1 } } ∧
    (∃ s, flakyGenerator.Gen s 0 (3 - 0) = .ok (.error (.other "flaky"), 1)) :=
  ⟨rfl, rfl, rfl,
    (C17_generator_failure_is_returned_not_latched lcg 2
      (NewWithGenerator lcg flakyGenerator 0 3) [0]
      { n := 0, err := some (.other "flaky"), p := [0],
        r := { NewWithGenerator lcg flakyGenerator 0 3 with datRnd := 1 } }
      (.other "flaky") rfl rfl rfl rfl).1⟩

/-- C17, as stated, fails: the first `Read` on a Reader made by
`NewWithGenerator` with `flakyGenerator` returns the Generator's error, and the
next `Read` on the same Reader calls the Generator again and returns `(1, nil)`
with the byte 1. -/
theorem C17_counterexample :
    (NewWithGenerator lcg flakyGenerator 0 3).Read lcg 2 [0]
      = .ok { n := 0, err := some (.other "flaky"), p := [0],
              r := { NewWithGenerator lcg flakyGenerator 0 3 with datRnd := 1 } } ∧
    ({ NewWithGenerator lcg flakyGenerator 0 3 with datRnd := 1 } : Reader Nat).Read lcg 2 [0]
      = .ok { n := 1, err := none, p := [1],
              r := { NewWithGenerator lcg flakyGenerator 0 3 with
                     datRnd := 1, read := 1, buf := [2, 3] } } :=
  ⟨rfl, rfl⟩

/-! ## The lines of a paragraph -/

theorem joinWords_snoc (grp : List (List Nat)) (w : List Nat) (h : grp ≠ []) :
    joinWords (grp ++ [w]) = joinWords grp ++ 32 :: w := by
  induction grp with
  | nil => exact absurd rfl h
  | cons a rest ih =>
    cases rest with
    | nil => rfl
    | cons b rest2 =>
      have e : (a :: b :: rest2) ++ [w] = a :: b :: (rest2 ++ [w]) := rfl
      have ih2 := ih (by simp)
      have e2 : (b :: rest2) ++ [w] = b :: (rest2 ++ [w]) := rfl
      rw [e2] at ih2
      rw [e, joinWords, ih2, joinWords, List.append_assoc]
      rfl

theorem joinWords_pos (grp : List (List Nat)) (h : grp ≠ []) (hw : ∀ w ∈ grp, w ≠ []) :
    0 < (joinWords grp).length := by
  cases grp with
  | nil => exact absurd rfl h
  | cons a rest =>
    have ha : 0 < a.length := List.length_pos.2 (hw a (List.mem_cons_self _ _))
    cases rest with
    | nil => exact ha
    | cons b rest2 =>
      rw [joinWords, List.length_append]
      omega

theorem wrapLoop_lines (g : textGenerator) (P : List Nat → Prop)
    (hP : ∀ w, P w → w ≠ [] ∧ w.length ≤ g.width) :
    ∀ (ws lines : List (List Nat)) (cur : List Nat) (grp : List (List Nat)),
      (∀ w ∈ ws, P w) → (∀ l ∈ lines, LineOf P g.width l) → cur = joinWords grp →
      (∀ w ∈ grp, P w) → cur.length ≤ g.width →
      (∀ l ∈ (g.wrapLoop ws lines cur).1, LineOf P g.width l) ∧
      ∃ grp1, (g.wrapLoop ws lines cur).2 = joinWords grp1 ∧ (∀ w ∈ grp1, P w) ∧
        (g.wrapLoop ws lines cur).2.length ≤ g.width := by
  intro ws
  induction ws with
  | nil =>
    intro lines cur grp _ hl hc hg hlen
    exact ⟨hl, grp, hc, hg, hlen⟩
  | cons w rest ih =>
    intro lines cur grp hws hl hc hg hlen
    have hw : P w := hws w (List.mem_cons_self _ _)
    have hrest : ∀ x ∈ rest, P x := fun x hx => hws x (List.mem_cons_of_mem _ hx)
    obtain ⟨hwne, hwlen⟩ := hP w hw
    rw [wrapLoop_cons]
    by_cases hfit : (if 0 < cur.length then cur.length + 1 else cur.length) + w.length ≤ g.width
    · rw [if_pos hfit]
      by_cases hgrp : grp = []
      · have hcur : cur = [] := by rw [hc, hgrp]; rfl
        refine ih lines _ [w] hrest hl ?_ ?_ ?_
        · rw [hcur]
          rfl
        · intro x hx
          rw [List.mem_singleton.1 hx]
          exact hw
        · rw [hcur]
          simpa using hwlen
      · have hpos : 0 < cur.length := by
          rw [hc]
          exact joinWords_pos grp hgrp (fun x hx => (hP x (hg x hx)).1)
        rw [if_pos hpos] at hfit
        refine ih lines _ (grp ++ [w]) hrest hl ?_ ?_ ?_
        · rw [if_pos hpos, joinWords_snoc grp w hgrp, hc]
          rfl
        · intro x hx
          rcases List.mem_append.1 hx with h | h
          · exact hg x h
          · rw [List.mem_singleton.1 h]
            exact hw
        · rw [if_pos hpos]
          simp only [List.length_append, List.length_singleton]
          omega
    · rw [if_neg hfit]
      have hgrp : grp ≠ [] := by
        intro hnil
        have hcur : cur = [] := by rw [hc, hnil]; rfl
        rw [hcur] at hfit
        simp only [List.length_nil, Nat.lt_irrefl, if_false, Nat.zero_add] at hfit
        exact hfit hwlen
      refine ih _ [] [] hrest ?_ rfl (by simp) (Nat.zero_le _)
      intro l hl2
      rcases List.mem_append.1 hl2 with h | h
      · exact hl l h
      · rw [List.mem_singleton.1 h]
        exact ⟨grp, hgrp, hg, hc ▸ hlen, by rw [hc]⟩

theorem wrap_lines (g : textGenerator) (P : List Nat → Prop)
    (hP : ∀ w, P w → w ≠ [] ∧ w.length ≤ g.width) (ws : List (List Nat))
    (hws : ∀ w ∈ ws, P w) : ∀ l ∈ g.wrap ws, LineOf P g.width l := by
  obtain ⟨hl, grp, hc, hg, hlen⟩ :=
    wrapLoop_lines g P hP ws [] [] [] hws (by simp) rfl (by simp) (Nat.zero_le _)
  unfold textGenerator.wrap
  by_cases hne : (g.wrapLoop ws [] []).2 ≠ []
  · rw [if_pos hne]
    intro l hl2
    rcases List.mem_append.1 hl2 with h | h
    · exact hl l h
    · rw [List.mem_singleton.1 h]
      refine ⟨grp, ?_, hg, hc ▸ hlen, by rw [hc]⟩
      intro hnil
      rw [hnil] at hc
      exact hne hc
  · rw [if_neg hne]
    exact hl

theorem wordShape_facts (w : List Nat) (h : WordShape w) :
    w ≠ [] ∧ w.length ≤ 17 ∧ (∀ c ∈ w, isLower c ∨ isUpper c ∨ c = 46) ∧
      ∀ c ∈ w, c ≠ 32 ∧ c ≠ 10 := by
  obtain ⟨a, body, tail, hw, ha, hb, ht, hl⟩ := h
  have hbytes : ∀ c ∈ w, isLower c ∨ isUpper c ∨ c = 46 := by
    intro c hc
    rw [hw] at hc
    rcases List.mem_cons.1 hc with h1 | h1
    · rcases ha with h2 | h2
      · exact Or.inl (h1 ▸ h2)
      · exact Or.inr (Or.inl (h1 ▸ h2))
    · rcases List.mem_append.1 h1 with h2 | h2
      · exact Or.inl (hb c h2)
      · rcases ht with h3 | h3
        · rw [h3] at h2
          cases h2
        · rw [h3] at h2
          exact Or.inr (Or.inr (List.mem_singleton.1 h2))
  refine ⟨by rw [hw]; simp, ?_, hbytes, ?_⟩
  · rw [hw]
    rcases ht with h3 | h3 <;> rw [h3] <;> simp <;> omega
  · intro c hc
    have := hbytes c hc
    unfold isLower isUpper at this
    omega

theorem mem_joinWords (grp : List (List Nat)) (c : Nat) (h : c ∈ joinWords grp) :
    c = 32 ∨ ∃ w ∈ grp, c ∈ w := by
  induction grp with
  | nil => cases h
  | cons a rest ih =>
    cases rest with
    | nil => exact Or.inr ⟨a, List.mem_cons_self _ _, h⟩
    | cons b rest2 =>
      rw [joinWords] at h
      rcases List.mem_append.1 h with h1 | h1
      · exact Or.inr ⟨a, List.mem_cons_self _ _, h1⟩
      · rcases List.mem_cons.1 h1 with h2 | h2
        · exact Or.inl h2
        · rcases ih h2 with h3 | ⟨w, hw, hc⟩
          · exact Or.inl h3
          · exact Or.inr ⟨w, List.mem_cons_of_mem _ hw, hc⟩

theorem joinWords_ends (grp : List (List Nat)) (h : grp ≠ [])
    (hw : ∀ w ∈ grp, w ≠ [] ∧ ∀ c ∈ w, c ≠ 32 ∧ c ≠ 10) :
    (joinWords grp).head? ≠ some 32 ∧ (joinWords grp).getLast? ≠ some 32 := by
  induction grp with
  | nil => exact absurd rfl h
  | cons a rest ih =>
    obtain ⟨hane, hasep⟩ := hw a (List.mem_cons_self _ _)
    have hhead : ∀ tl : List Nat, (a ++ tl).head? ≠ some 32 := by
      intro tl
      cases a with
      | nil => exact absurd rfl hane
      | cons x xs =>
        intro hx
        simp only [List.cons_append, List.head?_cons, Option.some.injEq] at hx
        exact (hasep x (List.mem_cons_self _ _)).1 hx
    cases rest with
    | nil =>
      refine ⟨by simpa using hhead [], ?_⟩
      intro hl
      have := List.mem_of_getLast?_eq_some hl
      exact (hasep 32 this).1 rfl
    | cons b rest2 =>
      have ih2 := (ih (by simp) (fun w hw2 => hw w (List.mem_cons_of_mem _ hw2))).2
      refine ⟨hhead _, ?_⟩
      intro hl
      have hmem := List.mem_of_getLast?_eq_some hl
      rw [joinWords] at hl
      rw [List.getLast?_append] at hl
      have hne : joinWords (b :: rest2) ≠ [] := by
        have := joinWords_pos (b :: rest2) (by simp)
          (fun w hw2 => (hw w (List.mem_cons_of_mem _ hw2)).1)
        exact List.length_pos.1 this
      obtain ⟨y, ys, hy⟩ := List.exists_cons_of_ne_nil hne
      rw [hy, List.getLast?_cons_cons] at hl
      rw [hy] at ih2
      cases hq : (y :: ys).getLast? with
      | none => simp at hq
      | some z =>
        rw [hq] at hl ih2
        exact ih2 hl

theorem splitWords_word (w : List Nat) (h : ∀ c ∈ w, c ≠ 32 ∧ c ≠ 10) :
    ∀ (cur rest : List Nat), splitWords (w ++ rest) cur = splitWords rest (cur ++ w) := by
  induction w with
  | nil =>
    intro cur rest
    simp
  | cons c cs ih =>
    intro cur rest
    have hc := h c (List.mem_cons_self _ _)
    have hsep : ¬ (c = 32 ∨ c = 10) := by
      intro h2
      rcases h2 with h3 | h3
      · exact hc.1 h3
      · exact hc.2 h3
    rw [List.cons_append, splitWords, if_neg hsep,
      ih (fun x hx => h x (List.mem_cons_of_mem _ hx))]
    simp

theorem splitWords_sep (c : Nat) (cur rest : List Nat) (hc : c = 32 ∨ c = 10)
    (hne : cur ≠ []) : splitWords (c :: rest) cur = cur :: splitWords rest [] := by
  rw [splitWords, if_pos hc, if_neg hne]

theorem splitWords_join (grp : List (List Nat)) (rest : List Nat) (h : grp ≠ [])
    (hw : ∀ w ∈ grp, w ≠ [] ∧ ∀ c ∈ w, c ≠ 32 ∧ c ≠ 10) :
    splitWords (joinWords grp ++ 10 :: rest) [] = grp ++ splitWords rest [] := by
  induction grp with
  | nil => exact absurd rfl h
  | cons a tl ih =>
    obtain ⟨hane, hasep⟩ := hw a (List.mem_cons_self _ _)
    cases tl with
    | nil =>
      rw [joinWords, splitWords_word a hasep, List.nil_append,
        splitWords_sep 10 a rest (Or.inr rfl) hane]
      rfl
    | cons b tl2 =>
      have ih2 := ih (by simp) (fun w hw2 => hw w (List.mem_cons_of_mem _ hw2))
      rw [joinWords, List.append_assoc, splitWords_word a hasep, List.nil_append,
        List.cons_append, splitWords_sep 32 a _ (Or.inl rfl) hane, ih2]
      rfl

theorem splitWords_lines (P : List Nat → Prop) (width : Nat)
    (hP : ∀ w, P w → w ≠ [] ∧ ∀ c ∈ w, c ≠ 32 ∧ c ≠ 10) :
    ∀ lines : List (List Nat), (∀ l ∈ lines, LineOf P width l) →
      ∀ x ∈ splitWords lines.flatten [], P x := by
  intro lines
  induction lines with
  | nil =>
    intro _ x hx
    simp [splitWords] at hx
  | cons l rest ih =>
    intro hl x hx
    obtain ⟨grp, hgrp, hg, -, hline⟩ := hl l (List.mem_cons_self _ _)
    rw [List.flatten_cons, hline, List.append_assoc, List.singleton_append,
      splitWords_join grp _ hgrp (fun w hw => hP w (hg w hw))] at hx
    rcases List.mem_append.1 hx with h | h
    · exact hg x h
    · exact ih (fun l2 hl2 => hl l2 (List.mem_cons_of_mem _ hl2)) x h

theorem genParagraph_lines {σ : Type} (R : Rand σ) (r : σ) :
    ∃ lines r1, newTextGenerator.genParagraph R r = .ok (lines, r1) ∧ lines ≠ [] ∧
      ∀ l ∈ lines, LineOf WordShape 80 l := by
  obtain ⟨sents, r1, hrun, -, hall⟩ :=
    genSentences_shape R newTextGenerator ((R.Read r 1).1.getD 0 0 / 32 + 5) (R.Read r 1).2
  obtain ⟨ws, r2, hrun2, hfull⟩ :=
    genSentences_ok R newTextGenerator ((R.Read r 1).1.getD 0 0 / 32 + 4) (R.Read r 1).2
  have hws : ws = sents.flatten := by
    rw [hrun] at hrun2
    simp only [Except.ok.injEq, Prod.mk.injEq] at hrun2
    exact hrun2.1.symm
  have hpar : newTextGenerator.genParagraph R r
      = .ok (newTextGenerator.wrap sents.flatten, r1) := by
    simp only [textGenerator.genParagraph, textGenerator.genParagraphWords, hrun]
  have hshape : ∀ w ∈ sents.flatten, WordShape w := by
    intro w hw
    obtain ⟨s, hs, hws2⟩ := List.mem_flatten.1 hw
    exact (hall s hs).2.2 w hws2
  have hP : ∀ w, WordShape w → w ≠ [] ∧ w.length ≤ newTextGenerator.width := by
    intro w hw
    obtain ⟨h1, h2, -, -⟩ := wordShape_facts w hw
    exact ⟨h1, by show w.length ≤ 80; omega⟩
  refine ⟨_, r1, hpar, ?_, wrap_lines newTextGenerator WordShape hP _ hshape⟩
  intro hnil
  have := wrap_ne newTextGenerator sents.flatten (hws ▸ hfull)
  rw [hnil] at this
  exact this rfl

theorem textGen_chunk {σ : Type} (R : Rand σ) (r : σ) (pos rem : Nat) (lines : List (List Nat))
    (r1 : σ) (h : newTextGenerator.genParagraph R r = .ok (lines, r1)) :
    newTextGenerator.Gen R r pos rem
      = .ok (.ok (if 0 < pos then 10 :: lines.flatten else lines.flatten), r1) := by
  simp only [textGenerator.Gen, h]

/-- C12, as the code has it: for every draw stream, every line `genParagraph`
returns is a non-empty body followed by one line break; the body holds no line
break, is at most 80 bytes long, is made of non-empty words free of spaces and
line breaks joined by single spaces, and neither starts nor ends with a space.
The chunk at position 0 is the concatenation of these lines; the chunk at a
position above 0 starts with one more line break, an empty line, before them. -/
theorem C12_paragraph_lines_fit_the_width {σ : Type} (R : Rand σ) (r : σ) (pos rem : Nat) :
    ∃ lines r1, newTextGenerator.genParagraph R r = .ok (lines, r1) ∧ lines ≠ [] ∧
      (∀ line ∈ lines, ∃ body grp, line = body ++ [10] ∧ body ≠ [] ∧ 10 ∉ body ∧
        body.length ≤ 80 ∧ body.head? ≠ some 32 ∧ body.getLast? ≠ some 32 ∧
        body = joinWords grp ∧ ∀ w ∈ grp, w ≠ [] ∧ 32 ∉ w ∧ 10 ∉ w) ∧
      newTextGenerator.Gen R r 0 rem = .ok (.ok lines.flatten, r1) ∧
      newTextGenerator.Gen R r (pos + 1) rem = .ok (.ok (10 :: lines.flatten), r1) := by
  obtain ⟨lines, r1, hpar, hne, hl⟩ := genParagraph_lines R r
  refine ⟨lines, r1, hpar, hne, ?_, ?_, ?_⟩
  · intro line hline
    obtain ⟨grp, hgrp, hg, hlen, hform⟩ := hl line hline
    have hw : ∀ w ∈ grp, w ≠ [] ∧ ∀ c ∈ w, c ≠ 32 ∧ c ≠ 10 := by
      intro w hw
      obtain ⟨h1, -, -, h4⟩ := wordShape_facts w (hg w hw)
      exact ⟨h1, h4⟩
    obtain ⟨hhead, hlast⟩ := joinWords_ends grp hgrp hw
    refine ⟨joinWords grp, grp, hform, ?_, ?_, hlen, hhead, hlast, rfl, ?_⟩
    · exact List.length_pos.1 (joinWords_pos grp hgrp (fun w h => (hw w h).1))
    · intro h10
      rcases mem_joinWords grp 10 h10 with h | ⟨w, hw2, hc⟩
      · cases h
      · exact ((hw w hw2).2 10 hc).2 rfl
    · intro w hw2
      exact ⟨(hw w hw2).1, fun h => ((hw w hw2).2 32 h).1 rfl,
        fun h => ((hw w hw2).2 10 h).2 rfl⟩
  · rw [textGen_chunk R r 0 rem lines r1 hpar]
    rfl
  · rw [textGen_chunk R r (pos + 1) rem lines r1 hpar, if_pos (Nat.succ_pos _)]

/-- C12, as stated, fails: the chunk the pseudo-text generator returns at
position 1 starts with a line break, so its first line, the bytes before the
first line break, is empty. -/
theorem C12_counterexample :
    ∃ chunk r1, newTextGenerator.Gen lcg 0 1 0 = .ok (.ok chunk, r1) ∧
      chunk.head? = some 10 ∧ chunk.takeWhile (fun c => c != 10) = [] := by
  obtain ⟨lines, r1, hpar, -, -⟩ := genParagraph_lines lcg 0
  exact ⟨10 :: lines.flatten, r1, textGen_chunk lcg 0 1 0 lines r1 hpar, rfl, rfl⟩

/-- C13: every byte of every chunk the pseudo-text generator returns is a
lowercase letter, an uppercase letter, a space, a line break or a period, and
every word of the chunk (its bytes between spaces and line breaks) is a letter,
then lowercase letters, then at most one period: an uppercase letter is the
first byte of its word and a period the last. -/
theorem C13_text_bytes_and_word_shape {σ : Type} (R : Rand σ) (r : σ) (pos rem : Nat) :
    ∃ chunk r1, newTextGenerator.Gen R r pos rem = .ok (.ok chunk, r1) ∧
      (∀ b ∈ chunk, isLower b ∨ isUpper b ∨ b = 32 ∨ b = 10 ∨ b = 46) ∧
      ∀ w ∈ splitWords chunk [], ∃ a body tail, w = a :: (body ++ tail) ∧
        (isLower a ∨ isUpper a) ∧ (∀ c ∈ body, isLower c) ∧ (tail = [] ∨ tail = [46]) := by
  obtain ⟨lines, r1, hpar, -, hl⟩ := genParagraph_lines R r
  have hbytes : ∀ b ∈ lines.flatten, isLower b ∨ isUpper b ∨ b = 32 ∨ b = 10 ∨ b = 46 := by
    intro b hb
    obtain ⟨line, hline, hbl⟩ := List.mem_flatten.1 hb
    obtain ⟨grp, -, hg, -, hform⟩ := hl line hline
    rw [hform] at hbl
    rcases List.mem_append.1 hbl with h | h
    · rcases mem_joinWords grp b h with h2 | ⟨w, hw, hc⟩
      · exact Or.inr (Or.inr (Or.inl h2))
      · rcases (wordShape_facts w (hg w hw)).2.2.1 b hc with h3 | h3 | h3
        · exact Or.inl h3
        · exact Or.inr (Or.inl h3)
        · exact Or.inr (Or.inr (Or.inr (Or.inr h3)))
    · exact Or.inr (Or.inr (Or.inr (Or.inl (List.mem_singleton.1 h))))
  have hP : ∀ w, WordShape w → w ≠ [] ∧ ∀ c ∈ w, c ≠ 32 ∧ c ≠ 10 := by
    intro w hw
    obtain ⟨h1, -, -, h4⟩ := wordShape_facts w hw
    exact ⟨h1, h4⟩
  have hwords := splitWords_lines WordShape 80 hP lines hl
  have hstrip : ∀ w ∈ splitWords lines.flatten [], ∃ a body tail, w = a :: (body ++ tail) ∧
      (isLower a ∨ isUpper a) ∧ (∀ c ∈ body, isLower c) ∧ (tail = [] ∨ tail = [46]) := by
    intro w hw
    obtain ⟨a, body, tail, h1, h2, h3, h4, -⟩ := hwords w hw
    exact ⟨a, body, tail, h1, h2, h3, h4⟩
  refine ⟨_, r1, textGen_chunk R r pos rem lines r1 hpar, ?_, ?_⟩
  · by_cases hp : 0 < pos
    · rw [if_pos hp]
      intro b hb
      rcases List.mem_cons.1 hb with h | h
      · exact Or.inr (Or.inr (Or.inr (Or.inl h)))
      · exact hbytes b h
    · rw [if_neg hp]
      exact hbytes
  · by_cases hp : 0 < pos
    · rw [if_pos hp]
      have : splitWords (10 :: lines.flatten) [] = splitWords lines.flatten [] := by
        rw [splitWords]
        simp
      rw [this]
      exact hstrip
    · rw [if_neg hp]
      exact hstrip

/-! ## The Verifier -/

theorem firstDiff_self (l : List Nat) (i : Nat) : firstDiff l l i = none := by
  induction l generalizing i with
  | nil => rfl
  | cons a as ih => rw [firstDiff, if_pos rfl, ih]

theorem verifier_refill_spec {σ : Type} (v : Verifier σ) (hG : v.gen.Productive)
    (hlt : v.written < v.size) :
    ∃ v1, (if v.buf.length = 0 then v.prepareNext else .ok (none, v)) = .ok (none, v1) ∧
      v1.buf ≠ [] ∧ v1.pending = v.pending ∧ v1.written = v.written ∧ v.SameParams v1 := by
  by_cases hb : v.buf.length = 0
  · rw [if_pos hb]
    have hnil : v.buf = [] := List.length_eq_zero.1 hb
    obtain ⟨c, s1, hc, hne⟩ := hG v.datRnd v.written (v.size - v.written) (by omega)
    have hlen : 1 ≤ c.length := List.length_pos.2 hne
    refine ⟨{ v with datRnd := s1, buf := c }, ?_, hne, ?_, rfl, ⟨rfl, rfl, rfl, rfl⟩⟩
    · unfold Verifier.prepareNext
      rw [hc]
    · unfold Verifier.pending
      rw [hnil]
      simp only [List.length_nil, Nat.add_zero, List.nil_append]
      obtain ⟨m, hm⟩ : ∃ m, v.size - v.written = m + 1 := ⟨v.size - v.written - 1, by omega⟩
      rw [hm, chunks_step v.gen m v.datRnd s1 v.written v.size c (by omega) hc]
      rw [chunks_fuel v.gen hG m (v.size - (v.written + c.length)) s1 (v.written + c.length)
        v.size (by omega) (Nat.le_refl _)]
  · rw [if_neg hb]
    refine ⟨v, rfl, ?_, rfl, rfl, ⟨rfl, rfl, rfl, rfl⟩⟩
    intro hnil
    exact hb (by rw [hnil]; rfl)

theorem verifyLoop_succ {σ : Type} (fuel : Nat) (v : Verifier σ) (bytes : List Nat) :
    Verifier.verifyLoop (fuel + 1) v bytes
      = if bytes.length = 0 then .ok (none, v)
        else
          match (if v.buf.length = 0 then v.prepareNext else .ok (none, v)) with
          | .error f => .error f
          | .ok (some err, v1) => .ok (some err, v1)
          | .ok (none, v1) =>
            match firstDiff (v1.buf.take (min bytes.length v1.buf.length))
                (bytes.take (min bytes.length v1.buf.length)) 0 with
            | some i =>
              .ok (some (.UnexpectedBytesError (v1.written + i) ((v1.buf.drop i).take 1)
                    ((bytes.drop i).take 1)),
                { v1 with written := v1.written + i, buf := v1.buf.drop i })
            | none =>
              Verifier.verifyLoop fuel
                { v1 with written := v1.written + min bytes.length v1.buf.length,
                          buf := v1.buf.drop (min bytes.length v1.buf.length) }
                (bytes.drop (min bytes.length v1.buf.length)) := rfl

theorem verifyLoop_spec {σ : Type} (fuel : Nat) :
    ∀ (v : Verifier σ) (bytes : List Nat), v.gen.Productive →
      bytes.length ≤ v.size - v.written → bytes = v.pending.take bytes.length →
      bytes.length < fuel →
      ∃ v1, Verifier.verifyLoop fuel v bytes = .ok (none, v1) ∧
        v1.written = v.written + bytes.length ∧ v1.pending = v.pending.drop bytes.length ∧
        v.SameParams v1 := by
  induction fuel with
  | zero => intro v bytes _ _ _ h; omega
  | succ fuel ih =>
    intro v bytes hG hsz hpre hfuel
    rw [verifyLoop_succ]
    by_cases h0 : bytes.length = 0
    · rw [if_pos h0]
      exact ⟨v, rfl, by omega, by rw [h0, List.drop_zero], ⟨rfl, rfl, rfl, rfl⟩⟩
    · rw [if_neg h0]
      obtain ⟨v1, hfill, hbuf, hpend, hwr, hsame⟩ := verifier_refill_spec v hG (by omega)
      have hsize : v1.size = v.size := hsame.1
      have hgen : v1.gen = v.gen := hsame.2.1
      have hn : 1 ≤ v1.buf.length := List.length_pos.2 hbuf
      have hp1 : v1.pending = v1.buf ++ v1.gen.chunks (v1.size - (v1.written + v1.buf.length))
          v1.datRnd (v1.written + v1.buf.length) v1.size := rfl
      rw [hfill]
      simp only
      generalize hn0 : min bytes.length v1.buf.length = n
      have hn1 : n ≤ bytes.length := by omega
      have hn2 : n ≤ v1.buf.length := by omega
      have hn3 : 1 ≤ n := by omega
      have htake : bytes.take n = v1.buf.take n := by
        rw [hpre, List.take_take, Nat.min_eq_left hn1, ← hpend, hp1,
          List.take_append_of_le_length hn2]
      rw [htake, firstDiff_self]
      simp only
      have hp2 : ({ v1 with written := v1.written + n, buf := v1.buf.drop n } :
          Verifier σ).pending = v1.pending.drop n := by
        rw [hp1]
        unfold Verifier.pending
        simp only [List.length_drop]
        rw [List.drop_append_of_le_length hn2]
        have : v1.written + n + (v1.buf.length - n) = v1.written + v1.buf.length := by omega
        rw [this]
      obtain ⟨v2, hrun, hwr2, hpend2, hsame2⟩ :=
        ih { v1 with written := v1.written + n, buf := v1.buf.drop n } (bytes.drop n)
          (hgen ▸ hG)
          (by rw [List.length_drop]; show _ ≤ v1.size - (v1.written + n); omega)
          (by
            rw [hp2, hpend, List.length_drop]
            conv_lhs => rw [hpre]
            rw [List.drop_take])
          (by rw [List.length_drop]; omega)
      refine ⟨v2, hrun, ?_, ?_, ?_⟩
      · rw [hwr2, List.length_drop]
        show v1.written + n + (bytes.length - n) = v.written + bytes.length
        omega
      · rw [hpend2, hp2, hpend, List.length_drop, List.drop_drop]
        congr 1
        omega
      · obtain ⟨a1, a2, a3, a4⟩ := hsame
        obtain ⟨b1, b2, b3, b4⟩ := hsame2
        exact ⟨b1.trans a1, b2.trans a2, b3.trans a3, b4.trans a4⟩

theorem verifier_pending_length {σ : Type} (v : Verifier σ) (hG : v.gen.Productive) :
    v.size - v.written ≤ v.pending.length := by
  unfold Verifier.pending
  rw [List.length_append]
  have := chunks_length v.gen hG (v.size - (v.written + v.buf.length)) v.datRnd
    (v.written + v.buf.length) v.size (Nat.le_refl _)
  omega

theorem verifier_Write_spec {σ : Type} (fuel : Nat) (v : Verifier σ) (bytes s : List Nat)
    (hG : v.gen.Productive) (hfail : v.failed = none) (hclosed : v.closed = false)
    (hle : v.written ≤ v.size) (hrest : v.rest = bytes ++ s) (hfuel : bytes.length < fuel) :
    ∃ v1, v.Write fuel bytes = .ok ((bytes.length, none), v1) ∧ v1.gen.Productive ∧
      v1.failed = none ∧ v1.closed = false ∧ v1.written ≤ v1.size ∧ v1.rest = s ∧
      v1.written = v.written + bytes.length ∧ v1.size = v.size := by
  have hrl : v.rest.length = v.size - v.written := by
    unfold Verifier.rest
    rw [List.length_take]
    have := verifier_pending_length v hG
    omega
  have hbl : bytes.length ≤ v.size - v.written := by
    rw [← hrl, hrest, List.length_append]
    omega
  have hpre : bytes = v.pending.take bytes.length := by
    have h1 : v.rest.take bytes.length = bytes := by
      rw [hrest, List.take_left]
    unfold Verifier.rest at h1
    rw [List.take_take, Nat.min_eq_left hbl] at h1
    exact h1.symm
  obtain ⟨v1, hrun, hwr, hpend, hsame⟩ := verifyLoop_spec fuel v bytes hG hbl hpre hfuel
  obtain ⟨a1, a2, a3, a4⟩ := hsame
  refine ⟨v1, ?_, a2 ▸ hG, a3.trans hfail, a4.trans hclosed, by omega, ?_, hwr, a1⟩
  · unfold Verifier.Write
    rw [hclosed, hfail]
    simp only [Bool.false_eq_true, if_false]
    rw [if_neg (by omega), hrun]
  · have h2 : v.rest.drop bytes.length = s := by
      rw [hrest, List.drop_left]
    unfold Verifier.rest at h2 ⊢
    rw [hpend, a1, hwr, ← h2, List.drop_take]
    congr 1
    omega

theorem verifierWriter_step {σ : Type} (fuel : Nat) (w : Except Fault (Verifier σ))
    (b s : List Nat) (h : Verifier.Expecting w (b ++ s)) (hb : b.length < fuel) :
    ((verifierWriter fuel).Write w b).1 = (b.length, none) ∧
      Verifier.Expecting ((verifierWriter fuel).Write w b).2 s := by
  obtain ⟨v, hw, hG, hfail, hclosed, hle, hrest⟩ := h
  obtain ⟨v1, hrun, h1, h2, h3, h4, h5, -, -⟩ :=
    verifier_Write_spec fuel v b s hG hfail hclosed hle hrest hb
  have hres : (verifierWriter fuel).Write w b = ((b.length, none), .ok v1) := by
    rw [hw]
    show (match v.Write fuel b with
      | .error f => ((0, some (Error.other "fault")), Except.error f)
      | .ok res => (res.1, Except.ok res.2)) = _
    rw [hrun]
  rw [hres]
  exact ⟨rfl, v1, rfl, h1, h2, h3, h4, h5⟩

/-- `WriteTo` into a sink that accepts the bytes it expects: with `Inv w s`
saying that the sink `w` expects the bytes `s`, the loop hands over the rest of
the stream, and the sink then expects nothing more. -/
theorem writeToLoop_spec_inv {σ ω : Type} (R : Rand σ) (W : Writer ω)
    (Inv : ω → List Nat → Prop) (bound : Nat)
    (hW : ∀ w b s, Inv w (b ++ s) → b.length ≤ bound →
      (W.Write w b).1 = (b.length, none) ∧ Inv (W.Write w b).2 s)
    (fuelRead fuel : Nat) :
    ∀ (r : Reader σ) (w : ω) (wLen : Int) (buf : List Nat), r.Built →
      r.read ≤ r.size → 1 ≤ buf.length → buf.length ≤ bound → buf.length < fuelRead →
      r.size - r.read < fuel → Inv w r.rest →
      ∃ r1 w1, Reader.writeToLoop R W fuelRead fuel r w wLen buf
          = .ok { n := wLen + ((r.size - r.read : Nat) : Int), err := none, r := r1, w := w1 } ∧
        r1.read = r.size ∧ r.SameParams r1 ∧ Inv w1 [] := by
  induction fuel with
  | zero => intro r w wLen buf _ _ _ _ _ h; omega
  | succ fuel ih =>
    intro r w wLen buf hb hle hbuf1 hbound hbuf2 hfuel hinv
    by_cases heof : r.size ≤ r.read
    · refine ⟨r, w, ?_, by omega, sameParams_refl r, ?_⟩
      · rw [writeToLoop_succ, Read_eof R fuelRead r buf heof]
        have : r.size - r.read = 0 := by omega
        simp [this]
      · rw [rest_of_eof r heof] at hinv
        exact hinv
    · have hlt : r.read < r.size := Nat.lt_of_not_le heof
      obtain ⟨n, r1, hrun, -, hn1, hn2, hn3, hread, hpend, -, hsame⟩ :=
        Read_spec R fuelRead r buf hb hlt hbuf1 hbuf2
      have hsize : r1.size = r.size := hsame.2.2.1
      obtain ⟨hplen, hptake⟩ := Read_spec_length r buf n hb.2.2 hn3 hn2
      have htl : (r.pending.take n).length = n := by
        rw [← hptake, List.length_take, hplen]
        omega
      have hrest : r.rest = r.pending.take n ++ r1.rest := by
        unfold Reader.rest
        rw [hpend, hsize, hread]
        have : r.size - r.read = n + (r.size - (r.read + n)) := by omega
        conv_lhs => rw [this, List.take_add]
      rw [hrest] at hinv
      obtain ⟨hacc, hinv2⟩ := hW w (r.pending.take n) r1.rest hinv (by omega)
      obtain ⟨r2, w2, hrun2, hread2, hsame2, hfin⟩ :=
        ih r1 (W.Write w (r.pending.take n)).2 (wLen + (n : Int))
          (r.pending.take n ++ buf.drop n) (sameParams_built hsame hb) (by omega) (by omega)
          (by omega) (by omega) (by omega) hinv2
      refine ⟨r2, w2, ?_, by omega, sameParams_trans hsame hsame2, hfin⟩
      have hnf : ¬ (r.pending.take n ++ buf.drop n).length < n := by omega
      rw [writeToLoop_succ, hrun]
      simp only
      rw [if_neg hnf, hptake, hacc, htl]
      simp only
      rw [hrun2]
      have hcnt : wLen + (n : Int) + ((r1.size - r1.read : Nat) : Int)
          = wLen + ((r.size - r.read : Nat) : Int) := by
        rw [hsize, hread]
        omega
      rw [hcnt]

theorem expecting_fresh {σ : Type} (R : Rand σ) (dType : Nat) (seed : Int) (size : Nat)
    (v : Verifier σ) (hgen : v.gen = (New R dType seed size).gen) (hsize : v.size = size)
    (hwr : v.written = 0) (hbuf : v.buf = []) (hrnd : v.datRnd = R.NewSource seed)
    (hfail : v.failed = none) (hclosed : v.closed = false) :
    Verifier.Expecting (.ok v) (New R dType seed size).rest := by
  refine ⟨v, rfl, hgen ▸ (New_built R dType seed size).2.2, hfail, hclosed, by omega, ?_⟩
  unfold Verifier.rest Verifier.pending
  rw [hgen, hsize, hwr, hbuf, hrnd]
  rfl

theorem Reader_NewVerifier_gen {σ : Type} (R : Rand σ) (r : Reader σ)
    (h : r.dType ≠ Custom → r.gen = (New R r.dType r.seed r.size).gen) :
    (r.NewVerifier R).gen = r.gen ∧ (r.NewVerifier R).size = r.size ∧
      (r.NewVerifier R).seed = r.seed ∧ (r.NewVerifier R).written = 0 ∧
      (r.NewVerifier R).buf = [] ∧ (r.NewVerifier R).datRnd = R.NewSource r.seed ∧
      (r.NewVerifier R).failed = none ∧ (r.NewVerifier R).closed = false := by
  unfold Reader.NewVerifier
  by_cases hc : r.dType = Custom
  · rw [if_pos hc]
    exact ⟨rfl, rfl, rfl, rfl, rfl, rfl, rfl, rfl⟩
  · rw [if_neg hc]
    exact ⟨(h hc).symm, rfl, rfl, rfl, rfl, rfl, rfl, rfl⟩

theorem drain_into_expecting {σ : Type} (R : Rand σ) (dType : Nat) (seed : Int)
    (size fuel fuelW : Nat) (v0 : Verifier σ) (hf1 : 8192 < fuel) (hf2 : size < fuel)
    (hfw : 8192 < fuelW) (h0 : Verifier.Expecting (.ok v0) (New R dType seed size).rest) :
    ∃ r1 v, (New R dType seed size).WriteTo R (verifierWriter fuelW) fuel (.ok v0)
        = .ok { n := (size : Int), err := none, r := r1, w := .ok v } ∧
      v.Close.1 = none ∧ v.written = v.size ∧ r1.TotalRead = size := by
  have hb := New_built R dType seed size
  obtain ⟨r1, w1, hrun, hread, hsame, hfin⟩ :=
    writeToLoop_spec_inv R (verifierWriter fuelW) Verifier.Expecting 8192
      (fun w b s hinv hbl => verifierWriter_step fuelW w b s hinv (by omega))
      fuel fuel (New R dType seed size) (.ok v0) 0 (List.replicate 8192 0) hb (Nat.zero_le _)
      (by rw [List.length_replicate]; omega) (by rw [List.length_replicate])
      (by rw [List.length_replicate]; exact hf1) (by show size - 0 < fuel; omega) h0
  have hn : (0 : Int) + (((New R dType seed size).size - (New R dType seed size).read : Nat) : Int)
      = (size : Int) := by
    show (0 : Int) + ((size - 0 : Nat) : Int) = (size : Int)
    rw [Nat.sub_zero, Int.zero_add]
  rw [hn] at hrun
  obtain ⟨v, hw1, hG, -, -, hle, hrest⟩ := hfin
  have hrl : v.rest.length = v.size - v.written := by
    unfold Verifier.rest
    rw [List.length_take]
    have := verifier_pending_length v hG
    omega
  rw [hrest, List.length_nil] at hrl
  have hclose : v.Close.1 = none := by
    unfold Verifier.Close
    rw [if_neg (by omega)]
  rw [hw1] at hrun
  exact ⟨r1, v, hrun, hclose, by omega, hread⟩

/-- C18: for every type tag, seed and size, `WriteTo` from `New(type, seed,
size)` into `NewVerifier(type, seed, size)` returns `(size, nil)` and `Close` on
the Verifier then returns no error; the same holds for the Verifier returned by
the Reader's own `NewVerifier()`, which is `NewVerifierWithGenerator` with the
Reader's Generator when the Reader's type is Custom and `NewVerifier` with the
Reader's type otherwise, in both cases with the Reader's seed and size. -/
theorem C18_reader_drains_into_matching_verifier {σ : Type} (R : Rand σ) (dType : Nat)
    (seed : Int) (size fuel fuelW : Nat) (hf1 : 8192 < fuel) (hf2 : size < fuel)
    (hfw : 8192 < fuelW) :
    (∃ r1 v, (New R dType seed size).WriteTo R (verifierWriter fuelW) fuel
        (.ok (NewVerifier R dType seed size))
        = .ok { n := (size : Int), err := none, r := r1, w := .ok v } ∧
      v.Close.1 = none) ∧
    (∃ r1 v, (New R dType seed size).WriteTo R (verifierWriter fuelW) fuel
        (.ok ((New R dType seed size).NewVerifier R))
        = .ok { n := (size : Int), err := none, r := r1, w := .ok v } ∧
      v.Close.1 = none) ∧
    ∀ r : Reader σ,
      r.NewVerifier R
        = if r.dType = Custom then NewVerifierWithGenerator R r.gen r.seed r.size
          else NewVerifier R r.dType r.seed r.size := by
  refine ⟨?_, ?_, fun r => rfl⟩
  · obtain ⟨r1, v, hrun, hclose, -, -⟩ :=
      drain_into_expecting R dType seed size fuel fuelW (NewVerifier R dType seed size) hf1 hf2
        hfw (expecting_fresh R dType seed size _ rfl rfl rfl rfl rfl rfl rfl)
    exact ⟨r1, v, hrun, hclose⟩
  · obtain ⟨h1, h2, -, h4, h5, h6, h7, h8⟩ :=
      Reader_NewVerifier_gen R (New R dType seed size) (fun _ => rfl)
    obtain ⟨r1, v, hrun, hclose, -, -⟩ :=
      drain_into_expecting R dType seed size fuel fuelW ((New R dType seed size).NewVerifier R)
        hf1 hf2 hfw (expecting_fresh R dType seed size _ h1 h2 h4 h5 h6 h7 h8)
    exact ⟨r1, v, hrun, hclose⟩

theorem C18_witness :
    (∃ r1 v, (New lcg 127 1234 7).WriteTo lcg (verifierWriter 8193) 8193
        (.ok (NewVerifier lcg 127 1234 7))
        = .ok { n := ((7 : Nat) : Int), err := none, r := r1, w := .ok v } ∧
      v.Close.1 = none) ∧
    (∃ r1 v, (New lcg 127 1234 7).WriteTo lcg (verifierWriter 8193) 8193
        (.ok ((New lcg 127 1234 7).NewVerifier lcg))
        = .ok { n := ((7 : Nat) : Int), err := none, r := r1, w := .ok v } ∧
      v.Close.1 = none) ∧
    ∀ r : Reader Nat,
      r.NewVerifier lcg
        = if r.dType = Custom then NewVerifierWithGenerator lcg r.gen r.seed r.size
          else NewVerifier lcg r.dType r.seed r.size :=
  C18_reader_drains_into_matching_verifier lcg 127 1234 7 8193 8193 (by decide) (by decide)
    (by decide)

/-! ## The invocations of the Generator -/

theorem callsState_snoc {σ : Type} (log : List (GenCall σ)) (s : σ) (c : GenCall σ) :
    callsState s (log ++ [c]) = c.next := by
  induction log generalizing s with
  | nil => rfl
  | cons d ds ih => exact ih d.next

theorem callsEnd_snoc {σ : Type} (log : List (GenCall σ)) (pos : Nat) (c : GenCall σ) :
    callsEnd pos (log ++ [c]) = callsEnd pos log + c.len := by
  induction log generalizing pos with
  | nil => rfl
  | cons d ds ih => exact ih (pos + d.len)

theorem validCalls_snoc {σ : Type} (G : Generator σ) (size : Nat) (log : List (GenCall σ))
    (s : σ) (pos : Nat) (c : GenCall σ) (h : ValidCalls G size s pos log)
    (hr : c.r = callsState s log) (hp : c.pos = callsEnd pos log)
    (hrem : c.rem = size - c.pos) (hlt : c.pos < size)
    (hg : ∃ res, G.Gen c.r c.pos (size - c.pos) = .ok (res, c.next) ∧ c.len = chunkLen res) :
    ValidCalls G size s pos (log ++ [c]) := by
  induction log generalizing s pos with
  | nil =>
    have hr2 : c.r = s := hr
    have hp2 : c.pos = pos := hp
    rw [hr2, hp2] at hg
    exact ⟨hr2, hp2, hp2 ▸ hrem, hp2 ▸ hlt, hg, trivial⟩
  | cons d ds ih =>
    obtain ⟨h1, h2, h3, h4, h5, h6⟩ := h
    exact ⟨h1, h2, h3, h4, h5, ih d.next (pos + d.len) h6 hr hp⟩

theorem traced_Gen {σ : Type} (G : Generator σ) (s : σ × List (GenCall σ)) (pos rem : Nat) :
    (traced G).Gen s pos rem
      = match G.Gen s.1 pos rem with
        | .error f => .error f
        | .ok (res, s1) =>
          .ok (res, (s1, s.2 ++ [GenCall.mk s.1 pos rem (chunkLen res) s1])) := rfl

theorem traced_Gen_error {σ : Type} (G : Generator σ) (s : σ × List (GenCall σ))
    (pos rem : Nat) (f : Fault) (h : G.Gen s.1 pos rem = .error f) :
    (traced G).Gen s pos rem = .error f := by
  rw [traced_Gen, h]

theorem traced_Gen_ok {σ : Type} (G : Generator σ) (s : σ × List (GenCall σ))
    (pos rem : Nat) (res : Except Error (List Nat)) (s1 : σ)
    (h : G.Gen s.1 pos rem = .ok (res, s1)) :
    (traced G).Gen s pos rem
      = .ok (res, (s1, s.2 ++ [GenCall.mk s.1 pos rem (chunkLen res) s1])) := by
  rw [traced_Gen, h]

theorem trace_refill {σ : Type} (G : Generator σ) (s0 : σ) (size : Nat)
    (r r1 : Reader (σ × List (GenCall σ))) (e : Option Error) (hinv : TraceInv G s0 size r)
    (hlt : r.read < r.size)
    (h : (if r.buf.length = 0 then r.prepareNext else .ok (none, r)) = .ok (e, r1)) :
    TraceInv G s0 size r1 := by
  obtain ⟨hgen, hsize, hvalid, hstate, hend, hlen⟩ := hinv
  by_cases hb : r.buf.length = 0
  · rw [if_pos hb] at h
    have hnil : r.buf = [] := List.length_eq_zero.1 hb
    unfold Reader.prepareNext at h
    rw [hgen] at h
    cases hg : G.Gen r.datRnd.1 r.read (r.size - r.read) with
    | error f =>
      rw [traced_Gen_error G r.datRnd _ _ f hg] at h
      cases h
    | ok v =>
      obtain ⟨res, s1⟩ := v
      rw [traced_Gen_ok G r.datRnd _ _ res s1 hg] at h
      rw [hnil, List.length_nil, Nat.add_zero] at hend
      have hv2 : ValidCalls G size s0 0
          (r.datRnd.2 ++ [GenCall.mk r.datRnd.1 r.read (r.size - r.read) (chunkLen res) s1]) := by
        refine validCalls_snoc G size _ s0 0 _ hvalid hstate hend ?_ ?_ ⟨res, ?_, rfl⟩
        · show r.size - r.read = size - r.read
          rw [hsize]
        · show r.read < size
          omega
        · show G.Gen r.datRnd.1 r.read (size - r.read) = _
          rw [← hsize]
          exact hg
      cases res with
      | error e1 =>
        simp only [Except.ok.injEq, Prod.mk.injEq] at h
        rw [← h.2]
        refine ⟨rfl, hsize, hv2, ?_, ?_, hlen⟩
        · exact (callsState_snoc r.datRnd.2 s0
            (GenCall.mk r.datRnd.1 r.read (r.size - r.read) (chunkLen (.error e1)) s1)).symm
        · show r.read + r.buf.length = _
          rw [callsEnd_snoc, hnil, ← hend]
          rfl
      | ok b =>
        simp only [Except.ok.injEq, Prod.mk.injEq] at h
        rw [← h.2]
        refine ⟨rfl, hsize, hv2, ?_, ?_, hlen⟩
        · exact (callsState_snoc r.datRnd.2 s0
            (GenCall.mk r.datRnd.1 r.read (r.size - r.read) (chunkLen (.ok b)) s1)).symm
        · show r.read + b.length = _
          rw [callsEnd_snoc, ← hend]
          rfl
  · rw [if_neg hb] at h
    simp only [Except.ok.injEq, Prod.mk.injEq] at h
    rw [← h.2]
    exact ⟨hgen, hsize, hvalid, hstate, hend, hlen⟩

theorem trace_readLoop {σ : Type} (G : Generator σ) (s0 : σ) (size readLen fuel : Nat) :
    ∀ (r : Reader (σ × List (GenCall σ))) (remLen : Nat) (done curDst : List Nat)
      (ret : ReadRet (σ × List (GenCall σ))), TraceInv G s0 size r → r.read < r.size →
      remLen ≤ r.size - r.read →
      Reader.readLoop readLen fuel r remLen done curDst = .ok ret → TraceInv G s0 size ret.r := by
  induction fuel with
  | zero =>
    intro r remLen done curDst ret _ _ _ h
    cases h
  | succ fuel ih =>
    intro r remLen done curDst ret hinv hlt hrem h
    rw [readLoop_succ] at h
    cases hx : (if r.buf.length = 0 then r.prepareNext else .ok (none, r)) with
    | error f =>
      rw [hx] at h
      cases h
    | ok v =>
      obtain ⟨e, r1⟩ := v
      have hinv1 := trace_refill G s0 size r r1 e hinv hlt hx
      obtain ⟨hs, hread, -⟩ := refill_inv r r1 e hx
      have hsize : r1.size = r.size := hs.2.2.1
      obtain ⟨hgen, hsz, hvalid, hstate, hend, hlen⟩ := hinv1
      rw [hx] at h
      cases e with
      | some e1 =>
        simp only [Except.ok.injEq] at h
        rw [← h]
        exact ⟨hgen, hsz, hvalid, hstate, hend, hlen⟩
      | none =>
        simp only at h
        by_cases hle : remLen ≤ r1.buf.length
        · rw [if_pos hle] at h
          simp only [Except.ok.injEq] at h
          rw [← h]
          refine ⟨hgen, hsz, hvalid, hstate, ?_, hlen⟩
          show r1.read + remLen + (r1.buf.drop remLen).length = _
          rw [List.length_drop, ← hend]
          omega
        · rw [if_neg hle] at h
          by_cases hf : (copy curDst r1.buf).length < r1.buf.length
          · rw [if_pos hf] at h
            cases h
          · rw [if_neg hf] at h
            refine ih { r1 with read := r1.read + r1.buf.length, buf := [] } _ _ _ ret
              ⟨hgen, hsz, hvalid, hstate, ?_, hlen⟩ ?_ ?_ h
            · show r1.read + r1.buf.length + 0 = _
              rw [← hend]
              rfl
            · show r1.read + r1.buf.length < r1.size
              omega
            · show remLen - r1.buf.length ≤ r1.size - (r1.read + r1.buf.length)
              omega

theorem trace_Read {σ : Type} (R : Rand σ) (G : Generator σ) (s0 : σ) (size fuel : Nat)
    (r : Reader (σ × List (GenCall σ))) (p : List Nat) (ret : ReadRet (σ × List (GenCall σ)))
    (hinv : TraceInv G s0 size r) (h : r.Read (tracedRand R) fuel p = .ok ret) :
    TraceInv G s0 size ret.r := by
  by_cases heof : r.size ≤ r.read
  · rw [Read_eof (tracedRand R) fuel r p heof] at h
    simp only [Except.ok.injEq] at h
    rw [← h]
    exact hinv
  · have hlt : r.read < r.size := Nat.lt_of_not_le heof
    rw [Read_not_eof (tracedRand R) fuel r p hlt] at h
    obtain ⟨hgen, hsz, hvalid, hstate, hend, hlen⟩ := hinv
    have hj : (r.jitterLen (tracedRand R) p.length).2.2 = [] := by
      unfold Reader.jitterLen
      split
      · exact hlen
      · exact hlen
    exact trace_readLoop G s0 size _ fuel
      { r with lenRnd := (r.jitterLen (tracedRand R) p.length).2 } _ _ _ ret
      ⟨hgen, hsz, hvalid, hstate, hend, hj⟩ hlt (Nat.min_le_right _ _) h

theorem trace_ReadByte {σ : Type} (R : Rand σ) (G : Generator σ) (s0 : σ) (size fuel : Nat)
    (r : Reader (σ × List (GenCall σ)))
    (res : (Nat × Option Error) × Reader (σ × List (GenCall σ)))
    (hinv : TraceInv G s0 size r) (h : r.ReadByte (tracedRand R) fuel = .ok res) :
    TraceInv G s0 size res.2 := by
  unfold Reader.ReadByte at h
  cases hrun : r.Read (tracedRand R) fuel [0] with
  | error f =>
    rw [hrun] at h
    cases h
  | ok ret =>
    have hinv1 := trace_Read R G s0 size fuel r [0] ret hinv hrun
    rw [hrun] at h
    simp only at h
    cases herr : ret.err with
    | some e =>
      rw [herr] at h
      simp only [Except.ok.injEq] at h
      rw [← h]
      exact hinv1
    | none =>
      rw [herr] at h
      simp only [Except.ok.injEq] at h
      rw [← h]
      exact hinv1

theorem trace_writeToLoop {σ ω : Type} (R : Rand σ) (G : Generator σ) (s0 : σ) (size : Nat)
    (W : Writer ω) (fuelRead fuel : Nat) :
    ∀ (r : Reader (σ × List (GenCall σ))) (w : ω) (wLen : Int) (buf : List Nat)
      (ret : WriteToRet (σ × List (GenCall σ)) ω), TraceInv G s0 size r →
      Reader.writeToLoop (tracedRand R) W fuelRead fuel r w wLen buf = .ok ret →
      TraceInv G s0 size ret.r := by
  induction fuel with
  | zero =>
    intro r w wLen buf ret _ h
    cases h
  | succ fuel ih =>
    intro r w wLen buf ret hinv h
    rw [writeToLoop_succ] at h
    cases hrun : r.Read (tracedRand R) fuelRead buf with
    | error f =>
      rw [hrun] at h
      cases h
    | ok rr =>
      have hinv1 := trace_Read R G s0 size fuelRead r buf rr hinv hrun
      rw [hrun] at h
      simp only at h
      cases herr : rr.err with
      | some e =>
        rw [herr] at h
        simp only at h
        by_cases he : e ≠ .EOF
        · rw [if_pos he] at h
          simp only [Except.ok.injEq] at h
          rw [← h]
          exact hinv1
        · rw [if_neg he] at h
          simp only [Except.ok.injEq] at h
          rw [← h]
          exact hinv1
      | none =>
        rw [herr] at h
        simp only at h
        by_cases hf : rr.p.length < rr.n
        · rw [if_pos hf] at h
          cases h
        · rw [if_neg hf] at h
          cases hw : (W.Write w (rr.p.take rr.n)).1.2 with
          | some e =>
            rw [hw] at h
            simp only [Except.ok.injEq] at h
            rw [← h]
            exact hinv1
          | none =>
            rw [hw] at h
            exact ih _ _ _ _ ret hinv1 h

theorem reaches_inv {σ : Type} (R : Rand σ) (G : Generator σ) (s0 : σ) (size : Nat)
    (r0 r : Reader (σ × List (GenCall σ))) (h0 : FreshTraced G s0 size r0)
    (h : Reaches (tracedRand R) r0 r) : TraceInv G s0 size r := by
  induction h with
  | start =>
    obtain ⟨h1, h2, h3, h4, h5, h6⟩ := h0
    refine ⟨h1, h6, ?_, ?_, ?_, h3⟩
    · rw [h2]
      trivial
    · rw [h2]
      rfl
    · rw [h2, h4, h5]
      rfl
  | read fuel p r ret _ hrun ih => exact trace_Read R G s0 size fuel r p ret ih hrun
  | readByte fuel r res _ hrun ih => exact trace_ReadByte R G s0 size fuel r res ih hrun
  | writeTo W fuel w r ret _ hrun ih =>
    exact trace_writeToLoop R G s0 size W fuel fuel r w 0 _ ret ih hrun

theorem validCalls_get {σ : Type} (G : Generator σ) (size : Nat) :
    ∀ (log : List (GenCall σ)) (s : σ) (pos k : Nat) (c : GenCall σ),
      ValidCalls G size s pos log → log.get? k = some c →
      c.rem = size - c.pos ∧ c.pos < size ∧
      ∃ res, G.Gen c.r c.pos c.rem = .ok (res, c.next) ∧ c.len = chunkLen res := by
  intro log
  induction log with
  | nil =>
    intro s pos k c _ h
    cases h
  | cons d ds ih =>
    intro s pos k c hv h
    obtain ⟨h1, h2, h3, h4, h5, h6⟩ := hv
    cases k with
    | zero =>
      simp only [List.get?_cons_zero, Option.some.injEq] at h
      subst h
      rw [h1, h2, h3]
      exact ⟨rfl, h4, h5⟩
    | succ k => exact ih d.next (pos + d.len) k c h6 h

theorem validCalls_head {σ : Type} (G : Generator σ) (size : Nat) (log : List (GenCall σ))
    (s : σ) (pos : Nat) (c : GenCall σ) (hv : ValidCalls G size s pos log)
    (h : log.get? 0 = some c) : c.pos = pos ∧ c.r = s := by
  cases log with
  | nil => cases h
  | cons d ds =>
    simp only [List.get?_cons_zero, Option.some.injEq] at h
    subst h
    exact ⟨hv.2.1, hv.1⟩

theorem validCalls_next {σ : Type} (G : Generator σ) (size : Nat) :
    ∀ (log : List (GenCall σ)) (s : σ) (pos k : Nat) (c d : GenCall σ),
      ValidCalls G size s pos log → log.get? k = some c → log.get? (k + 1) = some d →
      d.pos = c.pos + c.len ∧ d.r = c.next := by
  intro log
  induction log with
  | nil =>
    intro s pos k c d _ h
    cases h
  | cons a as ih =>
    intro s pos k c d hv hc hd
    obtain ⟨h1, h2, -, -, -, h6⟩ := hv
    cases k with
    | zero =>
      simp only [List.get?_cons_zero, Option.some.injEq] at hc
      subst hc
      have hd2 : as.get? 0 = some d := hd
      obtain ⟨e1, e2⟩ := validCalls_head G size as _ _ d h6 hd2
      rw [h2]
      exact ⟨e1, e2⟩
    | succ k => exact ih a.next (pos + a.len) k c d h6 hc hd

theorem validCalls_det {σ : Type} (G : Generator σ) (size : Nat) :
    ∀ (l1 l2 : List (GenCall σ)) (s : σ) (pos k : Nat) (c1 c2 : GenCall σ),
      ValidCalls G size s pos l1 → ValidCalls G size s pos l2 →
      l1.get? k = some c1 → l2.get? k = some c2 → c1 = c2 := by
  intro l1
  induction l1 with
  | nil =>
    intro l2 s pos k c1 c2 _ _ h
    cases h
  | cons a as ih =>
    intro l2 s pos k c1 c2 hv1 hv2 h1 h2
    cases l2 with
    | nil => cases h2
    | cons b bs =>
      obtain ⟨a1, a2, a3, -, ⟨ra, ga, la⟩, a6⟩ := hv1
      obtain ⟨b1, b2, b3, -, ⟨rb, gb, lb⟩, b6⟩ := hv2
      have hres : ra = rb ∧ a.next = b.next := by
        rw [ga] at gb
        simp only [Except.ok.injEq, Prod.mk.injEq] at gb
        exact gb
      have hab : a = b := by
        cases a
        cases b
        simp only at a1 a2 a3 b1 b2 b3 la lb hres
        simp only [GenCall.mk.injEq]
        exact ⟨a1.trans b1.symm, a2.trans b2.symm, a3.trans b3.symm,
          by rw [la, lb, hres.1], hres.2⟩
      cases k with
      | zero =>
        simp only [List.get?_cons_zero, Option.some.injEq] at h1 h2
        rw [← h1, ← h2]
        exact hab
      | succ k =>
        rw [hab] at a6
        exact ih bs b.next (pos + b.len) k c1 c2 a6 b6 h1 h2

/-- While the pending buffer holds what a `Read` asks for, the `Read` does not
invoke the Generator: the content draw stream is left as it was. -/
theorem Read_without_refill {σ : Type} (R : Rand σ) (fuel : Nat) (r : Reader σ) (p : List Nat)
    (ret : ReadRet σ) (hbuf : r.buf ≠ []) (hp : p.length ≤ r.buf.length)
    (h : r.Read R fuel p = .ok ret) : ret.r.datRnd = r.datRnd := by
  by_cases heof : r.size ≤ r.read
  · rw [Read_eof R fuel r p heof] at h
    simp only [Except.ok.injEq] at h
    rw [← h]
  · rw [Read_not_eof R fuel r p (Nat.lt_of_not_le heof)] at h
    have hL : min (r.jitterLen R p.length).1 (r.size - r.read) ≤ r.buf.length := by
      have := jitterLen_le R r p.length
      omega
    cases fuel with
    | zero => cases h
    | succ fuel =>
      have hb0 : ¬ ({ r with lenRnd := (r.jitterLen R p.length).2 } : Reader σ).buf.length = 0 :=
        fun h0 => hbuf (List.length_eq_zero.1 h0)
      rw [readLoop_succ, if_neg hb0] at h
      simp only at h
      rw [if_pos hL] at h
      simp only [Except.ok.injEq] at h
      rw [← h]

/-- C19: take a Reader as `New` or `NewWithGenerator` leaves it, whose Generator
`G` records its invocations, and any Reader `ra` reached from it by `Read`,
`ReadByte` and `WriteTo` calls.  The first invocation is at position 0 with the
content draw stream of the start; every invocation has a position below `size`
and the remaining length `size - position`, at least 1; every later invocation
is at the position of the one before plus the length of the chunk that one
returned, with the content draw stream that one left.  The calls made so far
have reached exactly the counter plus the pending bytes, so a call, made at
the counter, finds the pending buffer empty, and a `Read` that the pending
buffer can serve makes no call.  The jitter draw stream is never handed to the
Generator.  The k-th invocation is the same for any two Readers reached from
such starts, whatever the buffers and the jitter draws. -/
theorem C19_generator_calls_are_in_order {σ : Type} (R : Rand σ) (G : Generator σ) (s0 : σ)
    (size : Nat) (ra0 rb0 ra rb : Reader (σ × List (GenCall σ)))
    (ha0 : FreshTraced G s0 size ra0) (hb0 : FreshTraced G s0 size rb0)
    (ha : Reaches (tracedRand R) ra0 ra) (hb : Reaches (tracedRand R) rb0 rb) :
    (∀ c, ra.datRnd.2.get? 0 = some c → c.pos = 0 ∧ c.r = s0) ∧
    (∀ k c, ra.datRnd.2.get? k = some c →
      c.rem = size - c.pos ∧ c.pos < size ∧ 1 ≤ c.rem ∧
      ∃ res, G.Gen c.r c.pos c.rem = .ok (res, c.next) ∧ c.len = chunkLen res) ∧
    (∀ k c d, ra.datRnd.2.get? k = some c → ra.datRnd.2.get? (k + 1) = some d →
      d.pos = c.pos + c.len ∧ d.r = c.next) ∧
    (ra.TotalRead + ra.buf.length = callsEnd 0 ra.datRnd.2 ∧
      ra.datRnd.1 = callsState s0 ra.datRnd.2) ∧
    (∀ fuel p ret, ra.buf ≠ [] → p.length ≤ ra.buf.length →
      ra.Read (tracedRand R) fuel p = .ok ret → ret.r.datRnd = ra.datRnd) ∧
    ra.lenRnd.2 = [] ∧
    (∀ k c1 c2, ra.datRnd.2.get? k = some c1 → rb.datRnd.2.get? k = some c2 → c1 = c2) := by
  obtain ⟨-, -, hva, hsa, hea, hla⟩ := reaches_inv R G s0 size ra0 ra ha0 ha
  obtain ⟨-, -, hvb, -, -, -⟩ := reaches_inv R G s0 size rb0 rb hb0 hb
  refine ⟨fun c hc => validCalls_head G size _ s0 0 c hva hc, ?_,
    fun k c d hc hd => validCalls_next G size _ s0 0 k c d hva hc hd, ⟨hea, hsa⟩,
    fun fuel p ret h1 h2 h3 => Read_without_refill (tracedRand R) fuel ra p ret h1 h2 h3, hla,
    fun k c1 c2 h1 h2 => validCalls_det G size _ _ s0 0 k c1 c2 hva hvb h1 h2⟩
  intro k c hc
  obtain ⟨h1, h2, h3⟩ := validCalls_get G size _ s0 0 k c hva hc
  exact ⟨h1, h2, by omega, h3⟩

theorem C19_witness :
    FreshTraced (newBinaryGenerator.toGenerator lcg) (lcg.NewSource 1) 5
      (NewWithGenerator (tracedRand lcg) (traced (newBinaryGenerator.toGenerator lcg)) 1 5) ∧
    ∃ ret, (NewWithGenerator (tracedRand lcg) (traced (newBinaryGenerator.toGenerator lcg)) 1 5).Read
        (tracedRand lcg) 2 [0] = .ok ret ∧
      ret.r.datRnd.2.length = 1 ∧
      (∀ c, ret.r.datRnd.2.get? 0 = some c → c.pos = 0 ∧ c.r = lcg.NewSource 1) ∧
      (∀ k c, ret.r.datRnd.2.get? k = some c →
        c.rem = 5 - c.pos ∧ c.pos < 5 ∧ 1 ≤ c.rem ∧
        ∃ res, (newBinaryGenerator.toGenerator lcg).Gen c.r c.pos c.rem = .ok (res, c.next) ∧
          c.len = chunkLen res) :=
  ⟨⟨rfl, rfl, rfl, rfl, rfl, rfl⟩, _, rfl, rfl,
    (C19_generator_calls_are_in_order lcg (newBinaryGenerator.toGenerator lcg) (lcg.NewSource 1) 5
      (NewWithGenerator (tracedRand lcg) (traced (newBinaryGenerator.toGenerator lcg)) 1 5)
      (NewWithGenerator (tracedRand lcg) (traced (newBinaryGenerator.toGenerator lcg)) 1 5) _
      (NewWithGenerator (tracedRand lcg) (traced (newBinaryGenerator.toGenerator lcg)) 1 5)
      ⟨rfl, rfl, rfl, rfl, rfl, rfl⟩ ⟨rfl, rfl, rfl, rfl, rfl, rfl⟩
      (Reaches.read 2 [0] (NewWithGenerator (tracedRand lcg) (traced (newBinaryGenerator.toGenerator lcg)) 1 5) _
        Reaches.start rfl) Reaches.start).1,
    (C19_generator_calls_are_in_order lcg (newBinaryGenerator.toGenerator lcg) (lcg.NewSource 1) 5
      (NewWithGenerator (tracedRand lcg) (traced (newBinaryGenerator.toGenerator lcg)) 1 5)
      (NewWithGenerator (tracedRand lcg) (traced (newBinaryGenerator.toGenerator lcg)) 1 5) _
      (NewWithGenerator (tracedRand lcg) (traced (newBinaryGenerator.toGenerator lcg)) 1 5)
      ⟨rfl, rfl, rfl, rfl, rfl, rfl⟩ ⟨rfl, rfl, rfl, rfl, rfl, rfl⟩
      (Reaches.read 2 [0] (NewWithGenerator (tracedRand lcg) (traced (newBinaryGenerator.toGenerator lcg)) 1 5) _
        Reaches.start rfl) Reaches.start).2.1⟩

/-! ## The passes of the loop of `Read` -/

theorem readLoopLog_succ {σ : Type} (readLen fuel : Nat) (r : Reader σ) (remLen : Nat)
    (done curDst : List Nat) :
    Reader.readLoopLog readLen (fuel + 1) r remLen done curDst
      = match (if r.buf.length = 0 then r.prepareNext else .ok (none, r)) with
        | .error f =>
          (.error f,
            [LoopPass.mk remLen curDst.length (decide (r.buf.length = 0)) r.read
              (r.size - r.read) 0])
        | .ok (some err, r1) =>
          (.ok { n := readLen - remLen, err := some err, p := done ++ curDst, r := r1 },
            [LoopPass.mk remLen curDst.length (decide (r.buf.length = 0)) r.read
              (r.size - r.read) 0])
        | .ok (none, r1) =>
          if remLen ≤ r1.buf.length then
            (.ok { n := readLen
                   err := none
                   p := done ++ copy curDst (r1.buf.take remLen)
                   r := { r1 with read := r1.read + remLen, buf := r1.buf.drop remLen } },
              [LoopPass.mk remLen curDst.length (decide (r.buf.length = 0)) r.read
                (r.size - r.read) r1.buf.length])
          else
            if (copy curDst r1.buf).length < r1.buf.length then
              (.error .indexOutOfRange,
                [LoopPass.mk remLen curDst.length (decide (r.buf.length = 0)) r.read
                  (r.size - r.read) r1.buf.length])
            else
              ((Reader.readLoopLog readLen fuel
                  { r1 with read := r1.read + r1.buf.length, buf := [] }
                  (remLen - r1.buf.length) (done ++ (copy curDst r1.buf).take r1.buf.length)
                  ((copy curDst r1.buf).drop r1.buf.length)).1,
                LoopPass.mk remLen curDst.length (decide (r.buf.length = 0)) r.read
                    (r.size - r.read) r1.buf.length ::
                  (Reader.readLoopLog readLen fuel
                    { r1 with read := r1.read + r1.buf.length, buf := [] }
                    (remLen - r1.buf.length) (done ++ (copy curDst r1.buf).take r1.buf.length)
                    ((copy curDst r1.buf).drop r1.buf.length)).2) := rfl

/-- The logging loop returns what the loop of `Read` returns. -/
theorem readLoopLog_fst {σ : Type} (readLen fuel : Nat) :
    ∀ (r : Reader σ) (remLen : Nat) (done curDst : List Nat),
      (Reader.readLoopLog readLen fuel r remLen done curDst).1
        = Reader.readLoop readLen fuel r remLen done curDst := by
  induction fuel with
  | zero => intro r remLen done curDst; rfl
  | succ fuel ih =>
    intro r remLen done curDst
    rw [readLoopLog_succ, readLoop_succ]
    cases hfill : (if r.buf.length = 0 then r.prepareNext else .ok (none, r)) with
    | error f => rfl
    | ok v =>
      obtain ⟨e, r1⟩ := v
      cases e with
      | some err => rfl
      | none =>
        simp only
        by_cases hle : remLen ≤ r1.buf.length
        · rw [if_pos hle, if_pos hle]
        · rw [if_neg hle, if_neg hle]
          by_cases hf : (copy curDst r1.buf).length < r1.buf.length
          · rw [if_pos hf, if_pos hf]
          · rw [if_neg hf, if_neg hf]
            exact ih _ _ _ _

/-- The logging `Read` returns what `Read` returns. -/
theorem ReadLog_fst {σ : Type} (R : Rand σ) (fuel : Nat) (r : Reader σ) (p : List Nat) :
    (r.ReadLog R fuel p).1 = r.Read R fuel p := by
  unfold Reader.ReadLog Reader.Read
  by_cases h : r.size ≤ r.read
  · rw [if_pos h, if_pos h]
  · rw [if_neg h, if_neg h]
    exact readLoopLog_fst _ _ _ _ _ _

theorem ReadLog_eof {σ : Type} (R : Rand σ) (fuel : Nat) (r : Reader σ) (p : List Nat)
    (h : r.size ≤ r.read) : (r.ReadLog R fuel p).2 = [] := by
  unfold Reader.ReadLog
  rw [if_pos h]

theorem ReadLog_not_eof {σ : Type} (R : Rand σ) (fuel : Nat) (r : Reader σ) (p : List Nat)
    (h : r.read < r.size) :
    r.ReadLog R fuel p
      = Reader.readLoopLog (min (r.jitterLen R p.length).1 (r.size - r.read)) fuel
          { r with lenRnd := (r.jitterLen R p.length).2 }
          (min (r.jitterLen R p.length).1 (r.size - r.read)) [] p := by
  unfold Reader.ReadLog Reader.jitterLen
  rw [if_neg (Nat.not_le.2 h)]
  simp only [clamp_eq_min]
  by_cases hj : r.lenMin < p.length ∧ r.lenMin < r.lenMax
  · have hb : (decide (r.lenMin < p.length) && decide (r.lenMin < r.lenMax)) = true := by
      simp [hj.1, hj.2]
    rw [if_pos hj]
    simp only [hb, if_true]
  · have hb : (decide (r.lenMin < p.length) && decide (r.lenMin < r.lenMax)) = false := by
      rcases not_and_or.1 hj with h1 | h1 <;> simp [h1]
    rw [if_neg hj]
    simp only [hb, Bool.false_eq_true, if_false]

/-- The refill at the head of a pass, for a productive Generator and a Reader
that is not at its end: afterwards the pending buffer is not empty, and when the
Generator was called it is the chunk returned for `(r.read, r.size - r.read)`. -/
theorem refill_pass {σ : Type} (r : Reader σ) (hG : r.gen.Productive)
    (hlt : r.read < r.size) :
    ∃ r1, (if r.buf.length = 0 then r.prepareNext else .ok (none, r)) = .ok (none, r1) ∧
      1 ≤ r1.buf.length ∧ r1.read = r.read ∧ r1.size = r.size ∧ r1.gen = r.gen ∧
      (r.buf.length = 0 →
        ∃ c s1, r.gen.Gen r.datRnd r.read (r.size - r.read) = .ok (.ok c, s1) ∧
          c.length = r1.buf.length) := by
  by_cases hb : r.buf.length = 0
  · rw [if_pos hb]
    obtain ⟨c, s1, hc, hne⟩ := hG r.datRnd r.read (r.size - r.read) (by omega)
    refine ⟨{ r with datRnd := s1, buf := c }, ?_, List.length_pos.2 hne, rfl, rfl, rfl,
      fun _ => ⟨c, s1, hc, rfl⟩⟩
    unfold Reader.prepareNext
    rw [hc]
  · rw [if_neg hb]
    exact ⟨r, rfl, by omega, rfl, rfl, rfl, fun h => absurd h hb⟩

/-- The loop of `Read`, started with no more to copy than the declared size
and the destination allow: it returns within `remLen + 1` passes, and every
pass is in range and leads to the next with less to copy. -/
theorem readLoopLog_spec {σ : Type} (readLen fuel : Nat) :
    ∀ (r : Reader σ) (remLen : Nat) (done curDst : List Nat), r.gen.Productive →
      r.read < r.size → remLen ≤ r.size - r.read → remLen ≤ curDst.length → remLen < fuel →
      (∃ ret, Reader.readLoop readLen fuel r remLen done curDst = .ok ret) ∧
      (∃ it rest, (Reader.readLoopLog readLen fuel r remLen done curDst).2 = it :: rest ∧
        it.remLen = remLen ∧ it.space = curDst.length) ∧
      (∀ it ∈ (Reader.readLoopLog readLen fuel r remLen done curDst).2,
        it.InRange r.gen r.size) ∧
      List.Chain' LoopPass.Next (Reader.readLoopLog readLen fuel r remLen done curDst).2 ∧
      (Reader.readLoopLog readLen fuel r remLen done curDst).2.length ≤ remLen + 1 := by
  induction fuel with
  | zero => intro r remLen done curDst _ _ _ _ h; omega
  | succ fuel ih =>
    intro r remLen done curDst hG hlt hsz hdst hfuel
    obtain ⟨r1, hfill, hn, hread, hsize, hgen, hcall⟩ := refill_pass r hG hlt
    have hin : (LoopPass.mk remLen curDst.length (decide (r.buf.length = 0)) r.read
        (r.size - r.read) r1.buf.length).InRange r.gen r.size := by
      refine ⟨hdst, hn, hlt, rfl, ?_, ?_⟩
      · show 1 ≤ r.size - r.read
        omega
      · intro hc
        have hb : r.buf.length = 0 := of_decide_eq_true hc
        obtain ⟨c, s1, h1, h2⟩ := hcall hb
        exact ⟨r.datRnd, c, s1, h1, h2⟩
    clear hcall
    rw [readLoop_succ, readLoopLog_succ, hfill]
    simp only
    by_cases hle : remLen ≤ r1.buf.length
    · rw [if_pos hle, if_pos hle]
      refine ⟨⟨_, rfl⟩, ⟨_, [], rfl, rfl, rfl⟩, ?_, List.chain'_singleton _, ?_⟩
      · intro it hit
        rw [List.mem_singleton.1 hit]
        exact hin
      · simp
    · rw [if_neg hle, if_neg hle]
      have hlt2 : r1.buf.length < remLen := Nat.lt_of_not_le hle
      have hcopy : copy curDst r1.buf = r1.buf ++ curDst.drop r1.buf.length :=
        copy_of_le _ _ (by omega)
      have hnf : ¬ (copy curDst r1.buf).length < r1.buf.length := by
        rw [hcopy, List.length_append]
        omega
      rw [if_neg hnf, if_neg hnf]
      obtain ⟨hret, ⟨it2, rest, hlog, hrem2, hsp2⟩, hall, hchain, hlen⟩ :=
        ih { r1 with read := r1.read + r1.buf.length, buf := [] } (remLen - r1.buf.length)
          (done ++ (copy curDst r1.buf).take r1.buf.length)
          ((copy curDst r1.buf).drop r1.buf.length) (hgen ▸ hG)
          (by show r1.read + r1.buf.length < r1.size; omega)
          (by show remLen - r1.buf.length ≤ r1.size - (r1.read + r1.buf.length); omega)
          (by rw [hcopy, List.drop_left, List.length_drop]; omega) (by omega)
      refine ⟨hret, ⟨_, _, rfl, rfl, rfl⟩, ?_, ?_, ?_⟩
      · intro it hit
        rcases List.mem_cons.1 hit with h1 | h1
        · rw [h1]
          exact hin
        · have := hall it h1
          rw [← hgen, ← hsize]
          exact this
      · rw [hlog] at hchain ⊢
        refine List.Chain'.cons ?_ hchain
        refine ⟨?_, hrem2, ?_⟩
        · show it2.remLen < remLen
          omega
        · show it2.space = curDst.length - r1.buf.length
          rw [hsp2, hcopy, List.drop_left, List.length_drop]
      · rw [List.length_cons]
        omega

/-- The passes of one `Read` on a Reader with a productive Generator. -/
theorem ReadLog_spec {σ : Type} (R : Rand σ) (fuel : Nat) (r : Reader σ) (p : List Nat)
    (hG : r.gen.Productive) (hf : p.length < fuel) :
    (∃ ret, r.Read R fuel p = .ok ret) ∧
    (∀ it ∈ (r.ReadLog R fuel p).2, it.InRange r.gen r.size) ∧
    List.Chain' LoopPass.Next (r.ReadLog R fuel p).2 ∧
    (r.ReadLog R fuel p).2.length ≤ p.length + 1 ∧
    (∀ it ∈ (r.ReadLog R fuel p).2.head?, it.space = p.length) := by
  by_cases heof : r.size ≤ r.read
  · rw [ReadLog_eof R fuel r p heof, Read_eof R fuel r p heof]
    exact ⟨⟨_, rfl⟩, fun it hit => absurd hit (List.not_mem_nil it), List.chain'_nil,
      Nat.zero_le _, fun it hit => by cases hit⟩
  · have hlt : r.read < r.size := Nat.lt_of_not_le heof
    have hj := jitterLen_le R r p.length
    obtain ⟨hret, ⟨it, rest, hlog, -, hsp⟩, hall, hchain, hlen⟩ :=
      readLoopLog_spec (min (r.jitterLen R p.length).1 (r.size - r.read)) fuel
        { r with lenRnd := (r.jitterLen R p.length).2 }
        (min (r.jitterLen R p.length).1 (r.size - r.read)) [] p hG hlt
        (Nat.min_le_right _ _) (by omega) (by omega)
    rw [Read_not_eof R fuel r p hlt, ReadLog_not_eof R fuel r p hlt]
    refine ⟨hret, hall, hchain, by omega, ?_⟩
    intro it2 hit2
    rw [hlog] at hit2
    simp only [List.head?_cons, Option.mem_def, Option.some.injEq] at hit2
    rw [← hit2]
    exact hsp

/-- C21: for a Reader made by `New` with any type tag (and read any number of
times) and any buffer `p`, `Read(p)` returns, without a run-time panic, as soon
as the loop may make `len(p) + 1` passes; it makes at most that many, and the
logging `Read` returns the same result.  In every pass the bytes still to copy
fit the space left in the destination, and the pending buffer is not empty
after the refill step.  A pass that calls the Generator calls it at a position
below `size` with the remaining length `size - position`, at least 1, and the
chunk it gets is not empty: `min(4096, rem)` bytes for the tag Zero,
`min(256, rem)` bytes for every tag other than Zero and Text, and for Text the
lines of a paragraph with at least one line (after a line break when the
position is above 0).  From one pass to the next the bytes still to copy
strictly decrease, by the length of the buffer copied, as does the space
left. -/
theorem C21_read_terminates_and_stays_in_range {σ : Type} (R : Rand σ) (dType : Nat)
    (seed : Int) (size fuel : Nat) (r : Reader σ) (p : List Nat)
    (hr : FromNew R dType seed size r) (hf : p.length < fuel) :
    (∃ ret, r.Read R fuel p = .ok ret ∧ (r.ReadLog R fuel p).1 = .ok ret) ∧
    (r.ReadLog R fuel p).2.length ≤ p.length + 1 ∧
    (∀ it ∈ (r.ReadLog R fuel p).2,
      it.remLen ≤ it.space ∧ it.space ≤ p.length ∧ 1 ≤ it.n ∧
      (it.called = true →
        it.pos < size ∧ it.rem = size - it.pos ∧ 1 ≤ it.rem ∧
        ∃ s c s1, r.gen.Gen s it.pos it.rem = .ok (.ok c, s1) ∧ c.length = it.n ∧
          (dType = Zero → c.length = min newZeroGenerator.blockSize it.rem) ∧
          (dType ≠ Zero → dType ≠ Text →
            c.length = min newBinaryGenerator.blockSize it.rem) ∧
          (dType = Text →
            ∃ lines, newTextGenerator.genParagraph R s = .ok (lines, s1) ∧ lines ≠ [] ∧
              c = if 0 < it.pos then 10 :: lines.flatten else lines.flatten))) ∧
    List.Chain'
      (fun a b => b.remLen < a.remLen ∧ b.remLen = a.remLen - a.n ∧ b.space = a.space - a.n)
      (r.ReadLog R fuel p).2 := by
  have hsame := fromNew_inv hr
  have hsize : r.size = size := hsame.2.2.1
  have hgen : r.gen = (New R dType seed size).gen := hsame.2.2.2.2.2
  obtain ⟨⟨ret, hret⟩, hall, hchain, hlen, hhead⟩ :=
    ReadLog_spec R fuel r p (fromNew_built hr).2.2 hf
  refine ⟨⟨ret, hret, by rw [ReadLog_fst, hret]⟩, hlen, ?_, hchain⟩
  have hspace : ∀ it ∈ (r.ReadLog R fuel p).2, it.space ≤ p.length := by
    generalize (r.ReadLog R fuel p).2 = log at hchain hhead
    cases log with
    | nil => intro it hit; cases hit
    | cons a l =>
      have ha : a.space = p.length := hhead a rfl
      intro it hit
      rcases List.mem_cons.1 hit with h1 | h1
      · rw [h1, ha]
      · have hmono : ∀ (b : LoopPass) (m : List LoopPass), List.Chain' LoopPass.Next (b :: m) →
            ∀ x ∈ m, x.space ≤ b.space := by
          intro b m
          induction m generalizing b with
          | nil => intro _ x hx; cases hx
          | cons c m ihm =>
            intro hch x hx
            have h2 := List.chain'_cons.1 hch
            have hcb : c.space ≤ b.space := by
              have := h2.1.2.2
              omega
            rcases List.mem_cons.1 hx with h3 | h3
            · rw [h3]; exact hcb
            · exact Nat.le_trans (ihm c h2.2 x h3) hcb
        have := hmono a l hchain it h1
        omega
  intro it hit
  obtain ⟨h1, h2, h3, h4, h5, h6⟩ := hall it hit
  rw [hsize] at h3 h4
  refine ⟨h1, hspace it hit, h2, fun hc => ⟨h3, h4, h5, ?_⟩⟩
  obtain ⟨s, c, s1, hrun, hcl⟩ := h6 hc
  refine ⟨s, c, s1, hrun, hcl, ?_, ?_, ?_⟩
  · intro hz
    rw [hgen, hz] at hrun
    have e : (New R Zero seed size).gen = newZeroGenerator.toGenerator := rfl
    rw [e, zeroGenerator_Gen_eq] at hrun
    simp only [Except.ok.injEq, Prod.mk.injEq] at hrun
    rw [← hrun.1, List.length_replicate]
    rfl
  · intro hz ht
    have e : (New R dType seed size).gen = newBinaryGenerator.toGenerator R := by
      by_cases hb : dType = Binary
      · rw [hb]
        rfl
      · exact New_gen_default R dType seed size hz hb ht
    rw [hgen, e, binaryGenerator_Gen_eq] at hrun
    simp only [Except.ok.injEq, Prod.mk.injEq] at hrun
    rw [← hrun.1, R.Read_length]
    rfl
  · intro ht
    rw [hgen, ht] at hrun
    have e : (New R Text seed size).gen = newTextGenerator.toGenerator R := rfl
    obtain ⟨lines, r1, hpar, hne, -⟩ := genParagraph_lines R s
    rw [e] at hrun
    have hrun2 : newTextGenerator.Gen R s it.pos it.rem = .ok (.ok c, s1) := hrun
    rw [textGen_chunk R s it.pos it.rem lines r1 hpar] at hrun2
    simp only [Except.ok.injEq, Prod.mk.injEq] at hrun2
    refine ⟨lines, ?_, hne, hrun2.1.symm⟩
    rw [hpar, hrun2.2]

theorem C21_witness :
    FromNew lcg Text 5 1000 (New lcg Text 5 1000) ∧ [0, 0, 0].length < 4 ∧
    (∃ ret, (New lcg Text 5 1000).Read lcg 4 [0, 0, 0] = .ok ret ∧
      ((New lcg Text 5 1000).ReadLog lcg 4 [0, 0, 0]).1 = .ok ret) ∧
    ((New lcg Text 5 1000).ReadLog lcg 4 [0, 0, 0]).2.length ≤ [0, 0, 0].length + 1 :=
  ⟨FromNew.new, by decide,
    (C21_read_terminates_and_stays_in_range lcg Text 5 1000 4 _ [0, 0, 0] FromNew.new
      (by decide)).1,
    (C21_read_terminates_and_stays_in_range lcg Text 5 1000 4 (New lcg Text 5 1000) [0, 0, 0]
      FromNew.new (by decide)).2.1⟩

end Randdata
